import Mathlib

/-!
# LL(1) analysis core of `ll1_parser.cpp`

A shallow embedding of `LL1Parser` (FIRST sets, FOLLOW sets, prediction symbols and the
LL(1) table) together with theorems about it.

Conventions of the embedding:

* `std::string` is `String`, `std::vector` is `List`, `std::unordered_set<std::string>` is
  `Finset String` (the code never depends on the iteration order of a set).
* `std::unordered_map<std::string, std::unordered_set<std::string>>` is `SetMap`, an association
  list with the operations the code uses (`find`, `operator[]`, `empty`, `operator==`).
* The grammar map `gr_.g_` is the list of its entries in the order in which the map enumerates
  them.
* The two `do ... while` loops take a pass budget and return `none` when the budget is used up
  before the loop condition becomes false.
-/

namespace LL1

/-! ## Data model -/

/-- A right-hand side: `using production = std::vector<std::string>`. -/
abbrev production := List String

/-- The reserved symbols of `SymbolTable` (`gr_.st_.EOL_`, `gr_.st_.EPSILON_`); their literal
values are declared in `symbol_table.hpp`, so they are fields here. -/
structure SymbolTable where
  EOL_ : String
  EPSILON_ : String

/-- The members of `Grammar` the parser reads: `g_`, `axiom_` and `st_`. -/
structure Grammar where
  g_ : List (String × List production)
  axiom_ : String
  st_ : SymbolTable

/-- Modelled from the spec: `SymbolTable::IsTerminal`, declared in `symbol_table.hpp`. A symbol is
a non-terminal iff it is a key of the production mapping; every other symbol is terminal. -/
def Grammar.IsTerminal (gr : Grammar) (symbol : String) : Bool :=
  !(gr.g_.any (fun e => decide (e.1 = symbol)))

/-- The map type of `first_sets_` and `follow_sets_`. -/
abbrev SetMap := List (String × Finset String)

/-- `m.find(k)`: the mapped set, if the key is present. -/
def SetMap.find : SetMap → String → Option (Finset String)
  | [], _ => none
  | e :: m, k => if e.1 = k then some e.2 else SetMap.find m k

/-- `m.contains(k)`. -/
def SetMap.contains (m : SetMap) (k : String) : Bool := (m.find k).isSome

/-- The set read through `m[k]` or `m.at(k)`; a key that is not present reads as the empty set. -/
def SetMap.get (m : SetMap) (k : String) : Finset String := (m.find k).getD ∅

/-- The store `m[k] = v`: overwrites the mapped set, inserting the key when it is absent. -/
def SetMap.set : SetMap → String → Finset String → SetMap
  | [], k, v => [(k, v)]
  | e :: m, k, v => if e.1 = k then (k, v) :: m else e :: SetMap.set m k v

/-- The effect of evaluating `m[k]` on the map itself: an absent key is inserted with an empty
set. -/
def SetMap.touch (m : SetMap) (k : String) : SetMap :=
  if m.contains k then m else m.set k ∅

/-- `m1 == m2` on unordered maps: the same keys, each with the same mapped set. -/
def SetMap.beq (m1 m2 : SetMap) : Bool :=
  m1.all (fun e => decide (m2.find e.1 = m1.find e.1)) &&
  m2.all (fun e => decide (m1.find e.1 = m2.find e.1))

/-- One column of the table: `std::unordered_map<std::string, std::vector<production>>`, as the
partial function from terminal to cell. -/
abbrev Column := String → Option (List production)

/-- The state of an `LL1Parser`. -/
structure LL1Parser where
  gr_ : Grammar
  first_sets_ : SetMap
  follow_sets_ : SetMap
  ll1_t_ : List (String × Column)

/-! ## FIRST -/

/-- `LL1Parser::First(rule, result)`: returns `first_sets_` (which `operator[]` may extend) and the
accumulator. -/
def First (gr : Grammar) : List String → SetMap → Finset String → SetMap × Finset String
  | [], first_sets, result => (first_sets, insert gr.st_.EPSILON_ result)
  | s :: rest, first_sets, result =>
    if rest = [] ∧ s = gr.st_.EPSILON_ then
      (first_sets, insert gr.st_.EPSILON_ result)
    else if rest ≠ [] ∧ s = gr.st_.EPSILON_ then
      First gr rest first_sets result
    else if gr.IsTerminal s then
      if s = gr.st_.EOL_ then (first_sets, insert gr.st_.EPSILON_ result)
      else (first_sets, insert s result)
    else
      let first_sets1 := first_sets.touch s
      let fii := first_sets1.get s
      let result1 := result ∪ fii.filter (fun x => x ≠ gr.st_.EPSILON_)
      if gr.st_.EPSILON_ ∉ fii then (first_sets1, result1)
      else First gr rest first_sets1 result1

/-- The first loop of `ComputeFirstSets` and of `ComputeFollowSets`: `m[nt] = {}` for every key of
the grammar. -/
def initSets (gr : Grammar) (m : SetMap) : SetMap :=
  gr.g_.foldl (fun acc e => acc.set e.1 ∅) m

/-- The replacement of `EOL` by `EPSILON` in `tempFirst` (the `if` inside the loops of
`ComputeFirstSets`). -/
def replaceEOL (gr : Grammar) (tempFirst : Finset String) : Finset String :=
  if gr.st_.EOL_ ∈ tempFirst then insert gr.st_.EPSILON_ (tempFirst.erase gr.st_.EOL_)
  else tempFirst

/-- The body of the innermost loop of `ComputeFirstSets` for one production. -/
def ComputeFirstSets.step (gr : Grammar) (nonTerminal : String) (first_sets : SetMap)
    (prod : production) : SetMap :=
  let r := First gr prod first_sets ∅
  let tempFirst := replaceEOL gr r.2
  r.1.set nonTerminal (r.1.get nonTerminal ∪ tempFirst)

/-- One execution of the two nested `for` loops of `ComputeFirstSets`. -/
def ComputeFirstSets.pass (gr : Grammar) (first_sets : SetMap) : SetMap :=
  gr.g_.foldl (fun acc e => e.2.foldl (ComputeFirstSets.step gr e.1) acc) first_sets

/-- The `do ... while (changed)` loop of `ComputeFirstSets`, with a budget of passes. -/
def ComputeFirstSets.loop (gr : Grammar) : Nat → SetMap → Option SetMap
  | 0, _ => none
  | fuel + 1, first_sets =>
    let old_first_sets := first_sets
    let first_sets1 := ComputeFirstSets.pass gr first_sets
    if old_first_sets.beq first_sets1 then some first_sets1
    else ComputeFirstSets.loop gr fuel first_sets1

/-- `LL1Parser::ComputeFirstSets`, on the member `first_sets_`. -/
def ComputeFirstSets (fuel : Nat) (gr : Grammar) (first_sets : SetMap) : Option SetMap :=
  ComputeFirstSets.loop gr fuel (initSets gr first_sets)

/-! ## FOLLOW -/

/-- The loop `for (t : T) changed |= follow_sets_[symbol].insert(t).second`: the set of `symbol`
becomes its union with `T`, the flag tells whether a member was new, and the key is only
touched when the loop body runs. -/
def insertAll (follow_sets : SetMap) (symbol : String) (T : Finset String) : SetMap × Bool :=
  if T = ∅ then (follow_sets, false)
  else (follow_sets.set symbol (follow_sets.get symbol ∪ T),
        decide (¬ T ⊆ follow_sets.get symbol))

/-- `LL1Parser::UpdateFollow(symbol, lhs, rhs, i)`: returns `first_sets_`, `follow_sets_` and the
result. -/
def UpdateFollow (gr : Grammar) (first_sets follow_sets : SetMap) (symbol lhs : String)
    (rhs : production) (i : Nat) : SetMap × SetMap × Bool :=
  let r : SetMap × Finset String :=
    if i + 1 < rhs.length then First gr (rhs.drop (i + 1)) first_sets ∅
    else (first_sets, {gr.st_.EPSILON_})
  let first_remaining := r.2
  let a := insertAll follow_sets symbol (first_remaining.filter (fun x => x ≠ gr.st_.EPSILON_))
  if gr.st_.EPSILON_ ∈ first_remaining then
    let follow_sets1 := a.1.touch lhs
    let b := insertAll follow_sets1 symbol (follow_sets1.get lhs)
    (r.1, b.1, a.2 || b.2)
  else (r.1, a.1, a.2)

/-- The body of the innermost loop of `ComputeFollowSets` at position `i` of `rhs`. -/
def ComputeFollowSets.position (gr : Grammar) (lhs : String) (rhs : production)
    (st : SetMap × SetMap × Bool) (i : Nat) : SetMap × SetMap × Bool :=
  match rhs.get? i with
  | none => st
  | some symbol =>
    if !gr.IsTerminal symbol then
      let u := UpdateFollow gr st.1 st.2.1 symbol lhs rhs i
      (u.1, u.2.1, st.2.2 || u.2.2)
    else st

/-- One execution of the three nested `for` loops of `ComputeFollowSets`, from the given
`first_sets_`, `follow_sets_` and `changed`. -/
def ComputeFollowSets.pass (gr : Grammar) (st : SetMap × SetMap × Bool) : SetMap × SetMap × Bool :=
  gr.g_.foldl (fun acc e =>
    e.2.foldl (fun acc1 rhs =>
      (List.range rhs.length).foldl (ComputeFollowSets.position gr e.1 rhs) acc1) acc) st

/-- The `do ... while (changed)` loop of `ComputeFollowSets`, with a budget of passes. -/
def ComputeFollowSets.loop (gr : Grammar) : Nat → SetMap → SetMap → Option (SetMap × SetMap)
  | 0, _, _ => none
  | fuel + 1, first_sets, follow_sets =>
    let st := ComputeFollowSets.pass gr (first_sets, follow_sets, false)
    if st.2.2 then ComputeFollowSets.loop gr fuel st.1 st.2.1 else some (st.1, st.2.1)

/-- The statements of `ComputeFollowSets` before its loop: every key of the grammar is mapped to
the empty set, then `follow_sets_[gr_.axiom_].insert(gr_.st_.EOL_)`. -/
def ComputeFollowSets.init (gr : Grammar) (follow_sets : SetMap) : SetMap :=
  let follow_sets1 := initSets gr follow_sets
  (follow_sets1.touch gr.axiom_).set gr.axiom_ (insert gr.st_.EOL_ (follow_sets1.get gr.axiom_))

/-- `LL1Parser::ComputeFollowSets`, on the members `first_sets_` and `follow_sets_`. -/
def ComputeFollowSets (fuel : Nat) (gr : Grammar) (first_sets follow_sets : SetMap) :
    Option (SetMap × SetMap) :=
  ComputeFollowSets.loop gr fuel first_sets (ComputeFollowSets.init gr follow_sets)

/-- `LL1Parser::Follow(arg)`. -/
def Follow (follow_sets : SetMap) (arg : String) : Finset String :=
  if !follow_sets.contains arg then ∅ else follow_sets.get arg

/-- `LL1Parser::PredictionSymbols(antecedent, consequent)`: returns `first_sets_` and the set. -/
def PredictionSymbols (gr : Grammar) (first_sets follow_sets : SetMap) (antecedent : String)
    (consequent : production) : SetMap × Finset String :=
  let r := First gr consequent first_sets ∅
  let hd := r.2
  if gr.st_.EPSILON_ ∉ hd then (r.1, hd)
  else (r.1, hd.erase gr.st_.EPSILON_ ∪ Follow follow_sets antecedent)

/-! ## Counting the passes -/

/-- The `do ... while (changed)` loop of `ComputeFirstSets` with a counter of the passes it
executes. -/
def ComputeFirstSets.passes (gr : Grammar) : Nat → SetMap → Option Nat
  | 0, _ => none
  | fuel + 1, first_sets =>
    let old_first_sets := first_sets
    let first_sets1 := ComputeFirstSets.pass gr first_sets
    if old_first_sets.beq first_sets1 then some 1
    else (ComputeFirstSets.passes gr fuel first_sets1).map (fun n => n + 1)

/-- The `do ... while (changed)` loop of `ComputeFollowSets` with a counter of the passes it
executes. -/
def ComputeFollowSets.passes (gr : Grammar) : Nat → SetMap → SetMap → Option Nat
  | 0, _, _ => none
  | fuel + 1, first_sets, follow_sets =>
    let st := ComputeFollowSets.pass gr (first_sets, follow_sets, false)
    if st.2.2 then (ComputeFollowSets.passes gr fuel st.1 st.2.1).map (fun n => n + 1)
    else some 1

/-! ## The table -/

/-- The constructor `LL1Parser::LL1Parser(gr)`. -/
def LL1Parser.new (fuel : Nat) (gr : Grammar) : Option LL1Parser :=
  match ComputeFirstSets fuel gr [] with
  | none => none
  | some first_sets =>
    match ComputeFollowSets fuel gr first_sets [] with
    | none => none
    | some r => some ⟨gr, r.1, r.2, []⟩

/-- The loop `for (symbol : ds)` of `CreateLL1Table`: `p` is appended to the cell of every symbol
of `ds`. -/
def Column.add (column : Column) (ds : Finset String) (p : production) : Column :=
  fun symbol => if symbol ∈ ds then some ((column symbol).getD [] ++ [p]) else column symbol

/-- Whether the loop `for (symbol : ds)` finds a cell that is not empty. -/
def Column.conflict (column : Column) (ds : Finset String) : Bool :=
  decide (∃ symbol ∈ ds, (column symbol).getD [] ≠ [])

/-- The body of the loop over the productions of `lhs` in `CreateLL1Table`; the state is
`first_sets_`, `column` and `has_conflict`. -/
def CreateLL1Table.step (gr : Grammar) (follow_sets : SetMap) (lhs : String)
    (st : SetMap × Column × Bool) (p : production) : SetMap × Column × Bool :=
  let r := PredictionSymbols gr st.1 follow_sets lhs p
  let ds := r.2
  (r.1, st.2.1.add ds p, st.2.2 || st.2.1.conflict ds)

/-- `ll1_t_.try_emplace(lhs, column)`: nothing happens when the key is present. -/
def tryEmplace (t : List (String × Column)) (lhs : String) (column : Column) :
    List (String × Column) :=
  if t.any (fun e => decide (e.1 = lhs)) then t else t ++ [(lhs, column)]

/-- The body of the outer loop of `CreateLL1Table` for one entry of the grammar; the state is
`first_sets_`, `ll1_t_` and `has_conflict`. -/
def CreateLL1Table.row (gr : Grammar) (follow_sets : SetMap)
    (st : SetMap × List (String × Column) × Bool) (e : String × List production) :
    SetMap × List (String × Column) × Bool :=
  let c := e.2.foldl (CreateLL1Table.step gr follow_sets e.1)
    (st.1, (fun _ => none), st.2.2)
  (c.1, tryEmplace st.2.1 e.1 c.2.1, c.2.2)

/-- The `if` at the start of `CreateLL1Table`: `first_sets_` and `follow_sets_` are computed
when one of them is empty. -/
def CreateLL1Table.ensureSets (fuel : Nat) (p : LL1Parser) : Option (SetMap × SetMap) :=
  if p.first_sets_.isEmpty || p.follow_sets_.isEmpty then
    match ComputeFirstSets fuel p.gr_ p.first_sets_ with
    | none => none
    | some first_sets => ComputeFollowSets fuel p.gr_ first_sets p.follow_sets_
  else some (p.first_sets_, p.follow_sets_)

/-- `LL1Parser::CreateLL1Table`: the returned boolean and the parser afterwards. -/
def CreateLL1Table (fuel : Nat) (p : LL1Parser) : Option (Bool × LL1Parser) :=
  match CreateLL1Table.ensureSets fuel p with
  | none => none
  | some s =>
    let r := p.gr_.g_.foldl (CreateLL1Table.row p.gr_ s.2) (s.1, p.ll1_t_, false)
    some (!r.2.2, ⟨p.gr_, r.1, s.2, r.2.1⟩)

/-- The cell `(lhs, symbol)` of a table, `none` when the row or the cell is absent. -/
def cell (t : List (String × Column)) (lhs symbol : String) : Option (List production) :=
  match t.find? (fun e => decide (e.1 = lhs)) with
  | none => none
  | some e => e.2 symbol

/-! ## Printing the table -/

/-- The inner loops of `PrintTable` over the productions of a cell and over the symbols of each
production, appending to the stream `oss`. -/
def PrintTable.prods (oss : String) (prods : List production) : String :=
  prods.foldl (fun oss1 prod => prod.foldl (fun oss2 smb => oss2 ++ smb ++ " ") (oss1 ++ "[") ++ "]")
    oss

/-- The body of the loop of `PrintTable` over `all_terminals` for the row of `lhs`. -/
def PrintTable.line (t : List (String × Column)) (lhs : String) (oss : String)
    (terminal : String) : String :=
  let oss1 := oss ++ "  " ++ terminal ++ " -> "
  let oss2 :=
    match cell t lhs terminal with
    | some prods => PrintTable.prods oss1 prods
    | none => oss1 ++ "-"
  oss2 ++ "\n"

/-- The comparator `PrintTable` sorts `non_terminals` with; `a < b` on strings is the
lexicographic order of their characters. -/
def PrintTable.order (start a b : String) : Bool :=
  if a = start then true
  else if b = start then false
  else decide (a.data < b.data)

/-- `LL1Parser::PrintTable`; `all_terminals` lists the members of the set of that name in the
order in which the loop enumerates them. -/
def PrintTable (p : LL1Parser) (all_terminals : List String) : String :=
  let oss := "\nLL(1) Table:\n"
  let non_terminals := (p.ll1_t_.map (fun e => e.1)).insertionSort
    (fun a b => PrintTable.order p.gr_.axiom_ a b = true)
  non_terminals.foldl
    (fun oss1 lhs => all_terminals.foldl (PrintTable.line p.ll1_t_ lhs) (oss1 ++ "\n" ++ lhs ++ ":\n"))
    oss

/-! ## Notions used in the statements and proofs -/

/-- Extensional equality of two maps: every key is mapped alike. -/
def SetMap.Equiv (m1 m2 : SetMap) : Prop := ∀ k, m1.find k = m2.find k

/-- The set `First` contributes for `rule` when the FIRST set of a non-terminal `s` reads as
`F s`. -/
def firstOf (gr : Grammar) (F : String → Finset String) : List String → Finset String
  | [] => {gr.st_.EPSILON_}
  | s :: rest =>
    if s = gr.st_.EPSILON_ then firstOf gr F rest
    else if gr.IsTerminal s then (if s = gr.st_.EOL_ then {gr.st_.EPSILON_} else {s})
    else if gr.st_.EPSILON_ ∈ F s then
      (F s).filter (fun x => x ≠ gr.st_.EPSILON_) ∪ firstOf gr F rest
    else (F s).filter (fun x => x ≠ gr.st_.EPSILON_)

/-- Every non-terminal of the grammar is a key of the map. -/
def Grammar.HasKeys (gr : Grammar) (m : SetMap) : Prop :=
  ∀ s, gr.IsTerminal s = false → m.contains s = true

/-- The keys of the grammar map, in enumeration order. -/
def Grammar.keys (gr : Grammar) : List String := gr.g_.map Prod.fst

/-- The pairs (non-terminal, production) in the order in which the nested loops over `gr_.g_`
visit them. -/
def Grammar.rules (gr : Grammar) : List (String × production) :=
  gr.g_.flatMap (fun e => e.2.map (fun p => (e.1, p)))

/-- Pointwise inclusion of the sets two maps hold. -/
def SetMap.le (m1 m2 : SetMap) : Prop := ∀ k, m1.get k ⊆ m2.get k

/-- All symbols that occur in a right-hand side. -/
def Grammar.symbols (gr : Grammar) : List String :=
  gr.g_.flatMap (fun e => e.2.flatMap (fun p => p))

/-- The terminals that occur in a right-hand side. -/
def Grammar.terminals (gr : Grammar) : Finset String :=
  (gr.symbols.filter (fun s => gr.IsTerminal s)).toFinset

/-- The number of passes after which the loop of `ComputeFirstSets` has certainly stopped. -/
def Grammar.firstBound (gr : Grammar) : Nat :=
  gr.keys.toFinset.card * (insert gr.st_.EPSILON_ gr.terminals).card + 1

/-- The sets of the non-terminals hold only `EPSILON` and terminals of the grammar. -/
def Grammar.FirstBounded (gr : Grammar) (F : String → Finset String) : Prop :=
  ∀ k, gr.IsTerminal k = false → F k ⊆ insert gr.st_.EPSILON_ gr.terminals

/-- The facts about `first_sets_` that every pass of `ComputeFirstSets` keeps. -/
structure FirstInv (gr : Grammar) (fs0 fs : SetMap) : Prop where
  hasKeys : gr.HasKeys fs
  bounded : gr.FirstBounded fs.get
  contains : ∀ k, fs.contains k = fs0.contains k
  terminal : ∀ k, gr.IsTerminal k = true → fs.get k = fs0.get k

/-- The size of the FIRST sets of the non-terminals, the quantity every changing pass
increases. -/
def firstMeasure (gr : Grammar) (fs : SetMap) : Nat :=
  ∑ k ∈ gr.keys.toFinset, (fs.get k).card

/-- A sequence of symbols with its `EPSILON` symbols read as the empty string. -/
def Grammar.eraseEpsilon (gr : Grammar) (p : List String) : List String :=
  p.filter (fun s => decide (s ≠ gr.st_.EPSILON_))

/-- One derivation step: an occurrence of a non-terminal is replaced by one of its right-hand
sides, whose `EPSILON` symbols are read as the empty string. -/
inductive Grammar.Step (gr : Grammar) : List String → List String → Prop
  | rewrite (u v : List String) (e : String × List production) (p : production) :
      e ∈ gr.g_ → p ∈ e.2 → Grammar.Step gr (u ++ e.1 :: v) (u ++ gr.eraseEpsilon p ++ v)

/-- Derivation in zero or more steps. -/
def Grammar.Derives (gr : Grammar) : List String → List String → Prop :=
  Relation.ReflTransGen gr.Step

/-- Derivation as a forest: every symbol of the left sequence is either kept or expanded by a
production, whose symbols are derived in turn. -/
inductive Grammar.Gen (gr : Grammar) : List String → List String → Prop
  | nil : Grammar.Gen gr [] []
  | keep (s : String) (α w : List String) : Grammar.Gen gr α w → Grammar.Gen gr (s :: α) (s :: w)
  | expand (e : String × List production) (p : production) (α w1 w2 : List String) :
      e ∈ gr.g_ → p ∈ e.2 → Grammar.Gen gr (gr.eraseEpsilon p) w1 → Grammar.Gen gr α w2 →
      Grammar.Gen gr (e.1 :: α) (w1 ++ w2)

/-- `EOL` occurs in no right-hand side. -/
def Grammar.NoEOL (gr : Grammar) : Prop := ∀ e ∈ gr.g_, ∀ p ∈ e.2, gr.st_.EOL_ ∉ p

/-- What membership of `t` in the set computed for the sequence `α` must mean. -/
def Grammar.Justified (gr : Grammar) (α : List String) (t : String) : Prop :=
  (t = gr.st_.EPSILON_ → gr.Gen α []) ∧
  (t ≠ gr.st_.EPSILON_ → gr.IsTerminal t = true ∧ ∃ γ, gr.Gen α (t :: γ)) ∧
  (t = gr.st_.EOL_ → t = gr.st_.EPSILON_)

/-- Every member of the set of a non-terminal is justified by a derivation. -/
def Grammar.FirstSound (gr : Grammar) (F : String → Finset String) : Prop :=
  ∀ X, gr.IsTerminal X = false → ∀ t ∈ F X, gr.Justified [X] t

/-- The sets are closed under the rule that `ComputeFirstSets` applies. -/
def Grammar.FirstClosed (gr : Grammar) (F : String → Finset String) : Prop :=
  ∀ r ∈ gr.rules, firstOf gr F r.2 ⊆ F r.1

/-- What `UpdateFollow` adds to the FOLLOW set of the symbol at position `i` of `rhs`, when the
FIRST sets read as `F` and the FOLLOW sets as `G`. -/
def followAdd (gr : Grammar) (F G : String → Finset String) (lhs : String) (rhs : production)
    (i : Nat) : Finset String :=
  (firstOf gr F (rhs.drop (i + 1))).filter (fun x => x ≠ gr.st_.EPSILON_) ∪
    (if gr.st_.EPSILON_ ∈ firstOf gr F (rhs.drop (i + 1)) then G lhs else ∅)

/-- The triples (left-hand side, right-hand side, position) in the order in which the nested
loops of `ComputeFollowSets` visit them. -/
def Grammar.sites (gr : Grammar) : List (String × production × Nat) :=
  gr.rules.flatMap (fun r => (List.range r.2.length).map (fun i => (r.1, r.2, i)))

/-- The symbols a FOLLOW set can hold when the FIRST sets read as `F`. -/
def Grammar.followUniverse (gr : Grammar) (F : String → Finset String) : Finset String :=
  insert gr.st_.EOL_
    ((gr.terminals ∪ gr.keys.toFinset.biUnion F).filter (fun x => x ≠ gr.st_.EPSILON_))

/-- The number of passes after which the loop of `ComputeFollowSets` has certainly stopped. -/
def Grammar.followBound (gr : Grammar) (F : String → Finset String) : Nat :=
  gr.keys.toFinset.card * (gr.followUniverse F).card + 1

/-- The FOLLOW sets of the non-terminals stay inside `followUniverse`. -/
def Grammar.FollowBounded (gr : Grammar) (F G : String → Finset String) : Prop :=
  ∀ k, gr.IsTerminal k = false → G k ⊆ gr.followUniverse F

/-- The size of the FOLLOW sets of the non-terminals. -/
def followMeasure (gr : Grammar) (fo : SetMap) : Nat :=
  ∑ k ∈ gr.keys.toFinset, (fo.get k).card

/-- The facts about the state of a pass of `ComputeFollowSets` that every step keeps; `fs0` and
`fo0` are the maps at the start of the pass. -/
structure FollowInv (gr : Grammar) (fs0 fo0 : SetMap) (st : SetMap × SetMap × Bool) : Prop where
  fs_get : st.1.get = fs0.get
  le : SetMap.le fo0 st.2.1
  bounded : gr.FollowBounded fs0.get st.2.1.get
  terminal : ∀ k, gr.IsTerminal k = true → st.2.1.get k = fo0.get k
  flag_true : st.2.2 = true → followMeasure gr fo0 < followMeasure gr st.2.1
  flag_false : st.2.2 = false → st.2.1.get = fo0.get

/-- The sets are closed under the rule that `UpdateFollow` applies. -/
def Grammar.FollowClosed (gr : Grammar) (F G : String → Finset String) : Prop :=
  ∀ x ∈ gr.sites, ∀ sym, x.2.1.get? x.2.2 = some sym → gr.IsTerminal sym = false →
    followAdd gr F G x.1 x.2.1 x.2.2 ⊆ G sym

/-- Some sentential form derivable from the sequence (axiom, `EOL`) contains `X` immediately
followed by `t`. -/
def Grammar.FollowsIn (gr : Grammar) (X t : String) : Prop :=
  ∃ u v, gr.Derives [gr.axiom_, gr.st_.EOL_] (u ++ X :: t :: v)

/-- The symbol `X` occurs in some sentential form derivable from the axiom. -/
def Grammar.Reachable (gr : Grammar) (X : String) : Prop :=
  ∃ u v, gr.Derives [gr.axiom_] (u ++ X :: v)

/-- Every member of the FOLLOW set of a non-terminal follows it in some sentential form. -/
def Grammar.FollowSound (gr : Grammar) (G : String → Finset String) : Prop :=
  ∀ X, gr.IsTerminal X = false → ∀ t ∈ G X, gr.FollowsIn X t

/-- A number of passes that suffices for both loops when `ComputeFollowSets` runs on the FIRST
sets that `ComputeFirstSets` computed. -/
def Grammar.passBound (gr : Grammar) : Nat :=
  gr.keys.toFinset.card * (gr.terminals.card + 1) + 1

/-- The set `PredictionSymbols` returns when the FIRST sets read as `F`. -/
def predOf (gr : Grammar) (F : String → Finset String) (fo : SetMap) (lhs : String)
    (p : production) : Finset String :=
  if gr.st_.EPSILON_ ∉ firstOf gr F p then firstOf gr F p
  else (firstOf gr F p).erase gr.st_.EPSILON_ ∪ fo.get lhs

/-- The productions of `ps`, in order, that have `t` among their prediction symbols. -/
def cellOf (gr : Grammar) (F : String → Finset String) (fo : SetMap) (lhs : String)
    (ps : List production) (t : String) : List production :=
  ps.filter (fun p => decide (t ∈ predOf gr F fo lhs p))

/-- The column that `CreateLL1Table` builds for `lhs` with productions `ps`. -/
def columnOf (gr : Grammar) (F : String → Finset String) (fo : SetMap) (lhs : String)
    (ps : List production) : Column :=
  fun t => if cellOf gr F fo lhs ps t = [] then none else some (cellOf gr F fo lhs ps t)

/-- Two states of a pass of `ComputeFollowSets` that hold the same. -/
def StateEquiv (st st' : SetMap × SetMap × Bool) : Prop :=
  SetMap.Equiv st.1 st'.1 ∧ SetMap.Equiv st.2.1 st'.2.1 ∧ st.2.2 = st'.2.2

/-! ## Example grammars -/

/-- The reserved symbols used in the examples: `$` for `EOL` (as the help text of `main.cpp`
says) and `EPSILON`. -/
def exampleSymbols : SymbolTable := ⟨"$", "EPSILON"⟩

/-- The grammar `E -> T E' ; E' -> + T E' | EPSILON ; T -> id` with axiom `E`. -/
def exampleClassic : Grammar :=
  ⟨[("E", [["T", "E'"]]), ("E'", [["+", "T", "E'"], ["EPSILON"]]), ("T", [["id"]])], "E",
    exampleSymbols⟩

/-- The grammar `S -> a | a b` with axiom `S`. -/
def exampleConflict : Grammar := ⟨[("S", [["a"], ["a", "b"]])], "S", exampleSymbols⟩

/-- The grammar `S -> a S | EPSILON` with axiom `S`. -/
def exampleNullable : Grammar := ⟨[("S", [["a", "S"], ["EPSILON"]])], "S", exampleSymbols⟩

/-- The one-rule grammar `S -> a` with axiom `S`. -/
def exampleSingle : Grammar := ⟨[("S", [["a"]])], "S", exampleSymbols⟩

/-- The grammar `X -> a X | EPSILON` with axiom `X`. -/
def exampleRecursive : Grammar := ⟨[("X", [["a", "X"], ["EPSILON"]])], "X", exampleSymbols⟩

/-- The grammar `S -> a ; U -> B c ; B -> d` with axiom `S`: `U` and `B` cannot be reached from
the axiom. -/
def exampleUnreachable : Grammar :=
  ⟨[("S", [["a"]]), ("U", [["B", "c"]]), ("B", [["d"]])], "S", exampleSymbols⟩

/-- The grammar `EPSILON -> x` with axiom `EPSILON`: the reserved symbol is a key of the map. -/
def exampleEpsilonKey : Grammar := ⟨[("EPSILON", [["x"]])], "EPSILON", exampleSymbols⟩

/-- The number of pairs of a non-terminal and a terminal or `EPSILON`: the number of keys times
the number of terminals other than `EPSILON` that occur in the productions, plus one for
`EPSILON`. -/
def Grammar.pairCount (gr : Grammar) : Nat :=
  gr.keys.toFinset.card * ((gr.terminals.erase gr.st_.EPSILON_).card + 1)

/-- The grammar without any non-terminal. -/
def exampleEmpty : Grammar := ⟨[], "S", exampleSymbols⟩

/-- The grammar whose only production is `S -> ` with an empty right-hand side. -/
def exampleEmptyProduction : Grammar := ⟨[("S", [[]])], "S", exampleSymbols⟩

/-- The grammar `S -> a S | b` with axiom `S`. -/
def exampleList : Grammar := ⟨[("S", [["a", "S"], ["b"]])], "S", exampleSymbols⟩

/-! ## The passes of `ComputeFirstSets` without the replacement of `EOL` -/

/-- The body of the innermost loop of `ComputeFirstSets` with the replacement of `EOL` by
`EPSILON` in `tempFirst` left out. -/
def ComputeFirstSets.stepPlain (gr : Grammar) (nonTerminal : String) (first_sets : SetMap)
    (prod : production) : SetMap :=
  let r := First gr prod first_sets ∅
  r.1.set nonTerminal (r.1.get nonTerminal ∪ r.2)

/-- One execution of the two nested `for` loops, with `stepPlain` as the body. -/
def ComputeFirstSets.passPlain (gr : Grammar) (first_sets : SetMap) : SetMap :=
  gr.g_.foldl (fun acc e => e.2.foldl (ComputeFirstSets.stepPlain gr e.1) acc) first_sets

/-- The `do ... while (changed)` loop over `passPlain`. -/
def ComputeFirstSets.loopPlain (gr : Grammar) : Nat → SetMap → Option SetMap
  | 0, _ => none
  | fuel + 1, first_sets =>
    let old_first_sets := first_sets
    let first_sets1 := ComputeFirstSets.passPlain gr first_sets
    if old_first_sets.beq first_sets1 then some first_sets1
    else ComputeFirstSets.loopPlain gr fuel first_sets1

/-- The function `ComputeFirstSets` with the replacement of `EOL` left out of its passes. -/
def ComputeFirstSetsPlain (fuel : Nat) (gr : Grammar) (first_sets : SetMap) : Option SetMap :=
  ComputeFirstSets.loopPlain gr fuel (initSets gr first_sets)

/-- The values `first_sets_` takes while `ComputeFirstSets` runs on the start value `first_sets`:
the start value, the value after an assignment `first_sets_[nt] = {}` of the first loop, and
the value after the body of the innermost loop has run for a production of the grammar. -/
inductive ComputeFirstSets.Point (gr : Grammar) (first_sets : SetMap) : SetMap → Prop
  | start : ComputeFirstSets.Point gr first_sets first_sets
  | init (fs : SetMap) (e : String × List production) :
      ComputeFirstSets.Point gr first_sets fs → e ∈ gr.g_ →
      ComputeFirstSets.Point gr first_sets (fs.set e.1 ∅)
  | step (fs : SetMap) (r : String × production) :
      ComputeFirstSets.Point gr first_sets fs → r ∈ gr.rules →
      ComputeFirstSets.Point gr first_sets (ComputeFirstSets.step gr r.1 fs r.2)

/-- No set of a non-terminal holds `EOL`. -/
def Grammar.FirstClean (gr : Grammar) (F : String → Finset String) : Prop :=
  ∀ k, gr.IsTerminal k = false → gr.st_.EOL_ ∉ F k

/-! ## The values of `follow_sets_` during `ComputeFollowSets` -/

/-- The values `follow_sets_` takes while `ComputeFollowSets` runs on the start value
`follow_sets`: the start value, the value after an assignment `follow_sets_[nt] = {}` of the first
loop, the value after `follow_sets_[gr_.axiom_].insert(gr_.st_.EOL_)`, and the value after the body
of the innermost loop has run at a position of a production of the grammar. -/
inductive ComputeFollowSets.Point (gr : Grammar) (follow_sets : SetMap) : SetMap → Prop
  | first : ComputeFollowSets.Point gr follow_sets follow_sets
  | clear (fo : SetMap) (e : String × List production) :
      ComputeFollowSets.Point gr follow_sets fo → e ∈ gr.g_ →
      ComputeFollowSets.Point gr follow_sets (fo.set e.1 ∅)
  | eol (fo : SetMap) :
      ComputeFollowSets.Point gr follow_sets fo →
      ComputeFollowSets.Point gr follow_sets
        ((fo.touch gr.axiom_).set gr.axiom_ (insert gr.st_.EOL_ (fo.get gr.axiom_)))
  | update (fs fo : SetMap) (changed : Bool) (x : String × production × Nat) :
      ComputeFollowSets.Point gr follow_sets fo → x ∈ gr.sites →
      ComputeFollowSets.Point gr follow_sets
        (ComputeFollowSets.position gr x.1 x.2.1 (fs, fo, changed) x.2.2).2.1

/-- No set of the map holds `EPSILON`. -/
def Grammar.FollowClean (gr : Grammar) (G : String → Finset String) : Prop :=
  ∀ k, gr.st_.EPSILON_ ∉ G k

/-- No row of the table has a cell in the column of `EPSILON`. -/
def Grammar.TableClean (gr : Grammar) (t : List (String × Column)) : Prop :=
  ∀ e ∈ t, e.2 gr.st_.EPSILON_ = none

/-- The two grammars hold the same entries, enumerated in different orders, and have the same
axiom and the same reserved symbols. -/
def Grammar.Reordered (gr1 gr2 : Grammar) : Prop :=
  gr1.g_.Perm gr2.g_ ∧ gr1.axiom_ = gr2.axiom_ ∧ gr1.st_ = gr2.st_

/-- The sets the map holds for the non-terminals are included in those of `G`. -/
def Grammar.KeyLe (gr : Grammar) (F G : String → Finset String) : Prop :=
  ∀ k, gr.IsTerminal k = false → F k ⊆ G k

/-- The grammar `E -> T E' ; E' -> + T E' | EPSILON ; T -> id` with its non-terminals enumerated
in the order `T`, `E'`, `E`. -/
def exampleClassicReordered : Grammar :=
  ⟨[("T", [["id"]]), ("E'", [["+", "T", "E'"], ["EPSILON"]]), ("E", [["T", "E'"]])], "E",
    exampleSymbols⟩

/-! # Theorems -/

/-! ## Maps: basic facts -/

theorem SetMap.find_set (m : SetMap) (k : String) (v : Finset String) (k' : String) :
    (m.set k v).find k' = if k' = k then some v else m.find k' := by
  induction m with
  | nil =>
    by_cases h : k' = k
    · simp [SetMap.set, SetMap.find, h]
    · have h' : ¬ k = k' := fun e => h e.symm
      simp [SetMap.set, SetMap.find, h, h']
  | cons e m ih =>
    by_cases he : e.1 = k
    · by_cases h : k' = k
      · simp [SetMap.set, SetMap.find, he, h]
      · have h' : ¬ k = k' := fun e => h e.symm
        simp [SetMap.set, SetMap.find, he, h, h']
    · by_cases h : k' = k
      · subst h
        simp [SetMap.set, SetMap.find, he, ih]
      · by_cases h2 : e.1 = k'
        · simp [SetMap.set, SetMap.find, he, h2, h]
        · simp [SetMap.set, SetMap.find, he, h, h2, ih]

theorem SetMap.get_set (m : SetMap) (k : String) (v : Finset String) (k' : String) :
    (m.set k v).get k' = if k' = k then v else m.get k' := by
  unfold SetMap.get
  rw [SetMap.find_set]
  split <;> rfl

theorem SetMap.contains_set (m : SetMap) (k : String) (v : Finset String) (k' : String) :
    (m.set k v).contains k' = (decide (k' = k) || m.contains k') := by
  unfold SetMap.contains
  rw [SetMap.find_set]
  by_cases h : k' = k <;> simp [h]

theorem SetMap.find_eq_some_get {m : SetMap} {k : String} (h : m.contains k = true) :
    m.find k = some (m.get k) := by
  unfold SetMap.contains at h
  unfold SetMap.get
  cases hf : m.find k with
  | none => simp [hf] at h
  | some v => rfl

theorem SetMap.get_of_not_contains {m : SetMap} {k : String} (h : m.contains k = false) :
    m.get k = ∅ := by
  unfold SetMap.contains at h
  unfold SetMap.get
  cases hf : m.find k with
  | none => rfl
  | some v => simp [hf] at h

theorem SetMap.find_touch (m : SetMap) (k k' : String) :
    (m.touch k).find k' = if k' = k then some (m.get k) else m.find k' := by
  unfold SetMap.touch
  by_cases hc : m.contains k = true
  · simp only [hc, if_true]
    by_cases h : k' = k
    · subst h
      simp [SetMap.find_eq_some_get hc]
    · simp [h]
  · have hc' : m.contains k = false := by simpa using hc
    simp only [hc', Bool.false_eq_true, if_false]
    rw [SetMap.find_set, SetMap.get_of_not_contains hc']

theorem SetMap.get_touch (m : SetMap) (k k' : String) : (m.touch k).get k' = m.get k' := by
  unfold SetMap.get
  rw [SetMap.find_touch]
  by_cases h : k' = k
  · subst h
    simp [SetMap.get]
  · simp [h]

theorem SetMap.contains_touch (m : SetMap) (k k' : String) :
    (m.touch k).contains k' = (decide (k' = k) || m.contains k') := by
  unfold SetMap.contains
  rw [SetMap.find_touch]
  by_cases h : k' = k <;> simp [h]

theorem SetMap.touch_of_contains {m : SetMap} {k : String} (h : m.contains k = true) :
    m.touch k = m := by
  simp [SetMap.touch, h]

theorem SetMap.find_of_mem {m : SetMap} {e : String × Finset String} (h : e ∈ m) :
    (m.find e.1).isSome = true := by
  induction m with
  | nil => simp at h
  | cons a m ih =>
    by_cases ha : a.1 = e.1
    · simp [SetMap.find, ha]
    · have : e ∈ m := by
        rcases List.mem_cons.mp h with h1 | h1
        · exact absurd (by rw [h1]) ha
        · exact h1
      simp [SetMap.find, ha, ih this]

theorem SetMap.mem_of_find {m : SetMap} {k : String} {v : Finset String}
    (h : m.find k = some v) : ∃ e ∈ m, e.1 = k := by
  induction m with
  | nil => simp [SetMap.find] at h
  | cons a m ih =>
    by_cases ha : a.1 = k
    · exact ⟨a, List.mem_cons_self _ _, ha⟩
    · simp only [SetMap.find, ha, if_false] at h
      obtain ⟨e, he, hk⟩ := ih h
      exact ⟨e, List.mem_cons_of_mem _ he, hk⟩

theorem SetMap.beq_iff (m1 m2 : SetMap) : m1.beq m2 = true ↔ SetMap.Equiv m1 m2 := by
  unfold SetMap.beq SetMap.Equiv
  simp only [Bool.and_eq_true, List.all_eq_true, decide_eq_true_eq]
  constructor
  · rintro ⟨h1, h2⟩ k
    cases hf1 : m1.find k with
    | some v =>
      obtain ⟨e, he, hk⟩ := SetMap.mem_of_find hf1
      have := h1 e he
      rw [hk] at this
      rw [this, hf1]
    | none =>
      cases hf2 : m2.find k with
      | none => rfl
      | some v =>
        obtain ⟨e, he, hk⟩ := SetMap.mem_of_find hf2
        have := h2 e he
        rw [hk] at this
        rw [← hf1, this, hf2]
  · intro h
    exact ⟨fun e _ => (h e.1).symm, fun e _ => h e.1⟩

theorem SetMap.Equiv.refl (m : SetMap) : SetMap.Equiv m m := fun _ => rfl

theorem SetMap.Equiv.symm {m1 m2 : SetMap} (h : SetMap.Equiv m1 m2) : SetMap.Equiv m2 m1 :=
  fun k => (h k).symm

theorem SetMap.Equiv.trans {m1 m2 m3 : SetMap} (h : SetMap.Equiv m1 m2)
    (h' : SetMap.Equiv m2 m3) : SetMap.Equiv m1 m3 := fun k => (h k).trans (h' k)

theorem SetMap.Equiv.get {m1 m2 : SetMap} (h : SetMap.Equiv m1 m2) (k : String) :
    m1.get k = m2.get k := by
  unfold SetMap.get
  rw [h k]

theorem SetMap.Equiv.contains {m1 m2 : SetMap} (h : SetMap.Equiv m1 m2) (k : String) :
    m1.contains k = m2.contains k := by
  unfold SetMap.contains
  rw [h k]

theorem SetMap.Equiv.set {m1 m2 : SetMap} (h : SetMap.Equiv m1 m2) (k : String)
    (v : Finset String) : SetMap.Equiv (m1.set k v) (m2.set k v) := by
  intro k'
  rw [SetMap.find_set, SetMap.find_set, h k']

theorem SetMap.Equiv.touch {m1 m2 : SetMap} (h : SetMap.Equiv m1 m2) (k : String) :
    SetMap.Equiv (m1.touch k) (m2.touch k) := by
  intro k'
  rw [SetMap.find_touch, SetMap.find_touch, h k', h.get k]

/-! ## `First` as a function of the sets it reads -/

theorem SetMap.get_touch_fun (m : SetMap) (k : String) : (m.touch k).get = m.get :=
  funext (fun k' => SetMap.get_touch m k k')

theorem First_cons (gr : Grammar) (s : String) (rest : List String) (fs : SetMap)
    (res : Finset String) :
    First gr (s :: rest) fs res =
      if s = gr.st_.EPSILON_ then
        (if rest = [] then (fs, insert gr.st_.EPSILON_ res) else First gr rest fs res)
      else if gr.IsTerminal s = true then
        (if s = gr.st_.EOL_ then (fs, insert gr.st_.EPSILON_ res) else (fs, insert s res))
      else if gr.st_.EPSILON_ ∈ fs.get s then
        First gr rest (fs.touch s) (res ∪ (fs.get s).filter (fun x => x ≠ gr.st_.EPSILON_))
      else (fs.touch s, res ∪ (fs.get s).filter (fun x => x ≠ gr.st_.EPSILON_)) := by
  simp only [First, SetMap.get_touch]
  by_cases h1 : s = gr.st_.EPSILON_
  · by_cases h2 : rest = []
    · simp [h1, h2]
    · simp [h1, h2]
  · simp only [h1, and_false, if_false]
    by_cases h5 : gr.st_.EPSILON_ ∈ fs.get s
    · simp [h5]
    · simp [h5]

theorem First_snd (gr : Grammar) (rule : List String) (fs : SetMap) (res : Finset String) :
    (First gr rule fs res).2 = res ∪ firstOf gr fs.get rule := by
  induction rule generalizing fs res with
  | nil =>
    simp only [First, firstOf]
    ext x
    simp [or_comm]
  | cons s rest ih =>
    rw [First_cons]
    simp only [firstOf]
    split_ifs with h1 h2 h3 h4 h5
    · subst h2
      simp only [firstOf]
      ext x
      simp [or_comm]
    · exact ih fs res
    · ext x
      simp [or_comm]
    · ext x
      simp [or_comm]
    · rw [ih, SetMap.get_touch_fun, Finset.union_assoc]
    · rfl

theorem First_fst_get (gr : Grammar) (rule : List String) (fs : SetMap) (res : Finset String) :
    ((First gr rule fs res).1).get = fs.get := by
  induction rule generalizing fs res with
  | nil => simp only [First]
  | cons s rest ih =>
    rw [First_cons]
    split_ifs
    · rfl
    · exact ih fs res
    · rfl
    · rfl
    · rw [ih, SetMap.get_touch_fun]
    · exact SetMap.get_touch_fun fs s

theorem First_fst_of_hasKeys (gr : Grammar) (rule : List String) (fs : SetMap)
    (res : Finset String) (hk : gr.HasKeys fs) : (First gr rule fs res).1 = fs := by
  induction rule generalizing res with
  | nil => simp only [First]
  | cons s rest ih =>
    rw [First_cons]
    split_ifs with h1 h2 h3 h4 h5
    · rfl
    · exact ih res
    · rfl
    · rfl
    · rw [SetMap.touch_of_contains (hk s (by simpa using h3))]
      exact ih _
    · exact SetMap.touch_of_contains (hk s (by simpa using h3))

theorem First_fst_equiv (gr : Grammar) (rule : List String) {fs fs' : SetMap}
    (res res' : Finset String) (h : SetMap.Equiv fs fs') :
    SetMap.Equiv (First gr rule fs res).1 (First gr rule fs' res').1 := by
  induction rule generalizing fs fs' res res' with
  | nil => simpa only [First] using h
  | cons s rest ih =>
    rw [First_cons, First_cons, ← h.get s]
    split_ifs
    · exact h
    · exact ih _ _ h
    · exact h
    · exact h
    · exact ih _ _ (h.touch s)
    · exact h.touch s

theorem First_fst_contains (gr : Grammar) (rule : List String) (fs : SetMap)
    (res : Finset String) (k : String) (h : fs.contains k = true) :
    (First gr rule fs res).1.contains k = true := by
  induction rule generalizing fs res with
  | nil => simpa only [First] using h
  | cons s rest ih =>
    have h' : (fs.touch s).contains k = true := by
      rw [SetMap.contains_touch, h, Bool.or_true]
    rw [First_cons]
    split_ifs
    · exact h
    · exact ih fs res h
    · exact h
    · exact h
    · exact ih _ _ h'
    · exact h'

theorem First_fst_find (gr : Grammar) (rule : List String) (fs : SetMap)
    (res : Finset String) (k : String) (h : gr.IsTerminal k = true) :
    (First gr rule fs res).1.find k = fs.find k := by
  induction rule generalizing fs res with
  | nil => simp only [First]
  | cons s rest ih =>
    rw [First_cons]
    split_ifs with h1 h2 h3 h4 h5
    · rfl
    · exact ih fs res
    · rfl
    · rfl
    · have hne : k ≠ s := fun e => h3 (e ▸ h)
      rw [ih, SetMap.find_touch, if_neg hne]
    · have hne : k ≠ s := fun e => h3 (e ▸ h)
      rw [SetMap.find_touch, if_neg hne]

/-! ## One pass of `ComputeFirstSets` -/

theorem Grammar.isTerminal_eq_false_iff (gr : Grammar) (s : String) :
    gr.IsTerminal s = false ↔ s ∈ gr.keys := by
  unfold Grammar.IsTerminal Grammar.keys
  simp only [Bool.not_eq_false', List.any_eq_true, decide_eq_true_eq, List.mem_map]

theorem Grammar.isTerminal_eq_true_iff (gr : Grammar) (s : String) :
    gr.IsTerminal s = true ↔ s ∉ gr.keys := by
  rw [← Grammar.isTerminal_eq_false_iff]
  cases gr.IsTerminal s <;> simp

theorem Grammar.mem_rules (gr : Grammar) (X : String) (p : production) :
    (X, p) ∈ gr.rules ↔ ∃ e ∈ gr.g_, e.1 = X ∧ p ∈ e.2 := by
  unfold Grammar.rules
  simp only [List.mem_flatMap, List.mem_map, Prod.mk.injEq]
  constructor
  · rintro ⟨e, he, q, hq, h1, h2⟩
    exact ⟨e, he, h1, h2 ▸ hq⟩
  · rintro ⟨e, he, h1, hp⟩
    exact ⟨e, he, p, hp, h1, rfl⟩

theorem Grammar.rules_key (gr : Grammar) {r : String × production} (h : r ∈ gr.rules) :
    gr.IsTerminal r.1 = false := by
  obtain ⟨e, he, h1, _⟩ := (gr.mem_rules r.1 r.2).mp h
  rw [Grammar.isTerminal_eq_false_iff]
  exact List.mem_map.mpr ⟨e, he, h1⟩

theorem foldl_flatMap_map {α β γ σ : Type} (f : σ → γ → σ) (g : α → List β) (h : α → β → γ)
    (l : List α) (s : σ) :
    (l.flatMap (fun a => (g a).map (h a))).foldl f s =
      l.foldl (fun acc a => (g a).foldl (fun acc1 b => f acc1 (h a b)) acc) s := by
  induction l generalizing s with
  | nil => rfl
  | cons a l ih =>
    simp only [List.flatMap_cons, List.foldl_append, List.foldl_cons, List.foldl_map]
    exact ih _

theorem ComputeFirstSets.pass_eq (gr : Grammar) (fs : SetMap) :
    ComputeFirstSets.pass gr fs =
      gr.rules.foldl (fun acc r => ComputeFirstSets.step gr r.1 acc r.2) fs := by
  unfold ComputeFirstSets.pass Grammar.rules
  rw [foldl_flatMap_map (fun acc r => ComputeFirstSets.step gr r.1 acc r.2)
    (fun e : String × List production => e.2) (fun e p => (e.1, p))]

theorem ComputeFirstSets.step_get (gr : Grammar) (X : String) (fs : SetMap) (p : production)
    (k : String) :
    (ComputeFirstSets.step gr X fs p).get k =
      if k = X then fs.get X ∪ replaceEOL gr (firstOf gr fs.get p) else fs.get k := by
  unfold ComputeFirstSets.step
  simp only [SetMap.get_set, First_snd, First_fst_get, Finset.empty_union]

theorem ComputeFirstSets.step_of_hasKeys (gr : Grammar) (X : String) (fs : SetMap)
    (p : production) (hk : gr.HasKeys fs) :
    ComputeFirstSets.step gr X fs p =
      fs.set X (fs.get X ∪ replaceEOL gr (firstOf gr fs.get p)) := by
  unfold ComputeFirstSets.step
  simp only [First_snd, First_fst_of_hasKeys gr p fs ∅ hk, Finset.empty_union]

theorem ComputeFirstSets.step_equiv (gr : Grammar) (X : String) {fs fs' : SetMap}
    (p : production) (h : SetMap.Equiv fs fs') :
    SetMap.Equiv (ComputeFirstSets.step gr X fs p) (ComputeFirstSets.step gr X fs' p) := by
  unfold ComputeFirstSets.step
  have h1 := First_fst_equiv gr p ∅ ∅ h
  have h2 : fs.get = fs'.get := funext h.get
  intro k
  simp only [SetMap.find_set, First_snd, First_fst_get, h2, h1 k]

theorem foldl_equiv {α : Type} (f : SetMap → α → SetMap)
    (hf : ∀ a m m', SetMap.Equiv m m' → SetMap.Equiv (f m a) (f m' a)) (l : List α)
    {m m' : SetMap} (h : SetMap.Equiv m m') : SetMap.Equiv (l.foldl f m) (l.foldl f m') := by
  induction l generalizing m m' with
  | nil => exact h
  | cons a l ih => exact ih (hf a m m' h)

theorem ComputeFirstSets.pass_equiv (gr : Grammar) {fs fs' : SetMap}
    (h : SetMap.Equiv fs fs') :
    SetMap.Equiv (ComputeFirstSets.pass gr fs) (ComputeFirstSets.pass gr fs') := by
  rw [ComputeFirstSets.pass_eq, ComputeFirstSets.pass_eq]
  exact foldl_equiv (fun acc (r : String × production) => ComputeFirstSets.step gr r.1 acc r.2)
    (fun r m m' hm => ComputeFirstSets.step_equiv gr r.1 r.2 hm) _ h

theorem SetMap.le_refl (m : SetMap) : SetMap.le m m := fun _ => Finset.Subset.refl _

theorem SetMap.le_trans {m1 m2 m3 : SetMap} (h : SetMap.le m1 m2) (h' : SetMap.le m2 m3) :
    SetMap.le m1 m3 := fun k => (h k).trans (h' k)

theorem SetMap.get_eq_of_le_of_le {m1 m2 : SetMap} (h : SetMap.le m1 m2)
    (h' : SetMap.le m2 m1) : m1.get = m2.get :=
  funext (fun k => Finset.Subset.antisymm (h k) (h' k))

theorem SetMap.le_of_get_eq {m1 m2 : SetMap} (h : m1.get = m2.get) : SetMap.le m1 m2 := by
  intro k
  rw [h]

theorem ComputeFirstSets.step_le (gr : Grammar) (X : String) (fs : SetMap) (p : production) :
    SetMap.le fs (ComputeFirstSets.step gr X fs p) := by
  intro k
  rw [ComputeFirstSets.step_get]
  split
  · rename_i h
    rw [h]
    exact Finset.subset_union_left
  · exact Finset.Subset.refl _

theorem foldl_le {α : Type} (f : SetMap → α → SetMap) (hf : ∀ a m, SetMap.le m (f m a))
    (l : List α) (m : SetMap) : SetMap.le m (l.foldl f m) := by
  induction l generalizing m with
  | nil => exact SetMap.le_refl m
  | cons a l ih => exact SetMap.le_trans (hf a m) (ih _)

theorem ComputeFirstSets.pass_le (gr : Grammar) (fs : SetMap) :
    SetMap.le fs (ComputeFirstSets.pass gr fs) := by
  rw [ComputeFirstSets.pass_eq]
  exact foldl_le (fun acc (r : String × production) => ComputeFirstSets.step gr r.1 acc r.2)
    (fun r m => ComputeFirstSets.step_le gr r.1 m r.2) _ fs

/-- When a fold of growing steps ends where it started, every step was taken from, and led to,
a state that reads like the start. -/
theorem foldl_stable {α : Type} (f : SetMap → α → SetMap) (hf : ∀ a m, SetMap.le m (f m a))
    (l : List α) (m : SetMap) (h : SetMap.le (l.foldl f m) m) :
    ∀ a ∈ l, ∃ m', m'.get = m.get ∧ (f m' a).get = m.get := by
  induction l generalizing m with
  | nil => intro a ha; simp at ha
  | cons b l ih =>
    have h1 : SetMap.le (f m b) m := SetMap.le_trans (foldl_le f hf l (f m b)) h
    have h2 : (f m b).get = m.get := SetMap.get_eq_of_le_of_le h1 (hf b m)
    intro a ha
    rcases List.mem_cons.mp ha with rfl | ha'
    · exact ⟨m, rfl, h2⟩
    · have h3 : SetMap.le (l.foldl f (f m b)) (f m b) := by
        intro k
        rw [h2]
        exact h k
      obtain ⟨m', e1, e2⟩ := ih (f m b) h3 a ha'
      exact ⟨m', e1.trans h2, e2.trans h2⟩

/-! ## Termination of the loop of `ComputeFirstSets` -/

theorem Grammar.mem_symbols (gr : Grammar) {X : String} {p : production} {s : String}
    (h : (X, p) ∈ gr.rules) (hs : s ∈ p) : s ∈ gr.symbols := by
  obtain ⟨e, he, _, hp⟩ := (gr.mem_rules X p).mp h
  unfold Grammar.symbols
  simp only [List.mem_flatMap]
  exact ⟨e, he, p, hp, hs⟩

theorem firstOf_subset (gr : Grammar) (F : String → Finset String) (hF : gr.FirstBounded F)
    (rule : List String) (hr : ∀ s ∈ rule, s ∈ gr.symbols) :
    firstOf gr F rule ⊆ insert gr.st_.EPSILON_ gr.terminals := by
  induction rule with
  | nil => simp [firstOf]
  | cons s rest ih =>
    have ih' := ih (fun x hx => hr x (List.mem_cons_of_mem _ hx))
    have hfil : (F s).filter (fun x => x ≠ gr.st_.EPSILON_) ⊆ F s := Finset.filter_subset _ _
    simp only [firstOf]
    split_ifs with h1 h2 h3 h4
    · exact ih'
    · simp
    · intro x hx
      rw [Finset.mem_singleton] at hx
      subst hx
      apply Finset.mem_insert_of_mem
      unfold Grammar.terminals
      simp only [List.mem_toFinset, List.mem_filter]
      exact ⟨hr x (List.mem_cons_self _ _), h2⟩
    · exact Finset.union_subset (hfil.trans (hF s (by simpa using h2))) ih'
    · exact hfil.trans (hF s (by simpa using h2))

theorem replaceEOL_subset (gr : Grammar) (T : Finset String) :
    replaceEOL gr T ⊆ insert gr.st_.EPSILON_ T := by
  unfold replaceEOL
  split
  · exact Finset.insert_subset_insert _ (Finset.erase_subset _ _)
  · exact Finset.subset_insert _ _

theorem ComputeFirstSets.step_bounded (gr : Grammar) {r : String × production}
    (hr : r ∈ gr.rules) (fs : SetMap) (hb : gr.FirstBounded fs.get) :
    gr.FirstBounded (ComputeFirstSets.step gr r.1 fs r.2).get := by
  intro k hk
  rw [ComputeFirstSets.step_get]
  split
  · apply Finset.union_subset (hb r.1 (gr.rules_key hr))
    refine (replaceEOL_subset gr _).trans ?_
    apply Finset.insert_subset (Finset.mem_insert_self _ _)
    exact firstOf_subset gr fs.get hb r.2 (fun s hs => gr.mem_symbols hr hs)
  · exact hb k hk

theorem ComputeFirstSets.step_hasKeys (gr : Grammar) (X : String) (fs : SetMap)
    (p : production) (hk : gr.HasKeys fs) : gr.HasKeys (ComputeFirstSets.step gr X fs p) := by
  intro s hs
  rw [ComputeFirstSets.step_of_hasKeys gr X fs p hk, SetMap.contains_set, hk s hs, Bool.or_true]

theorem ComputeFirstSets.step_contains (gr : Grammar) {r : String × production}
    (hr : r ∈ gr.rules) (fs : SetMap) (hk : gr.HasKeys fs) (k : String) :
    (ComputeFirstSets.step gr r.1 fs r.2).contains k = fs.contains k := by
  rw [ComputeFirstSets.step_of_hasKeys gr r.1 fs r.2 hk, SetMap.contains_set]
  by_cases h : k = r.1
  · rw [h, hk r.1 (gr.rules_key hr)]
    simp
  · simp [h]

theorem ComputeFirstSets.step_get_terminal (gr : Grammar) {r : String × production}
    (hr : r ∈ gr.rules) (fs : SetMap) (k : String) (hk : gr.IsTerminal k = true) :
    (ComputeFirstSets.step gr r.1 fs r.2).get k = fs.get k := by
  rw [ComputeFirstSets.step_get, if_neg]
  intro e
  rw [e, gr.rules_key hr] at hk
  exact Bool.noConfusion hk

/-- A property that every step over a list keeps holds after the fold. -/
theorem foldl_invariant {α σ : Type} (f : σ → α → σ) (l : List α) (P : σ → Prop)
    (hf : ∀ a ∈ l, ∀ m, P m → P (f m a)) (m : σ) (h : P m) : P (l.foldl f m) := by
  induction l generalizing m with
  | nil => exact h
  | cons a l ih =>
    exact ih (fun b hb => hf b (List.mem_cons_of_mem _ hb)) _ (hf a (List.mem_cons_self _ _) m h)

theorem FirstInv.initial (gr : Grammar) (fs : SetMap) (hk : gr.HasKeys fs)
    (hb : gr.FirstBounded fs.get) : FirstInv gr fs fs :=
  ⟨hk, hb, fun _ => rfl, fun _ _ => rfl⟩

theorem ComputeFirstSets.pass_inv (gr : Grammar) (fs0 fs : SetMap) (h : FirstInv gr fs0 fs) :
    FirstInv gr fs0 (ComputeFirstSets.pass gr fs) := by
  rw [ComputeFirstSets.pass_eq]
  refine foldl_invariant (fun acc (r : String × production) => ComputeFirstSets.step gr r.1 acc r.2)
    gr.rules (FirstInv gr fs0) ?_ fs h
  intro r hr m hm
  exact ⟨ComputeFirstSets.step_hasKeys gr r.1 m r.2 hm.hasKeys,
    ComputeFirstSets.step_bounded gr hr m hm.bounded,
    fun k => (ComputeFirstSets.step_contains gr hr m hm.hasKeys k).trans (hm.contains k),
    fun k hk => (ComputeFirstSets.step_get_terminal gr hr m k hk).trans (hm.terminal k hk)⟩

theorem firstMeasure_le (gr : Grammar) (fs : SetMap) (hb : gr.FirstBounded fs.get) :
    firstMeasure gr fs + 1 ≤ gr.firstBound := by
  unfold firstMeasure Grammar.firstBound
  apply Nat.succ_le_succ
  calc ∑ k ∈ gr.keys.toFinset, (fs.get k).card
      ≤ ∑ _k ∈ gr.keys.toFinset, (insert gr.st_.EPSILON_ gr.terminals).card := by
        apply Finset.sum_le_sum
        intro k hk
        apply Finset.card_le_card
        exact hb k ((gr.isTerminal_eq_false_iff k).mpr (List.mem_toFinset.mp hk))
    _ = gr.keys.toFinset.card * (insert gr.st_.EPSILON_ gr.terminals).card := by
        rw [Finset.sum_const, smul_eq_mul]

theorem SetMap.equiv_of_get_eq {m1 m2 : SetMap} (hc : ∀ k, m1.contains k = m2.contains k)
    (hg : m1.get = m2.get) : SetMap.Equiv m1 m2 := by
  intro k
  cases h1 : m1.contains k with
  | true =>
    rw [SetMap.find_eq_some_get h1, SetMap.find_eq_some_get ((hc k).symm.trans h1), hg]
  | false =>
    have h2 : m2.contains k = false := (hc k).symm.trans h1
    unfold SetMap.contains at h1 h2
    cases hf1 : m1.find k with
    | some v => simp [hf1] at h1
    | none =>
      cases hf2 : m2.find k with
      | some v => simp [hf2] at h2
      | none => rfl

theorem ComputeFirstSets.measure_lt (gr : Grammar) (fs : SetMap) (h : FirstInv gr fs fs)
    (hne : fs.beq (ComputeFirstSets.pass gr fs) = false) :
    firstMeasure gr fs < firstMeasure gr (ComputeFirstSets.pass gr fs) := by
  have hinv := ComputeFirstSets.pass_inv gr fs fs h
  have hle := ComputeFirstSets.pass_le gr fs
  unfold firstMeasure
  apply Finset.sum_lt_sum
  · intro k _
    exact Finset.card_le_card (hle k)
  · by_contra hcon
    have hall : ∀ k, k ∈ gr.keys → (ComputeFirstSets.pass gr fs).get k = fs.get k := by
      intro k hk
      by_contra hk'
      apply hcon
      refine ⟨k, List.mem_toFinset.mpr hk, Finset.card_lt_card ?_⟩
      exact Finset.ssubset_iff_subset_ne.mpr ⟨hle k, fun e => hk' e.symm⟩
    have hget : fs.get = (ComputeFirstSets.pass gr fs).get := by
      funext k
      by_cases hk : k ∈ gr.keys
      · exact (hall k hk).symm
      · exact (hinv.terminal k ((gr.isTerminal_eq_true_iff k).mpr hk)).symm
    have heq : SetMap.Equiv fs (ComputeFirstSets.pass gr fs) :=
      SetMap.equiv_of_get_eq (fun k => (hinv.contains k).symm) hget
    rw [(SetMap.beq_iff _ _).mpr heq] at hne
    exact Bool.noConfusion hne

theorem ComputeFirstSets.loop_terminates (gr : Grammar) (n : Nat) (fs : SetMap)
    (h : FirstInv gr fs fs) (hn : gr.firstBound ≤ n + firstMeasure gr fs) :
    ∃ r, ComputeFirstSets.loop gr n fs = some r := by
  induction n generalizing fs with
  | zero =>
    have := firstMeasure_le gr fs h.bounded
    omega
  | succ n ih =>
    simp only [ComputeFirstSets.loop]
    cases hb : fs.beq (ComputeFirstSets.pass gr fs) with
    | true => exact ⟨ComputeFirstSets.pass gr fs, by simp⟩
    | false =>
      simp only [Bool.false_eq_true, if_false]
      have hinv := ComputeFirstSets.pass_inv gr fs fs h
      have hlt := ComputeFirstSets.measure_lt gr fs h hb
      exact ih _ (FirstInv.initial gr _ hinv.hasKeys hinv.bounded) (by omega)

theorem ComputeFirstSets.loop_mono (gr : Grammar) (n : Nat) (fs r : SetMap)
    (h : ComputeFirstSets.loop gr n fs = some r) (m : Nat) (hm : n ≤ m) :
    ComputeFirstSets.loop gr m fs = some r := by
  induction n generalizing fs m with
  | zero => simp [ComputeFirstSets.loop] at h
  | succ n ih =>
    obtain ⟨m', rfl⟩ : ∃ m', m = m' + 1 := ⟨m - 1, by omega⟩
    simp only [ComputeFirstSets.loop] at h ⊢
    split at h
    · rename_i hb
      simpa [hb] using h
    · rename_i hb
      simp only [hb, if_false]
      exact ih _ h m' (by omega)

/-- What the loop returns is the outcome of a pass that changed nothing, and it has every
property that the start has and the passes keep. -/
theorem ComputeFirstSets.loop_spec (gr : Grammar) (P : SetMap → Prop)
    (hP : ∀ m, P m → P (ComputeFirstSets.pass gr m)) (n : Nat) (fs r : SetMap) (h0 : P fs)
    (h : ComputeFirstSets.loop gr n fs = some r) :
    ∃ fs', P fs' ∧ r = ComputeFirstSets.pass gr fs' ∧ SetMap.Equiv fs' r := by
  induction n generalizing fs with
  | zero => simp [ComputeFirstSets.loop] at h
  | succ n ih =>
    simp only [ComputeFirstSets.loop] at h
    split at h
    · rename_i hb
      have hr : ComputeFirstSets.pass gr fs = r := by simpa using h
      exact ⟨fs, h0, hr.symm, hr ▸ (SetMap.beq_iff _ _).mp hb⟩
    · exact ih _ (hP fs h0) h

/-! ## Derivations -/

theorem Grammar.Gen.same (gr : Grammar) (α : List String) : gr.Gen α α := by
  induction α with
  | nil => exact Grammar.Gen.nil
  | cons s α ih => exact Grammar.Gen.keep s α α ih

theorem Grammar.Gen.append (gr : Grammar) {α w β v : List String} (h : gr.Gen α w)
    (h' : gr.Gen β v) : gr.Gen (α ++ β) (w ++ v) := by
  induction h with
  | nil => exact h'
  | keep s α w _ ih => exact Grammar.Gen.keep s _ _ ih
  | expand e p α w1 w2 he hp h1 _ _ ih2 =>
    rw [List.append_assoc]
    exact Grammar.Gen.expand e p _ w1 _ he hp h1 ih2

theorem Grammar.Gen.of_nil (gr : Grammar) {w : List String} (h : gr.Gen [] w) : w = [] := by
  cases h
  rfl

theorem Grammar.Gen.split (gr : Grammar) (α β : List String) {w : List String}
    (h : gr.Gen (α ++ β) w) : ∃ w1 w2, w = w1 ++ w2 ∧ gr.Gen α w1 ∧ gr.Gen β w2 := by
  induction α generalizing w with
  | nil => exact ⟨[], w, rfl, Grammar.Gen.nil, h⟩
  | cons s α ih =>
    rw [List.cons_append] at h
    cases h with
    | keep _ _ w' h' =>
      obtain ⟨w1, w2, e, h1, h2⟩ := ih h'
      exact ⟨s :: w1, w2, by rw [e]; rfl, Grammar.Gen.keep s α w1 h1, h2⟩
    | expand e p _ u1 u2 he hp h1 h2 =>
      obtain ⟨w1, w2, eq, g1, g2⟩ := ih h2
      exact ⟨u1 ++ w1, w2, by rw [eq, List.append_assoc],
        Grammar.Gen.expand e p α u1 w1 he hp h1 g1, g2⟩

theorem Grammar.Gen.rewrite (gr : Grammar) {α w : List String} (h : gr.Gen α w)
    (e : String × List production) (p : production) (he : e ∈ gr.g_) (hp : p ∈ e.2)
    (u v : List String) (hw : w = u ++ e.1 :: v) : gr.Gen α (u ++ gr.eraseEpsilon p ++ v) := by
  induction h generalizing u v with
  | nil =>
    exact absurd hw (by simp)
  | keep s α w h ih =>
    cases u with
    | nil =>
      simp only [List.nil_append, List.cons.injEq] at hw
      obtain ⟨hs, hv⟩ := hw
      subst hs hv
      simpa using Grammar.Gen.expand e p α _ _ he hp (Grammar.Gen.same gr _) h
    | cons a u =>
      simp only [List.cons_append, List.cons.injEq] at hw
      obtain ⟨hs, hv⟩ := hw
      subst hs
      simpa using Grammar.Gen.keep s α _ (ih u v hv)
  | expand e' p' α w1 w2 he' hp' h1 h2 ih1 ih2 =>
    rcases List.append_eq_append_iff.mp hw with ⟨a', ha1, ha2⟩ | ⟨c', hc1, hc2⟩
    · -- the occurrence lies in `w2`
      cases a' with
      | nil =>
        simp only [List.append_nil] at ha1
        simp only [List.nil_append] at ha2
        have := ih2 [] v (by simpa using ha2)
        rw [ha1]
        simpa [List.append_assoc] using Grammar.Gen.expand e' p' α w1 _ he' hp' h1 this
      | cons b a' =>
        -- `u = w1 ++ b :: a'` and `w2 = b :: a' ++ e.1 :: v`
        have := ih2 (b :: a') v ha2
        rw [ha1]
        simpa [List.append_assoc] using Grammar.Gen.expand e' p' α w1 _ he' hp' h1 this
    · -- the occurrence lies in `w1`
      cases c' with
      | nil =>
        simp only [List.append_nil] at hc1
        simp only [List.nil_append] at hc2
        have := ih2 [] v (by simpa using hc2.symm)
        rw [← hc1]
        simpa [List.append_assoc] using Grammar.Gen.expand e' p' α w1 _ he' hp' h1 this
      | cons b c' =>
        simp only [List.cons_append, List.cons.injEq] at hc2
        obtain ⟨hb, hv⟩ := hc2
        subst hb
        have := ih1 u c' hc1
        rw [hv]
        simpa [List.append_assoc] using Grammar.Gen.expand e' p' α _ w2 he' hp' this h2

theorem Grammar.Derives.zero (gr : Grammar) (α : List String) : gr.Derives α α :=
  Relation.ReflTransGen.refl

theorem Grammar.Derives.chain (gr : Grammar) {α β γ : List String} (h : gr.Derives α β)
    (h' : gr.Derives β γ) : gr.Derives α γ :=
  Relation.ReflTransGen.trans h h'

theorem Grammar.Derives.context (gr : Grammar) (u v : List String) {α w : List String}
    (h : gr.Derives α w) : gr.Derives (u ++ α ++ v) (u ++ w ++ v) := by
  induction h with
  | refl => exact Relation.ReflTransGen.refl
  | tail _ hs ih =>
    refine Relation.ReflTransGen.tail ih ?_
    cases hs with
    | rewrite u' v' e p he hp =>
      have := Grammar.Step.rewrite (u ++ u') (v' ++ v) e p he hp
      simpa [List.append_assoc] using this

theorem Grammar.Gen.of_derives (gr : Grammar) {α w : List String} (h : gr.Derives α w) :
    gr.Gen α w := by
  induction h with
  | refl => exact Grammar.Gen.same gr α
  | tail _ hs ih =>
    cases hs with
    | rewrite u v e p he hp => exact Grammar.Gen.rewrite gr ih e p he hp u v rfl

theorem Grammar.Gen.derives (gr : Grammar) {α w : List String} (h : gr.Gen α w) :
    gr.Derives α w := by
  induction h with
  | nil => exact Relation.ReflTransGen.refl
  | keep s α w _ ih =>
    have := Grammar.Derives.context gr [s] [] ih
    simpa using this
  | expand e p α w1 w2 he hp _ _ ih1 ih2 =>
    have s1 : gr.Derives (e.1 :: α) (gr.eraseEpsilon p ++ α) := by
      have := Grammar.Step.rewrite [] α e p he hp
      exact Relation.ReflTransGen.single (by simpa using this)
    have s2 : gr.Derives (gr.eraseEpsilon p ++ α) (w1 ++ α) := by
      have := Grammar.Derives.context gr [] α ih1
      simpa using this
    have s3 : gr.Derives (w1 ++ α) (w1 ++ w2) := by
      have := Grammar.Derives.context gr w1 [] ih2
      simpa using this
    exact Grammar.Derives.chain gr (Grammar.Derives.chain gr s1 s2) s3

theorem Grammar.derives_iff_gen (gr : Grammar) (α w : List String) :
    gr.Derives α w ↔ gr.Gen α w :=
  ⟨Grammar.Gen.of_derives gr, Grammar.Gen.derives gr⟩

/-! ## FIRST sets and derivations -/

theorem Grammar.eraseEpsilon_cons (gr : Grammar) (s : String) (rest : List String) :
    gr.eraseEpsilon (s :: rest) =
      if s = gr.st_.EPSILON_ then gr.eraseEpsilon rest else s :: gr.eraseEpsilon rest := by
  unfold Grammar.eraseEpsilon
  by_cases h : s = gr.st_.EPSILON_ <;> simp [List.filter_cons, h]

theorem Grammar.not_mem_eraseEpsilon (gr : Grammar) (p : List String) :
    gr.st_.EPSILON_ ∉ gr.eraseEpsilon p := by
  unfold Grammar.eraseEpsilon
  simp [List.mem_filter]

theorem Grammar.mem_eraseEpsilon (gr : Grammar) {p : List String} {s : String}
    (h : s ∈ gr.eraseEpsilon p) : s ∈ p := by
  unfold Grammar.eraseEpsilon at h
  exact (List.mem_filter.mp h).1

theorem Grammar.eraseEpsilon_of_not_mem (gr : Grammar) {p : List String}
    (h : gr.st_.EPSILON_ ∉ p) : gr.eraseEpsilon p = p := by
  unfold Grammar.eraseEpsilon
  rw [List.filter_eq_self]
  intro a ha
  simp only [ne_eq, decide_not, Bool.not_eq_true', decide_eq_false_iff_not]
  intro e
  exact h (e ▸ ha)

theorem firstOf_eraseEpsilon (gr : Grammar) (F : String → Finset String) (rule : List String) :
    firstOf gr F (gr.eraseEpsilon rule) = firstOf gr F rule := by
  induction rule with
  | nil => rfl
  | cons s rest ih =>
    rw [Grammar.eraseEpsilon_cons]
    by_cases h : s = gr.st_.EPSILON_
    · simp only [h, if_true, firstOf, ih]
    · simp only [h, if_false, firstOf, ih]

theorem firstOf_sound (gr : Grammar) (F : String → Finset String) (hF : gr.FirstSound F)
    (rule : List String) (hr : gr.st_.EOL_ ∉ rule) :
    ∀ t ∈ firstOf gr F rule, gr.Justified (gr.eraseEpsilon rule) t := by
  induction rule with
  | nil =>
    intro t ht
    simp only [firstOf, Finset.mem_singleton] at ht
    subst ht
    exact ⟨fun _ => Grammar.Gen.nil, fun h => absurd rfl h, fun _ => rfl⟩
  | cons s rest ih =>
    have ih' := ih (fun h => hr (List.mem_cons_of_mem _ h))
    have hs : s ≠ gr.st_.EOL_ := fun e => hr (e ▸ List.mem_cons_self _ _)
    intro t ht
    rw [Grammar.eraseEpsilon_cons]
    simp only [firstOf] at ht
    split_ifs at ht with h1 h2 h4
    · simp only [h1, if_true]
      exact ih' t ht
    · simp only [h1, if_false]
      rw [Finset.mem_singleton] at ht
      subst ht
      exact ⟨fun e => absurd e h1, fun _ => ⟨h2, _, Grammar.Gen.same gr _⟩,
        fun e => absurd e hs⟩
    · simp only [h1, if_false]
      have hX : gr.IsTerminal s = false := by simpa using h2
      rcases Finset.mem_union.mp ht with ht1 | ht2
      · obtain ⟨htF, hne⟩ := Finset.mem_filter.mp ht1
        obtain ⟨_, j2, j3⟩ := hF s hX t htF
        obtain ⟨hT, γ, hg⟩ := j2 hne
        refine ⟨fun e => absurd e hne, fun _ => ⟨hT, γ ++ gr.eraseEpsilon rest, ?_⟩, j3⟩
        have := Grammar.Gen.append gr hg (Grammar.Gen.same gr (gr.eraseEpsilon rest))
        simpa using this
      · obtain ⟨j1, _, _⟩ := hF s hX _ h4
        have hnil : gr.Gen [s] [] := j1 rfl
        obtain ⟨k1, k2, k3⟩ := ih' t ht2
        refine ⟨fun e => ?_, fun hne => ?_, k3⟩
        · have := Grammar.Gen.append gr hnil (k1 e)
          simpa using this
        · obtain ⟨hT, γ, hg⟩ := k2 hne
          refine ⟨hT, γ, ?_⟩
          have := Grammar.Gen.append gr hnil hg
          simpa using this
    · simp only [h1, if_false]
      have hX : gr.IsTerminal s = false := by simpa using h2
      obtain ⟨htF, hne⟩ := Finset.mem_filter.mp ht
      obtain ⟨_, j2, j3⟩ := hF s hX t htF
      obtain ⟨hT, γ, hg⟩ := j2 hne
      refine ⟨fun e => absurd e hne, fun _ => ⟨hT, γ ++ gr.eraseEpsilon rest, ?_⟩, j3⟩
      have := Grammar.Gen.append gr hg (Grammar.Gen.same gr (gr.eraseEpsilon rest))
      simpa using this

theorem replaceEOL_eq (gr : Grammar) (T : Finset String)
    (h : gr.st_.EOL_ ∈ T → gr.st_.EOL_ = gr.st_.EPSILON_) : replaceEOL gr T = T := by
  unfold replaceEOL
  split
  · rename_i hm
    have e := h hm
    rw [e] at hm ⊢
    rw [Finset.insert_erase hm]
  · rfl

theorem replaceEOL_firstOf (gr : Grammar) (F : String → Finset String) (hF : gr.FirstSound F)
    (rule : List String) (hr : gr.st_.EOL_ ∉ rule) :
    replaceEOL gr (firstOf gr F rule) = firstOf gr F rule :=
  replaceEOL_eq gr _ (fun h => (firstOf_sound gr F hF rule hr _ h).2.2 rfl)

theorem Grammar.Justified.lift (gr : Grammar) {e : String × List production} {p : production}
    (he : e ∈ gr.g_) (hp : p ∈ e.2) {t : String} (h : gr.Justified (gr.eraseEpsilon p) t) :
    gr.Justified [e.1] t := by
  obtain ⟨h1, h2, h3⟩ := h
  refine ⟨fun e' => ?_, fun hne => ?_, h3⟩
  · have := Grammar.Gen.expand e p [] [] [] he hp (h1 e') Grammar.Gen.nil
    simpa using this
  · obtain ⟨hT, γ, hg⟩ := h2 hne
    refine ⟨hT, γ, ?_⟩
    have := Grammar.Gen.expand e p [] _ [] he hp hg Grammar.Gen.nil
    simpa using this

theorem ComputeFirstSets.step_sound (gr : Grammar) (hR : gr.NoEOL) {r : String × production}
    (hr : r ∈ gr.rules) (fs : SetMap) (h : gr.FirstSound fs.get) :
    gr.FirstSound (ComputeFirstSets.step gr r.1 fs r.2).get := by
  obtain ⟨e, he, h1, hp⟩ := (gr.mem_rules r.1 r.2).mp hr
  have hno : gr.st_.EOL_ ∉ r.2 := hR e he r.2 hp
  intro X hX t ht
  rw [ComputeFirstSets.step_get] at ht
  split at ht
  · rename_i hk
    rcases Finset.mem_union.mp ht with ht1 | ht2
    · rw [hk]
      exact h r.1 (gr.rules_key hr) t ht1
    · rw [replaceEOL_firstOf gr fs.get h r.2 hno] at ht2
      rw [hk, ← h1]
      exact Grammar.Justified.lift gr he hp (firstOf_sound gr fs.get h r.2 hno t ht2)
  · exact h X hX t ht

theorem ComputeFirstSets.pass_sound (gr : Grammar) (hR : gr.NoEOL) (fs : SetMap)
    (h : gr.FirstSound fs.get) : gr.FirstSound (ComputeFirstSets.pass gr fs).get := by
  rw [ComputeFirstSets.pass_eq]
  exact foldl_invariant (fun acc (r : String × production) => ComputeFirstSets.step gr r.1 acc r.2)
    gr.rules (fun m => gr.FirstSound m.get)
    (fun r hr m hm => ComputeFirstSets.step_sound gr hR hr m hm) fs h

/-- After a pass that changed nothing the sets are closed, up to the replacement of `EOL`. -/
theorem ComputeFirstSets.closed_of_stable (gr : Grammar) (fs : SetMap)
    (h : SetMap.Equiv fs (ComputeFirstSets.pass gr fs)) :
    ∀ r ∈ gr.rules, replaceEOL gr (firstOf gr fs.get r.2) ⊆ fs.get r.1 := by
  have hle : SetMap.le (ComputeFirstSets.pass gr fs) fs :=
    SetMap.le_of_get_eq (funext (fun k => (h.get k).symm))
  rw [ComputeFirstSets.pass_eq] at hle
  intro r hr
  obtain ⟨m', e1, e2⟩ := foldl_stable
    (fun acc (r : String × production) => ComputeFirstSets.step gr r.1 acc r.2)
    (fun r m => ComputeFirstSets.step_le gr r.1 m r.2) gr.rules fs hle r hr
  have := congrFun e2 r.1
  rw [ComputeFirstSets.step_get, if_pos rfl, e1] at this
  rw [← this]
  exact Finset.subset_union_right

theorem gen_first (gr : Grammar) (F : String → Finset String) (hC : gr.FirstClosed F)
    (hR : gr.NoEOL) {α w : List String} (h : gr.Gen α w) :
    gr.st_.EPSILON_ ∉ α → gr.st_.EOL_ ∉ α →
    gr.st_.EPSILON_ ∉ w ∧ (w = [] → gr.st_.EPSILON_ ∈ firstOf gr F α) ∧
      (∀ t γ, w = t :: γ → gr.IsTerminal t = true → t ∈ firstOf gr F α) := by
  induction h with
  | nil =>
    intro _ _
    refine ⟨by simp, fun _ => by simp [firstOf], fun t γ e => by simp at e⟩
  | keep s α w _ ih =>
    intro h1 h2
    have hs1 : s ≠ gr.st_.EPSILON_ := fun e => h1 (e ▸ List.mem_cons_self _ _)
    have hs2 : s ≠ gr.st_.EOL_ := fun e => h2 (e ▸ List.mem_cons_self _ _)
    obtain ⟨i1, _, _⟩ := ih (fun h => h1 (List.mem_cons_of_mem _ h))
      (fun h => h2 (List.mem_cons_of_mem _ h))
    refine ⟨?_, fun e => by simp at e, ?_⟩
    · intro hm
      rcases List.mem_cons.mp hm with e | hm'
      · exact hs1 e.symm
      · exact i1 hm'
    · intro t γ e hT
      simp only [List.cons.injEq] at e
      obtain ⟨e1, _⟩ := e
      subst e1
      simp [firstOf, hs1, hs2, hT]
  | expand e p α w1 w2 he hp _ _ ih1 ih2 =>
    intro h1 h2
    have hs1 : e.1 ≠ gr.st_.EPSILON_ := fun e' => h1 (e' ▸ List.mem_cons_self _ _)
    have hX : gr.IsTerminal e.1 = false :=
      (gr.isTerminal_eq_false_iff e.1).mpr (List.mem_map.mpr ⟨e, he, rfl⟩)
    have hsub : firstOf gr F p ⊆ F e.1 := hC (e.1, p) ((gr.mem_rules e.1 p).mpr ⟨e, he, rfl, hp⟩)
    obtain ⟨a1, a2, a3⟩ := ih1 (gr.not_mem_eraseEpsilon p)
      (fun h => hR e he p hp (gr.mem_eraseEpsilon h))
    rw [firstOf_eraseEpsilon] at a2 a3
    obtain ⟨b1, b2, b3⟩ := ih2 (fun h => h1 (List.mem_cons_of_mem _ h))
      (fun h => h2 (List.mem_cons_of_mem _ h))
    refine ⟨?_, ?_, ?_⟩
    · intro hm
      rcases List.mem_append.mp hm with hm | hm
      · exact a1 hm
      · exact b1 hm
    · intro hw
      obtain ⟨hw1, hw2⟩ := List.append_eq_nil.mp hw
      have hε : gr.st_.EPSILON_ ∈ F e.1 := hsub (a2 hw1)
      simp only [firstOf, hs1, hX, hε, if_true, if_false, Bool.false_eq_true]
      exact Finset.mem_union_right _ (b2 hw2)
    · intro t γ hw hT
      cases w1 with
      | nil =>
        have hε : gr.st_.EPSILON_ ∈ F e.1 := hsub (a2 rfl)
        simp only [firstOf, hs1, hX, hε, if_true, if_false, Bool.false_eq_true]
        exact Finset.mem_union_right _ (b3 t γ (by simpa using hw) hT)
      | cons c w1 =>
        simp only [List.cons_append, List.cons.injEq] at hw
        obtain ⟨hc, _⟩ := hw
        subst hc
        have htF : c ∈ F e.1 := hsub (a3 c w1 rfl hT)
        have hne : c ≠ gr.st_.EPSILON_ := fun e' => a1 (e' ▸ List.mem_cons_self _ _)
        have hfil : c ∈ (F e.1).filter (fun x => x ≠ gr.st_.EPSILON_) :=
          Finset.mem_filter.mpr ⟨htF, hne⟩
        simp only [firstOf, hs1, hX, if_false, Bool.false_eq_true]
        split
        · exact Finset.mem_union_left _ hfil
        · exact hfil

/-! ## `ComputeFirstSets` as a whole -/

theorem find_foldl_set_empty (l : List (String × List production)) (m : SetMap) (k : String) :
    (l.foldl (fun acc e => acc.set e.1 ∅) m).find k =
      if k ∈ l.map Prod.fst then some ∅ else m.find k := by
  induction l generalizing m with
  | nil => simp
  | cons a l ih =>
    rw [List.foldl_cons, ih, SetMap.find_set]
    by_cases h1 : k ∈ l.map Prod.fst
    · simp [h1]
    · by_cases h2 : k = a.1
      · simp [h2]
      · simp [h1, h2]

theorem find_initSets (gr : Grammar) (m : SetMap) (k : String) :
    (initSets gr m).find k = if k ∈ gr.keys then some ∅ else m.find k :=
  find_foldl_set_empty gr.g_ m k

theorem get_initSets_key (gr : Grammar) (m : SetMap) {k : String}
    (h : gr.IsTerminal k = false) : (initSets gr m).get k = ∅ := by
  unfold SetMap.get
  rw [find_initSets, if_pos ((gr.isTerminal_eq_false_iff k).mp h)]
  rfl

theorem initSets_hasKeys (gr : Grammar) (m : SetMap) : gr.HasKeys (initSets gr m) := by
  intro k hk
  unfold SetMap.contains
  rw [find_initSets, if_pos ((gr.isTerminal_eq_false_iff k).mp hk)]
  rfl

theorem initSets_firstInv (gr : Grammar) (m : SetMap) :
    FirstInv gr (initSets gr m) (initSets gr m) := by
  refine FirstInv.initial gr _ (initSets_hasKeys gr m) ?_
  intro k hk
  rw [get_initSets_key gr m hk]
  exact Finset.empty_subset _

theorem initSets_firstSound (gr : Grammar) (m : SetMap) : gr.FirstSound (initSets gr m).get := by
  intro X hX t ht
  rw [get_initSets_key gr m hX] at ht
  simp at ht

theorem ComputeFirstSets_isSome (gr : Grammar) (fs : SetMap) (fuel : Nat)
    (h : gr.firstBound ≤ fuel) : ∃ r, ComputeFirstSets fuel gr fs = some r :=
  ComputeFirstSets.loop_terminates gr fuel _ (initSets_firstInv gr fs) (by omega)

/-- The map `ComputeFirstSets` returns is left unchanged by a further pass. -/
theorem ComputeFirstSets_stable (gr : Grammar) (fs r : SetMap) (fuel : Nat)
    (h : ComputeFirstSets fuel gr fs = some r) :
    SetMap.Equiv r (ComputeFirstSets.pass gr r) := by
  obtain ⟨fs', _, e1, e2⟩ :=
    ComputeFirstSets.loop_spec gr (fun _ => True) (fun _ _ => trivial) fuel _ r trivial h
  have := ComputeFirstSets.pass_equiv gr e2
  rw [← e1] at this
  exact this

/-- Every property of the initialised map that the passes keep holds of the returned map. -/
theorem ComputeFirstSets_invariant (gr : Grammar) (P : SetMap → Prop)
    (hP : ∀ m, P m → P (ComputeFirstSets.pass gr m)) (fs r : SetMap) (fuel : Nat)
    (h0 : P (initSets gr fs)) (h : ComputeFirstSets fuel gr fs = some r) : P r := by
  obtain ⟨fs', h1, e1, _⟩ := ComputeFirstSets.loop_spec gr P hP fuel _ r h0 h
  rw [e1]
  exact hP fs' h1

theorem ComputeFirstSets_sound (gr : Grammar) (hR : gr.NoEOL) (fs r : SetMap) (fuel : Nat)
    (h : ComputeFirstSets fuel gr fs = some r) : gr.FirstSound r.get :=
  ComputeFirstSets_invariant gr (fun m => gr.FirstSound m.get)
    (fun m hm => ComputeFirstSets.pass_sound gr hR m hm) fs r fuel (initSets_firstSound gr fs) h

theorem ComputeFirstSets_closed (gr : Grammar) (hR : gr.NoEOL) (fs r : SetMap) (fuel : Nat)
    (h : ComputeFirstSets fuel gr fs = some r) : gr.FirstClosed r.get := by
  have hs := ComputeFirstSets_sound gr hR fs r fuel h
  intro x hx
  obtain ⟨e, he, _, hp⟩ := (gr.mem_rules x.1 x.2).mp hx
  have := ComputeFirstSets.closed_of_stable gr r (ComputeFirstSets_stable gr fs r fuel h) x hx
  rwa [replaceEOL_firstOf gr r.get hs x.2 (hR e he x.2 hp)] at this

theorem firstOf_singleton_subset (gr : Grammar) (F : String → Finset String) (X : String)
    (hX : gr.IsTerminal X = false) (hne : X ≠ gr.st_.EPSILON_) : firstOf gr F [X] ⊆ F X := by
  intro t ht
  simp only [firstOf, hne, hX, if_false, Bool.false_eq_true] at ht
  split at ht
  · rename_i hε
    rcases Finset.mem_union.mp ht with h | h
    · exact (Finset.mem_filter.mp h).1
    · rw [Finset.mem_singleton] at h
      rw [h]
      exact hε
  · exact (Finset.mem_filter.mp ht).1

/-- The FIRST sets that `ComputeFirstSets` returns are the canonical ones. -/
theorem ComputeFirstSets_canonical (gr : Grammar) (hE : gr.IsTerminal gr.st_.EPSILON_ = true)
    (hL : gr.IsTerminal gr.st_.EOL_ = true) (hR : gr.NoEOL) (fs r : SetMap) (fuel : Nat)
    (h : ComputeFirstSets fuel gr fs = some r) (X : String) (hX : gr.IsTerminal X = false) :
    (∀ t, gr.IsTerminal t = true → t ≠ gr.st_.EPSILON_ →
      (t ∈ r.get X ↔ ∃ γ, gr.Derives [X] (t :: γ))) ∧
    (gr.st_.EPSILON_ ∈ r.get X ↔ gr.Derives [X] []) := by
  have hs := ComputeFirstSets_sound gr hR fs r fuel h
  have hc := ComputeFirstSets_closed gr hR fs r fuel h
  have hXε : X ≠ gr.st_.EPSILON_ := by
    intro e
    rw [e, hE] at hX
    exact Bool.noConfusion hX
  have hXL : X ≠ gr.st_.EOL_ := by
    intro e
    rw [e, hL] at hX
    exact Bool.noConfusion hX
  have h1 : gr.st_.EPSILON_ ∉ [X] := by simpa using hXε.symm
  have h2 : gr.st_.EOL_ ∉ [X] := by simpa using hXL.symm
  have hsub := firstOf_singleton_subset gr r.get X hX hXε
  constructor
  · intro t hT hne
    constructor
    · intro ht
      obtain ⟨_, γ, hg⟩ := (hs X hX t ht).2.1 hne
      exact ⟨γ, Grammar.Gen.derives gr hg⟩
    · rintro ⟨γ, hd⟩
      exact hsub ((gen_first gr r.get hc hR (Grammar.Gen.of_derives gr hd) h1 h2).2.2 t γ rfl hT)
  · constructor
    · intro ht
      exact Grammar.Gen.derives gr ((hs X hX _ ht).1 rfl)
    · intro hd
      exact hsub ((gen_first gr r.get hc hR (Grammar.Gen.of_derives gr hd) h1 h2).2.1 rfl)

/-! ## `UpdateFollow` as a function of the sets it reads -/

theorem insertAll_get (fo : SetMap) (sym : String) (T : Finset String) (k : String) :
    (insertAll fo sym T).1.get k = if k = sym then fo.get sym ∪ T else fo.get k := by
  unfold insertAll
  by_cases hT : T = ∅
  · simp only [hT, if_true, Finset.union_empty]
    split
    · rename_i h
      rw [h]
    · rfl
  · simp only [hT, if_false, SetMap.get_set]

theorem insertAll_flag (fo : SetMap) (sym : String) (T : Finset String) :
    (insertAll fo sym T).2 = true ↔ ¬ T ⊆ fo.get sym := by
  unfold insertAll
  by_cases hT : T = ∅
  · simp [hT]
  · simp [hT]

theorem insertAll_equiv {fo fo' : SetMap} (h : SetMap.Equiv fo fo') (sym : String)
    (T : Finset String) :
    SetMap.Equiv (insertAll fo sym T).1 (insertAll fo' sym T).1 ∧
      (insertAll fo sym T).2 = (insertAll fo' sym T).2 := by
  unfold insertAll
  by_cases hT : T = ∅
  · simp only [hT, if_true, and_true]
    exact h
  · simp only [hT, if_false, h.get sym, and_true]
    exact h.set _ _

theorem insertAll_contains (fo : SetMap) (sym : String) (T : Finset String) (k : String)
    (h : fo.contains k = true) : (insertAll fo sym T).1.contains k = true := by
  unfold insertAll
  split
  · exact h
  · simp only [SetMap.contains_set, h, Bool.or_true]

theorem insertAll_contains_of_key (fo : SetMap) (sym : String) (T : Finset String)
    (hs : fo.contains sym = true) (k : String) :
    (insertAll fo sym T).1.contains k = fo.contains k := by
  unfold insertAll
  split
  · rfl
  · simp only [SetMap.contains_set]
    by_cases h : k = sym
    · rw [h, hs]
      simp
    · simp [h]

/-- The set `UpdateFollow` holds in `first_remaining`. -/
theorem UpdateFollow_first_remaining (gr : Grammar) (fs : SetMap) (rhs : production) (i : Nat) :
    (if i + 1 < rhs.length then First gr (rhs.drop (i + 1)) fs ∅
      else (fs, {gr.st_.EPSILON_})).2 = firstOf gr fs.get (rhs.drop (i + 1)) := by
  split
  · rw [First_snd, Finset.empty_union]
  · rename_i h
    rw [List.drop_eq_nil_of_le (by omega)]
    rfl

theorem UpdateFollow_get (gr : Grammar) (fs fo : SetMap) (sym lhs : String) (rhs : production)
    (i : Nat) (k : String) :
    (UpdateFollow gr fs fo sym lhs rhs i).2.1.get k =
      if k = sym then fo.get sym ∪ followAdd gr fs.get fo.get lhs rhs i else fo.get k := by
  unfold UpdateFollow followAdd
  simp only [UpdateFollow_first_remaining]
  by_cases hε : gr.st_.EPSILON_ ∈ firstOf gr fs.get (rhs.drop (i + 1))
  · simp only [hε, if_true, insertAll_get, SetMap.get_touch]
    by_cases hk : k = sym
    · simp only [hk, if_true]
      by_cases hl : lhs = sym
      · simp only [hl, if_true]
        ext x
        simp only [Finset.mem_union]
        tauto
      · simp only [hl, if_false]
        ext x
        simp only [Finset.mem_union]
        tauto
    · simp only [hk, if_false]
  · simp only [hε, if_false, insertAll_get, Finset.union_empty]

theorem UpdateFollow_flag (gr : Grammar) (fs fo : SetMap) (sym lhs : String) (rhs : production)
    (i : Nat) :
    (UpdateFollow gr fs fo sym lhs rhs i).2.2 = true ↔
      ¬ followAdd gr fs.get fo.get lhs rhs i ⊆ fo.get sym := by
  unfold UpdateFollow followAdd
  simp only [UpdateFollow_first_remaining]
  by_cases hε : gr.st_.EPSILON_ ∈ firstOf gr fs.get (rhs.drop (i + 1))
  · simp only [hε, if_true, Bool.or_eq_true, insertAll_flag, insertAll_get, SetMap.get_touch]
    by_cases hl : lhs = sym
    · simp only [hl, if_true, Finset.Subset.refl, not_true_eq_false, or_false]
      rw [Finset.union_subset_iff]
      simp
    · simp only [hl, if_false, if_true]
      rw [Finset.union_subset_iff]
      constructor
      · rintro (h | h) hh
        · exact h hh.1
        · exact h (hh.2.trans Finset.subset_union_left)
      · intro h
        by_contra hcon
        push_neg at hcon
        obtain ⟨hA, hB⟩ := hcon
        rw [Finset.union_eq_left.mpr hA] at hB
        exact h ⟨hA, hB⟩
  · simp only [hε, if_false, insertAll_flag, Finset.union_empty]

theorem UpdateFollow_fst (gr : Grammar) (fs fo : SetMap) (sym lhs : String)
    (rhs : production) (i : Nat) :
    (UpdateFollow gr fs fo sym lhs rhs i).1 =
      if i + 1 < rhs.length then (First gr (rhs.drop (i + 1)) fs ∅).1 else fs := by
  unfold UpdateFollow
  dsimp only
  split_ifs <;> rfl

theorem UpdateFollow_fst_get (gr : Grammar) (fs fo : SetMap) (sym lhs : String)
    (rhs : production) (i : Nat) : (UpdateFollow gr fs fo sym lhs rhs i).1.get = fs.get := by
  rw [UpdateFollow_fst]
  split
  · exact First_fst_get gr _ fs ∅
  · rfl

theorem UpdateFollow_fst_of_hasKeys (gr : Grammar) (fs fo : SetMap) (sym lhs : String)
    (rhs : production) (i : Nat) (hk : gr.HasKeys fs) :
    (UpdateFollow gr fs fo sym lhs rhs i).1 = fs := by
  rw [UpdateFollow_fst]
  split
  · exact First_fst_of_hasKeys gr _ fs ∅ hk
  · rfl

theorem UpdateFollow_fst_contains (gr : Grammar) (fs fo : SetMap) (sym lhs : String)
    (rhs : production) (i : Nat) (k : String) (h : fs.contains k = true) :
    (UpdateFollow gr fs fo sym lhs rhs i).1.contains k = true := by
  rw [UpdateFollow_fst]
  split
  · exact First_fst_contains gr _ fs ∅ k h
  · exact h

/-! ## One pass of `ComputeFollowSets` -/

theorem Grammar.mem_sites (gr : Grammar) (x : String × production × Nat) :
    x ∈ gr.sites ↔ (x.1, x.2.1) ∈ gr.rules ∧ x.2.2 < x.2.1.length := by
  unfold Grammar.sites
  simp only [List.mem_flatMap, List.mem_map, List.mem_range]
  constructor
  · rintro ⟨r, hr, i, hi, rfl⟩
    exact ⟨hr, hi⟩
  · rintro ⟨hr, hi⟩
    exact ⟨(x.1, x.2.1), hr, x.2.2, hi, rfl⟩

theorem ComputeFollowSets.follow_pass_eq (gr : Grammar) (st : SetMap × SetMap × Bool) :
    ComputeFollowSets.pass gr st =
      gr.sites.foldl (fun acc x => ComputeFollowSets.position gr x.1 x.2.1 acc x.2.2) st := by
  unfold ComputeFollowSets.pass Grammar.sites Grammar.rules
  rw [foldl_flatMap_map
    (fun acc (x : String × production × Nat) => ComputeFollowSets.position gr x.1 x.2.1 acc x.2.2)
    (fun r : String × production => List.range r.2.length) (fun r i => (r.1, r.2, i))]
  rw [foldl_flatMap_map
    (fun acc (r : String × production) =>
      (List.range r.2.length).foldl (fun acc1 i => ComputeFollowSets.position gr r.1 r.2 acc1 i) acc)
    (fun e : String × List production => e.2) (fun e p => (e.1, p))]

/-- The two ways the body of the innermost loop can go. -/
theorem ComputeFollowSets.position_cases (gr : Grammar) (lhs : String) (rhs : production)
    (st : SetMap × SetMap × Bool) (i : Nat) :
    ComputeFollowSets.position gr lhs rhs st i = st ∨
    ∃ sym, rhs.get? i = some sym ∧ gr.IsTerminal sym = false ∧
      ComputeFollowSets.position gr lhs rhs st i =
        ((UpdateFollow gr st.1 st.2.1 sym lhs rhs i).1,
         (UpdateFollow gr st.1 st.2.1 sym lhs rhs i).2.1,
         st.2.2 || (UpdateFollow gr st.1 st.2.1 sym lhs rhs i).2.2) := by
  unfold ComputeFollowSets.position
  cases h : rhs.get? i with
  | none => exact Or.inl rfl
  | some sym =>
    cases hT : gr.IsTerminal sym with
    | true => exact Or.inl (by simp [hT])
    | false => exact Or.inr ⟨sym, rfl, hT, by simp [hT]⟩

theorem ComputeFollowSets.position_fst_get (gr : Grammar) (lhs : String) (rhs : production)
    (st : SetMap × SetMap × Bool) (i : Nat) :
    (ComputeFollowSets.position gr lhs rhs st i).1.get = st.1.get := by
  rcases ComputeFollowSets.position_cases gr lhs rhs st i with h | ⟨sym, _, _, h⟩
  · rw [h]
  · rw [h]
    exact UpdateFollow_fst_get gr _ _ _ _ _ _

theorem ComputeFollowSets.position_le (gr : Grammar) (lhs : String) (rhs : production)
    (st : SetMap × SetMap × Bool) (i : Nat) :
    SetMap.le st.2.1 (ComputeFollowSets.position gr lhs rhs st i).2.1 := by
  rcases ComputeFollowSets.position_cases gr lhs rhs st i with h | ⟨sym, _, _, h⟩
  · rw [h]
    exact SetMap.le_refl _
  · rw [h]
    intro k
    simp only [UpdateFollow_get]
    split
    · rename_i hk
      rw [hk]
      exact Finset.subset_union_left
    · exact Finset.Subset.refl _

theorem ComputeFollowSets.position_get_terminal (gr : Grammar) (lhs : String) (rhs : production)
    (st : SetMap × SetMap × Bool) (i : Nat) (k : String) (hk : gr.IsTerminal k = true) :
    (ComputeFollowSets.position gr lhs rhs st i).2.1.get k = st.2.1.get k := by
  rcases ComputeFollowSets.position_cases gr lhs rhs st i with h | ⟨sym, _, hT, h⟩
  · rw [h]
  · rw [h]
    simp only [UpdateFollow_get]
    rw [if_neg]
    intro e
    rw [e, hT] at hk
    exact Bool.noConfusion hk

theorem ComputeFollowSets.position_flag_false (gr : Grammar) (lhs : String) (rhs : production)
    (st : SetMap × SetMap × Bool) (i : Nat)
    (h : (ComputeFollowSets.position gr lhs rhs st i).2.2 = false) :
    st.2.2 = false ∧ (ComputeFollowSets.position gr lhs rhs st i).2.1.get = st.2.1.get ∧
      ∀ sym, rhs.get? i = some sym → gr.IsTerminal sym = false →
        followAdd gr st.1.get st.2.1.get lhs rhs i ⊆ st.2.1.get sym := by
  rcases ComputeFollowSets.position_cases gr lhs rhs st i with h' | ⟨sym, hs, hT, h'⟩
  · rw [h'] at h
    refine ⟨h, by rw [h'], ?_⟩
    intro sym hs hT
    unfold ComputeFollowSets.position at h'
    simp only [hs, hT, Bool.not_false, if_true] at h'
    have hflag : (UpdateFollow gr st.1 st.2.1 sym lhs rhs i).2.2 = false := by
      have := congrArg (fun x => x.2.2) h'
      simp only [h, Bool.false_or] at this
      exact this
    by_contra hcon
    rw [(UpdateFollow_flag gr st.1 st.2.1 sym lhs rhs i).mpr hcon] at hflag
    exact Bool.noConfusion hflag
  · rw [h'] at h ⊢
    simp only [Bool.or_eq_false_iff] at h
    have hsub : followAdd gr st.1.get st.2.1.get lhs rhs i ⊆ st.2.1.get sym := by
      by_contra hcon
      rw [(UpdateFollow_flag gr st.1 st.2.1 sym lhs rhs i).mpr hcon] at h
      exact Bool.noConfusion h.2
    refine ⟨h.1, ?_, ?_⟩
    · funext k
      simp only [UpdateFollow_get]
      split
      · rename_i hk
        rw [hk, Finset.union_eq_left.mpr hsub]
      · rfl
    · intro sym' hs' _
      rw [hs] at hs'
      cases hs'
      exact hsub

theorem ComputeFollowSets.position_flag_true (gr : Grammar) (lhs : String) (rhs : production)
    (st : SetMap × SetMap × Bool) (i : Nat) (h0 : st.2.2 = false)
    (h : (ComputeFollowSets.position gr lhs rhs st i).2.2 = true) :
    ∃ sym, gr.IsTerminal sym = false ∧
      st.2.1.get sym ⊂ (ComputeFollowSets.position gr lhs rhs st i).2.1.get sym := by
  rcases ComputeFollowSets.position_cases gr lhs rhs st i with h' | ⟨sym, _, hT, h'⟩
  · rw [h', h0] at h
    exact Bool.noConfusion h
  · rw [h'] at h ⊢
    simp only [h0, Bool.false_or] at h
    have hns := (UpdateFollow_flag gr st.1 st.2.1 sym lhs rhs i).mp h
    refine ⟨sym, hT, ?_⟩
    simp only [UpdateFollow_get, if_true]
    refine Finset.ssubset_iff_subset_ne.mpr ⟨Finset.subset_union_left, fun e => hns ?_⟩
    rw [e]
    exact Finset.subset_union_right

theorem ComputeFollowSets.position_flag_mono (gr : Grammar) (lhs : String) (rhs : production)
    (st : SetMap × SetMap × Bool) (i : Nat) (h : st.2.2 = true) :
    (ComputeFollowSets.position gr lhs rhs st i).2.2 = true := by
  rcases ComputeFollowSets.position_cases gr lhs rhs st i with h' | ⟨sym, _, _, h'⟩
  · rw [h']
    exact h
  · rw [h']
    simp [h]

/-! ## Termination of the loop of `ComputeFollowSets` -/

theorem firstOf_subset_gen (gr : Grammar) (F : String → Finset String) (rule : List String)
    (hr : ∀ s ∈ rule, s ∈ gr.symbols) :
    firstOf gr F rule ⊆
      insert gr.st_.EPSILON_ (gr.terminals ∪ gr.keys.toFinset.biUnion F) := by
  have hF : ∀ s, gr.IsTerminal s = false →
      F s ⊆ insert gr.st_.EPSILON_ (gr.terminals ∪ gr.keys.toFinset.biUnion F) := by
    intro s hs x hx
    apply Finset.mem_insert_of_mem
    apply Finset.mem_union_right
    exact Finset.mem_biUnion.mpr
      ⟨s, List.mem_toFinset.mpr ((gr.isTerminal_eq_false_iff s).mp hs), hx⟩
  induction rule with
  | nil => simp [firstOf]
  | cons s rest ih =>
    have ih' := ih (fun x hx => hr x (List.mem_cons_of_mem _ hx))
    have hfil : (F s).filter (fun x => x ≠ gr.st_.EPSILON_) ⊆ F s := Finset.filter_subset _ _
    simp only [firstOf]
    split_ifs with h1 h2 h3 h4
    · exact ih'
    · simp
    · intro x hx
      rw [Finset.mem_singleton] at hx
      subst hx
      apply Finset.mem_insert_of_mem
      apply Finset.mem_union_left
      unfold Grammar.terminals
      simp only [List.mem_toFinset, List.mem_filter]
      exact ⟨hr x (List.mem_cons_self _ _), h2⟩
    · exact Finset.union_subset (hfil.trans (hF s (by simpa using h2))) ih'
    · exact hfil.trans (hF s (by simpa using h2))

theorem followAdd_subset (gr : Grammar) (F G : String → Finset String)
    {x : String × production × Nat} (hx : x ∈ gr.sites) (hG : gr.FollowBounded F G) :
    followAdd gr F G x.1 x.2.1 x.2.2 ⊆ gr.followUniverse F := by
  obtain ⟨hr, _⟩ := (gr.mem_sites x).mp hx
  have hsub := firstOf_subset_gen gr F (x.2.1.drop (x.2.2 + 1))
    (fun s hs => gr.mem_symbols hr (List.mem_of_mem_drop hs))
  unfold followAdd
  apply Finset.union_subset
  · intro t ht
    obtain ⟨h1, h2⟩ := Finset.mem_filter.mp ht
    unfold Grammar.followUniverse
    apply Finset.mem_insert_of_mem
    rcases Finset.mem_insert.mp (hsub h1) with h | h
    · exact absurd h h2
    · exact Finset.mem_filter.mpr ⟨h, h2⟩
  · split
    · exact hG x.1 (gr.rules_key hr)
    · exact Finset.empty_subset _

theorem followMeasure_mono (gr : Grammar) {fo fo' : SetMap} (h : SetMap.le fo fo') :
    followMeasure gr fo ≤ followMeasure gr fo' :=
  Finset.sum_le_sum (fun k _ => Finset.card_le_card (h k))

theorem followMeasure_lt (gr : Grammar) {fo fo' : SetMap} (h : SetMap.le fo fo') {sym : String}
    (hs : gr.IsTerminal sym = false) (hlt : fo.get sym ⊂ fo'.get sym) :
    followMeasure gr fo < followMeasure gr fo' :=
  Finset.sum_lt_sum (fun k _ => Finset.card_le_card (h k))
    ⟨sym, List.mem_toFinset.mpr ((gr.isTerminal_eq_false_iff sym).mp hs),
      Finset.card_lt_card hlt⟩

theorem ComputeFollowSets.position_inv (gr : Grammar) (fs0 fo0 : SetMap)
    {x : String × production × Nat} (hx : x ∈ gr.sites) (st : SetMap × SetMap × Bool)
    (h : FollowInv gr fs0 fo0 st) :
    FollowInv gr fs0 fo0 (ComputeFollowSets.position gr x.1 x.2.1 st x.2.2) := by
  have hle := ComputeFollowSets.position_le gr x.1 x.2.1 st x.2.2
  refine ⟨?_, SetMap.le_trans h.le hle, ?_, ?_, ?_, ?_⟩
  · rw [ComputeFollowSets.position_fst_get, h.fs_get]
  · rcases ComputeFollowSets.position_cases gr x.1 x.2.1 st x.2.2 with h' | ⟨sym, _, hT, h'⟩
    · rw [h']
      exact h.bounded
    · rw [h']
      intro k hk
      simp only [UpdateFollow_get]
      split
      · apply Finset.union_subset (h.bounded sym hT)
        have := followAdd_subset gr fs0.get st.2.1.get hx h.bounded
        rwa [h.fs_get]
      · exact h.bounded k hk
  · intro k hk
    rw [ComputeFollowSets.position_get_terminal gr x.1 x.2.1 st x.2.2 k hk, h.terminal k hk]
  · intro hflag
    cases h0 : st.2.2 with
    | true => exact lt_of_lt_of_le (h.flag_true h0) (followMeasure_mono gr hle)
    | false =>
      obtain ⟨sym, hs, hlt⟩ := ComputeFollowSets.position_flag_true gr x.1 x.2.1 st x.2.2 h0 hflag
      exact lt_of_le_of_lt (followMeasure_mono gr h.le) (followMeasure_lt gr hle hs hlt)
  · intro hflag
    obtain ⟨h0, hg, _⟩ := ComputeFollowSets.position_flag_false gr x.1 x.2.1 st x.2.2 hflag
    rw [hg, h.flag_false h0]

theorem FollowInv.start (gr : Grammar) (fs fo : SetMap)
    (hb : gr.FollowBounded fs.get fo.get) : FollowInv gr fs fo (fs, fo, false) :=
  ⟨rfl, SetMap.le_refl fo, hb, fun _ _ => rfl, fun h => Bool.noConfusion h, fun _ => rfl⟩

theorem ComputeFollowSets.follow_pass_inv (gr : Grammar) (fs fo : SetMap)
    (hb : gr.FollowBounded fs.get fo.get) :
    FollowInv gr fs fo (ComputeFollowSets.pass gr (fs, fo, false)) := by
  rw [ComputeFollowSets.follow_pass_eq]
  exact foldl_invariant
    (fun acc (x : String × production × Nat) => ComputeFollowSets.position gr x.1 x.2.1 acc x.2.2)
    gr.sites (FollowInv gr fs fo) (fun x hx m hm => ComputeFollowSets.position_inv gr fs fo hx m hm)
    _ (FollowInv.start gr fs fo hb)

theorem followMeasure_le (gr : Grammar) (fs fo : SetMap) (hb : gr.FollowBounded fs.get fo.get) :
    followMeasure gr fo + 1 ≤ gr.followBound fs.get := by
  unfold followMeasure Grammar.followBound
  apply Nat.succ_le_succ
  calc ∑ k ∈ gr.keys.toFinset, (fo.get k).card
      ≤ ∑ _k ∈ gr.keys.toFinset, (gr.followUniverse fs.get).card := by
        apply Finset.sum_le_sum
        intro k hk
        apply Finset.card_le_card
        exact hb k ((gr.isTerminal_eq_false_iff k).mpr (List.mem_toFinset.mp hk))
    _ = gr.keys.toFinset.card * (gr.followUniverse fs.get).card := by
        rw [Finset.sum_const, smul_eq_mul]

theorem ComputeFollowSets.follow_loop_terminates (gr : Grammar) (n : Nat) (fs fo : SetMap)
    (hb : gr.FollowBounded fs.get fo.get)
    (hn : gr.followBound fs.get ≤ n + followMeasure gr fo) :
    ∃ r, ComputeFollowSets.loop gr n fs fo = some r := by
  induction n generalizing fs fo with
  | zero =>
    have := followMeasure_le gr fs fo hb
    omega
  | succ n ih =>
    simp only [ComputeFollowSets.loop]
    have hinv := ComputeFollowSets.follow_pass_inv gr fs fo hb
    cases hflag : (ComputeFollowSets.pass gr (fs, fo, false)).2.2 with
    | false =>
      exact ⟨((ComputeFollowSets.pass gr (fs, fo, false)).1,
        (ComputeFollowSets.pass gr (fs, fo, false)).2.1), by simp⟩
    | true =>
      simp only [if_true]
      have hlt := hinv.flag_true hflag
      apply ih
      · rw [hinv.fs_get]
        exact hinv.bounded
      · rw [hinv.fs_get]
        omega

theorem ComputeFollowSets.follow_loop_mono (gr : Grammar) (n : Nat) (fs fo : SetMap)
    (r : SetMap × SetMap) (h : ComputeFollowSets.loop gr n fs fo = some r) (m : Nat)
    (hm : n ≤ m) : ComputeFollowSets.loop gr m fs fo = some r := by
  induction n generalizing fs fo m with
  | zero => simp [ComputeFollowSets.loop] at h
  | succ n ih =>
    obtain ⟨m', rfl⟩ : ∃ m', m = m' + 1 := ⟨m - 1, by omega⟩
    simp only [ComputeFollowSets.loop] at h ⊢
    split at h
    · rename_i hb
      simp only [hb, if_true]
      exact ih _ _ h m' (by omega)
    · rename_i hb
      simpa [hb] using h

/-- What the loop returns is the outcome of a pass that reported no change, started from a state
with every property that the start has and the passes keep. -/
theorem ComputeFollowSets.follow_loop_spec (gr : Grammar) (P : SetMap → SetMap → Prop)
    (hP : ∀ fs fo, P fs fo → P (ComputeFollowSets.pass gr (fs, fo, false)).1
      (ComputeFollowSets.pass gr (fs, fo, false)).2.1)
    (n : Nat) (fs fo : SetMap) (r : SetMap × SetMap) (h0 : P fs fo)
    (h : ComputeFollowSets.loop gr n fs fo = some r) :
    ∃ fs' fo', P fs' fo' ∧ ComputeFollowSets.pass gr (fs', fo', false) = (r.1, r.2, false) := by
  induction n generalizing fs fo with
  | zero => simp [ComputeFollowSets.loop] at h
  | succ n ih =>
    simp only [ComputeFollowSets.loop] at h
    split at h
    · exact ih _ _ (hP fs fo h0) h
    · rename_i hb
      refine ⟨fs, fo, h0, ?_⟩
      have hr : ((ComputeFollowSets.pass gr (fs, fo, false)).1,
          (ComputeFollowSets.pass gr (fs, fo, false)).2.1) = r := by simpa using h
      have hb' : (ComputeFollowSets.pass gr (fs, fo, false)).2.2 = false := by simpa using hb
      rw [← hr]
      exact Prod.ext rfl (Prod.ext rfl hb')

/-! ## `ComputeFollowSets` as a whole -/

theorem ComputeFollowSets.find_init (gr : Grammar) (fo : SetMap) (k : String) :
    (ComputeFollowSets.init gr fo).find k =
      if k = gr.axiom_ then some (insert gr.st_.EOL_ ((initSets gr fo).get gr.axiom_))
      else (initSets gr fo).find k := by
  unfold ComputeFollowSets.init
  simp only [SetMap.find_set, SetMap.find_touch]
  split <;> rfl

theorem ComputeFollowSets.get_init_key (gr : Grammar) (fo : SetMap) {k : String}
    (hk : gr.IsTerminal k = false) :
    (ComputeFollowSets.init gr fo).get k = if k = gr.axiom_ then {gr.st_.EOL_} else ∅ := by
  unfold SetMap.get
  rw [ComputeFollowSets.find_init]
  by_cases h : k = gr.axiom_
  · simp only [h, if_true, Option.getD_some]
    rw [← h, get_initSets_key gr fo hk]
    rfl
  · simp only [h, if_false]
    exact get_initSets_key gr fo hk

theorem ComputeFollowSets.mem_init_start (gr : Grammar) (fo : SetMap) :
    gr.st_.EOL_ ∈ (ComputeFollowSets.init gr fo).get gr.axiom_ := by
  unfold SetMap.get
  rw [ComputeFollowSets.find_init, if_pos rfl]
  exact Finset.mem_insert_self _ _

theorem ComputeFollowSets.init_bounded (gr : Grammar) (F : String → Finset String)
    (fo : SetMap) : gr.FollowBounded F (ComputeFollowSets.init gr fo).get := by
  intro k hk
  rw [ComputeFollowSets.get_init_key gr fo hk]
  split
  · intro x hx
    rw [Finset.mem_singleton] at hx
    rw [hx]
    exact Finset.mem_insert_self _ _
  · exact Finset.empty_subset _

theorem ComputeFollowSets_isSome (gr : Grammar) (fs fo : SetMap) (fuel : Nat)
    (h : gr.followBound fs.get ≤ fuel) : ∃ r, ComputeFollowSets fuel gr fs fo = some r :=
  ComputeFollowSets.follow_loop_terminates gr fuel fs _ (ComputeFollowSets.init_bounded gr _ fo)
    (by omega)

/-- Every property of the maps that the steps of a pass keep holds of the outcome of the pass. -/
theorem ComputeFollowSets.pass_invariant (gr : Grammar) (P : SetMap → SetMap → Prop)
    (hP : ∀ x ∈ gr.sites, ∀ st : SetMap × SetMap × Bool, P st.1 st.2.1 →
      P (ComputeFollowSets.position gr x.1 x.2.1 st x.2.2).1
        (ComputeFollowSets.position gr x.1 x.2.1 st x.2.2).2.1)
    (st : SetMap × SetMap × Bool) (h : P st.1 st.2.1) :
    P (ComputeFollowSets.pass gr st).1 (ComputeFollowSets.pass gr st).2.1 := by
  rw [ComputeFollowSets.follow_pass_eq]
  exact foldl_invariant
    (fun acc (x : String × production × Nat) => ComputeFollowSets.position gr x.1 x.2.1 acc x.2.2)
    gr.sites (fun st => P st.1 st.2.1) hP st h

/-- Every property that the initial maps have and the steps keep holds of the returned maps. -/
theorem ComputeFollowSets_invariant (gr : Grammar) (P : SetMap → SetMap → Prop)
    (hP : ∀ x ∈ gr.sites, ∀ st : SetMap × SetMap × Bool, P st.1 st.2.1 →
      P (ComputeFollowSets.position gr x.1 x.2.1 st x.2.2).1
        (ComputeFollowSets.position gr x.1 x.2.1 st x.2.2).2.1)
    (fs fo : SetMap) (r : SetMap × SetMap) (fuel : Nat)
    (h0 : P fs (ComputeFollowSets.init gr fo)) (h : ComputeFollowSets fuel gr fs fo = some r) :
    P r.1 r.2 := by
  obtain ⟨fs', fo', h1, e⟩ := ComputeFollowSets.follow_loop_spec gr P
    (fun a b hab => ComputeFollowSets.pass_invariant gr P hP (a, b, false) hab) fuel fs _ r h0 h
  have := ComputeFollowSets.pass_invariant gr P hP (fs', fo', false) h1
  rw [e] at this
  exact this

theorem ComputeFollowSets.foldl_flag_false (gr : Grammar)
    (l : List (String × production × Nat)) (st : SetMap × SetMap × Bool)
    (h : (l.foldl (fun acc x => ComputeFollowSets.position gr x.1 x.2.1 acc x.2.2) st).2.2
      = false) :
    st.2.2 = false ∧
    (l.foldl (fun acc x => ComputeFollowSets.position gr x.1 x.2.1 acc x.2.2) st).2.1.get
      = st.2.1.get ∧
    (l.foldl (fun acc x => ComputeFollowSets.position gr x.1 x.2.1 acc x.2.2) st).1.get
      = st.1.get ∧
    ∀ x ∈ l, ∀ sym, x.2.1.get? x.2.2 = some sym → gr.IsTerminal sym = false →
      followAdd gr st.1.get st.2.1.get x.1 x.2.1 x.2.2 ⊆ st.2.1.get sym := by
  induction l generalizing st with
  | nil => exact ⟨h, rfl, rfl, fun x hx => by simp at hx⟩
  | cons a l ih =>
    rw [List.foldl_cons] at h ⊢
    obtain ⟨i1, i2, i3, i4⟩ := ih _ h
    obtain ⟨j1, j2, j3⟩ := ComputeFollowSets.position_flag_false gr a.1 a.2.1 st a.2.2 i1
    have j4 := ComputeFollowSets.position_fst_get gr a.1 a.2.1 st a.2.2
    refine ⟨j1, i2.trans j2, i3.trans j4, ?_⟩
    intro x hx sym hs hT
    rcases List.mem_cons.mp hx with rfl | hx'
    · exact j3 sym hs hT
    · have := i4 x hx' sym hs hT
      rwa [j2, j4] at this

theorem ComputeFollowSets_closed (gr : Grammar) (fs fo : SetMap) (r : SetMap × SetMap)
    (fuel : Nat) (h : ComputeFollowSets fuel gr fs fo = some r) :
    gr.FollowClosed r.1.get r.2.get := by
  obtain ⟨fs', fo', _, e⟩ := ComputeFollowSets.follow_loop_spec gr (fun _ _ => True)
    (fun _ _ _ => trivial) fuel fs _ r trivial h
  rw [ComputeFollowSets.follow_pass_eq] at e
  have hflag := congrArg (fun x => x.2.2) e
  obtain ⟨_, k2, k3, k4⟩ := ComputeFollowSets.foldl_flag_false gr gr.sites (fs', fo', false) hflag
  rw [e] at k2 k3
  simp only at k2 k3 k4
  rw [k2, k3]
  exact k4

theorem ComputeFollowSets_fst_get (gr : Grammar) (fs fo : SetMap) (r : SetMap × SetMap)
    (fuel : Nat) (h : ComputeFollowSets fuel gr fs fo = some r) : r.1.get = fs.get :=
  ComputeFollowSets_invariant gr (fun a _ => a.get = fs.get)
    (fun x _ st hst => (ComputeFollowSets.position_fst_get gr x.1 x.2.1 st x.2.2).trans hst)
    fs fo r fuel rfl h

theorem ComputeFollowSets_le (gr : Grammar) (fs fo : SetMap) (r : SetMap × SetMap)
    (fuel : Nat) (h : ComputeFollowSets fuel gr fs fo = some r) :
    SetMap.le (ComputeFollowSets.init gr fo) r.2 :=
  ComputeFollowSets_invariant gr (fun _ b => SetMap.le (ComputeFollowSets.init gr fo) b)
    (fun x _ st hst => SetMap.le_trans hst (ComputeFollowSets.position_le gr x.1 x.2.1 st x.2.2))
    fs fo r fuel (SetMap.le_refl _) h

/-! ## FOLLOW sets and derivations -/

theorem Grammar.eraseEpsilon_append (gr : Grammar) (a b : List String) :
    gr.eraseEpsilon (a ++ b) = gr.eraseEpsilon a ++ gr.eraseEpsilon b := by
  unfold Grammar.eraseEpsilon
  exact List.filter_append a b

theorem split_at_get (rhs : List String) (i : Nat) (sym : String)
    (h : rhs.get? i = some sym) : rhs = rhs.take i ++ sym :: rhs.drop (i + 1) := by
  obtain ⟨hi, hs⟩ := List.get?_eq_some.mp h
  have := List.drop_eq_getElem_cons hi
  rw [show rhs[i] = sym from hs] at this
  rw [← this, List.take_append_drop]

theorem Grammar.eraseEpsilon_at (gr : Grammar) (rhs : List String) (i : Nat) (sym : String)
    (h : rhs.get? i = some sym) (hne : sym ≠ gr.st_.EPSILON_) :
    gr.eraseEpsilon rhs =
      gr.eraseEpsilon (rhs.take i) ++ sym :: gr.eraseEpsilon (rhs.drop (i + 1)) := by
  conv_lhs => rw [split_at_get rhs i sym h]
  rw [Grammar.eraseEpsilon_append, Grammar.eraseEpsilon_cons, if_neg hne]

theorem Grammar.Derives.step (gr : Grammar) (u v : List String)
    {e : String × List production} {p : production} (he : e ∈ gr.g_) (hp : p ∈ e.2) :
    gr.Derives (u ++ e.1 :: v) (u ++ gr.eraseEpsilon p ++ v) :=
  Relation.ReflTransGen.single (Grammar.Step.rewrite u v e p he hp)

theorem followAdd_sound (gr : Grammar) (hE : gr.IsTerminal gr.st_.EPSILON_ = true)
    (hR : gr.NoEOL) (F G : String → Finset String) (hF : gr.FirstSound F)
    (hG : gr.FollowSound G) {x : String × production × Nat} (hx : x ∈ gr.sites)
    (hreach : gr.Reachable x.1) (sym : String) (hs : x.2.1.get? x.2.2 = some sym)
    (hT : gr.IsTerminal sym = false) :
    ∀ t ∈ followAdd gr F G x.1 x.2.1 x.2.2, gr.FollowsIn sym t := by
  obtain ⟨hr, _⟩ := (gr.mem_sites x).mp hx
  obtain ⟨e, he, h1, hp⟩ := (gr.mem_rules x.1 x.2.1).mp hr
  have hne : sym ≠ gr.st_.EPSILON_ := by
    intro e'
    rw [e', hE] at hT
    exact Bool.noConfusion hT
  have hno : gr.st_.EOL_ ∉ x.2.1.drop (x.2.2 + 1) :=
    fun hm => hR e he x.2.1 hp (List.mem_of_mem_drop hm)
  have herase := gr.eraseEpsilon_at x.2.1 x.2.2 sym hs hne
  intro t ht
  unfold followAdd at ht
  rcases Finset.mem_union.mp ht with ht1 | ht2
  · obtain ⟨m1, m2⟩ := Finset.mem_filter.mp ht1
    obtain ⟨_, γ, hg⟩ := (firstOf_sound gr F hF _ hno t m1).2.1 m2
    obtain ⟨u, v, hd⟩ := hreach
    have d1 : gr.Derives [gr.axiom_, gr.st_.EOL_] (u ++ x.1 :: (v ++ [gr.st_.EOL_])) := by
      have := Grammar.Derives.context gr [] [gr.st_.EOL_] hd
      simpa using this
    have d2 : gr.Derives (u ++ x.1 :: (v ++ [gr.st_.EOL_]))
        (u ++ gr.eraseEpsilon x.2.1 ++ (v ++ [gr.st_.EOL_])) := by
      rw [← h1]
      exact Grammar.Derives.step gr u _ he hp
    have d3 : gr.Derives (u ++ gr.eraseEpsilon x.2.1 ++ (v ++ [gr.st_.EOL_]))
        ((u ++ gr.eraseEpsilon (x.2.1.take x.2.2) ++ [sym]) ++ (t :: γ) ++
          (v ++ [gr.st_.EOL_])) := by
      have := Grammar.Derives.context gr (u ++ gr.eraseEpsilon (x.2.1.take x.2.2) ++ [sym])
        (v ++ [gr.st_.EOL_]) (Grammar.Gen.derives gr hg)
      rw [herase]
      simpa [List.append_assoc] using this
    refine ⟨u ++ gr.eraseEpsilon (x.2.1.take x.2.2), γ ++ (v ++ [gr.st_.EOL_]), ?_⟩
    have := Grammar.Derives.chain gr (Grammar.Derives.chain gr d1 d2) d3
    simpa [List.append_assoc] using this
  · split at ht2
    · rename_i hε
      have hg : gr.Gen (gr.eraseEpsilon (x.2.1.drop (x.2.2 + 1))) [] :=
        (firstOf_sound gr F hF _ hno _ hε).1 rfl
      obtain ⟨u, v, hd⟩ := hG x.1 (gr.rules_key hr) t ht2
      have d2 : gr.Derives (u ++ x.1 :: t :: v) (u ++ gr.eraseEpsilon x.2.1 ++ t :: v) := by
        rw [← h1]
        exact Grammar.Derives.step gr u _ he hp
      have d3 : gr.Derives (u ++ gr.eraseEpsilon x.2.1 ++ t :: v)
          ((u ++ gr.eraseEpsilon (x.2.1.take x.2.2) ++ [sym]) ++ [] ++ t :: v) := by
        have := Grammar.Derives.context gr (u ++ gr.eraseEpsilon (x.2.1.take x.2.2) ++ [sym])
          (t :: v) (Grammar.Gen.derives gr hg)
        rw [herase]
        simpa [List.append_assoc] using this
      refine ⟨u ++ gr.eraseEpsilon (x.2.1.take x.2.2), v, ?_⟩
      have := Grammar.Derives.chain gr (Grammar.Derives.chain gr hd d2) d3
      simpa [List.append_assoc] using this
    · simp at ht2

theorem ComputeFollowSets.position_sound (gr : Grammar)
    (hE : gr.IsTerminal gr.st_.EPSILON_ = true) (hR : gr.NoEOL)
    (hreach : ∀ X, gr.IsTerminal X = false → gr.Reachable X)
    {x : String × production × Nat} (hx : x ∈ gr.sites) (st : SetMap × SetMap × Bool)
    (h : gr.FirstSound st.1.get ∧ gr.FollowSound st.2.1.get) :
    gr.FirstSound (ComputeFollowSets.position gr x.1 x.2.1 st x.2.2).1.get ∧
      gr.FollowSound (ComputeFollowSets.position gr x.1 x.2.1 st x.2.2).2.1.get := by
  refine ⟨by rw [ComputeFollowSets.position_fst_get]; exact h.1, ?_⟩
  rcases ComputeFollowSets.position_cases gr x.1 x.2.1 st x.2.2 with h' | ⟨sym, hs, hT, h'⟩
  · rw [h']
    exact h.2
  · rw [h']
    intro X hX t ht
    simp only [UpdateFollow_get] at ht
    split at ht
    · rename_i hk
      rw [hk]
      rcases Finset.mem_union.mp ht with ht1 | ht2
      · exact h.2 sym hT t ht1
      · exact followAdd_sound gr hE hR _ _ h.1 h.2 hx
          (hreach x.1 (gr.rules_key ((gr.mem_sites x).mp hx).1)) sym hs hT t ht2
    · exact h.2 X hX t ht

theorem ComputeFollowSets.init_sound (gr : Grammar) (fo : SetMap) :
    gr.FollowSound (ComputeFollowSets.init gr fo).get := by
  intro X hX t ht
  rw [ComputeFollowSets.get_init_key gr fo hX] at ht
  split at ht
  · rename_i hk
    rw [Finset.mem_singleton] at ht
    rw [ht, hk]
    exact ⟨[], [], Grammar.Derives.zero gr _⟩
  · simp at ht

theorem Grammar.Gen.of_terminal_cons (gr : Grammar) {s : String} {α w : List String}
    (hs : gr.IsTerminal s = true) (h : gr.Gen (s :: α) w) : ∃ w', w = s :: w' ∧ gr.Gen α w' := by
  cases h with
  | keep _ _ w' h' => exact ⟨w', rfl, h'⟩
  | expand e p _ w1 w2 he _ _ _ =>
    have : gr.IsTerminal e.1 = false :=
      (gr.isTerminal_eq_false_iff e.1).mpr (List.mem_map.mpr ⟨e, he, rfl⟩)
    rw [this] at hs
    exact Bool.noConfusion hs

theorem Grammar.Gen.unstep (gr : Grammar) {e : String × List production} {p : production}
    (he : e ∈ gr.g_) (hp : p ∈ e.2) (u v : List String) {w : List String}
    (h : gr.Gen (u ++ gr.eraseEpsilon p ++ v) w) : gr.Gen (u ++ e.1 :: v) w := by
  rw [List.append_assoc] at h
  obtain ⟨w1, w2, rfl, g1, g2⟩ := Grammar.Gen.split gr u _ h
  obtain ⟨w3, w4, rfl, g3, g4⟩ := Grammar.Gen.split gr _ v g2
  exact Grammar.Gen.append gr g1 (Grammar.Gen.expand e p v w3 w4 he hp g3 g4)

theorem occurrence_cases {u0 m v0 u rest : List String} {X : String}
    (h : u0 ++ m ++ v0 = u ++ X :: rest) :
    (∃ u2, u0 = u ++ X :: u2 ∧ rest = u2 ++ m ++ v0) ∨
    (∃ m1 m2, m = m1 ++ X :: m2 ∧ u = u0 ++ m1 ∧ rest = m2 ++ v0) ∨
    (∃ v1, v0 = v1 ++ X :: rest ∧ u = u0 ++ m ++ v1) := by
  rw [List.append_assoc] at h
  rcases List.append_eq_append_iff.mp h with ⟨a', ha1, ha2⟩ | ⟨c', hc1, hc2⟩
  · rcases List.append_eq_append_iff.mp ha2 with ⟨b, hb1, hb2⟩ | ⟨c, hc1, hc2⟩
    · exact Or.inr (Or.inr ⟨b, hb2, by rw [ha1, hb1, List.append_assoc]⟩)
    · cases c with
      | nil =>
        simp only [List.append_nil] at hc1
        simp only [List.nil_append] at hc2
        exact Or.inr (Or.inr ⟨[], by simpa using hc2.symm, by rw [ha1, hc1]; simp⟩)
      | cons b c =>
        simp only [List.cons_append, List.cons.injEq] at hc2
        obtain ⟨hb, hrest⟩ := hc2
        subst hb
        exact Or.inr (Or.inl ⟨a', c, hc1, ha1, hrest⟩)
  · cases c' with
    | nil =>
      simp only [List.append_nil] at hc1
      simp only [List.nil_append] at hc2
      cases m with
      | nil =>
        simp only [List.nil_append] at hc2
        exact Or.inr (Or.inr ⟨[], by simpa using hc2.symm, by rw [hc1]; simp⟩)
      | cons b m =>
        simp only [List.cons_append, List.cons.injEq] at hc2
        obtain ⟨hb, hrest⟩ := hc2
        subst hb
        exact Or.inr (Or.inl ⟨[], m, rfl, by rw [hc1]; simp, hrest⟩)
    | cons b c' =>
      simp only [List.cons_append, List.cons.injEq] at hc2
      obtain ⟨hb, hrest⟩ := hc2
      subst hb
      exact Or.inl ⟨c', hc1, by rw [hrest, List.append_assoc]⟩

theorem Grammar.eraseEpsilon_position (gr : Grammar) (p p1 p2 : List String) (X : String)
    (h : gr.eraseEpsilon p = p1 ++ X :: p2) :
    ∃ i, i < p.length ∧ p.get? i = some X ∧ gr.eraseEpsilon (p.drop (i + 1)) = p2 := by
  unfold Grammar.eraseEpsilon at h ⊢
  obtain ⟨l1, l2, hp, _, h2⟩ := List.filter_eq_append_iff.mp h
  obtain ⟨l3, l4, hl2, _, _, h4⟩ := List.filter_eq_cons_iff.mp h2
  refine ⟨(l1 ++ l3).length, ?_, ?_, ?_⟩
  · rw [hp, hl2]
    simp
  · rw [hp, hl2, ← List.append_assoc, List.get?_eq_getElem?,
      List.getElem?_append_right (le_refl _)]
    simp
  · rw [hp, hl2, ← List.append_assoc]
    rw [show (l1 ++ l3 ++ X :: l4) = (l1 ++ l3 ++ [X]) ++ l4 by simp]
    rw [List.drop_append_of_le_length (by simp; omega)]
    rw [List.drop_eq_nil_of_le (by simp; omega)]
    simpa using h4

theorem follow_complete (gr : Grammar) (hL : gr.IsTerminal gr.st_.EOL_ = true) (hR : gr.NoEOL)
    (F G : String → Finset String) (hFC : gr.FirstClosed F) (hGC : gr.FollowClosed F G)
    (hax : gr.st_.EOL_ ∈ G gr.axiom_) {w : List String}
    (h : gr.Derives [gr.axiom_, gr.st_.EOL_] w) :
    ∀ u X rest, w = u ++ X :: rest → gr.IsTerminal X = false →
      ∀ t γ, gr.IsTerminal t = true → gr.Gen rest (t :: γ) → t ∈ G X := by
  induction h with
  | refl =>
    intro u X rest hw hX t γ _ hg
    cases u with
    | nil =>
      simp only [List.nil_append, List.cons.injEq] at hw
      obtain ⟨h1, h2⟩ := hw
      subst h1 h2
      obtain ⟨w', e, _⟩ := Grammar.Gen.of_terminal_cons gr hL hg
      simp only [List.cons.injEq] at e
      rw [e.1]
      exact hax
    | cons a u =>
      cases u with
      | nil =>
        simp only [List.cons_append, List.nil_append, List.cons.injEq] at hw
        rw [← hw.2.1, hL] at hX
        exact Bool.noConfusion hX
      | cons b u =>
        simp at hw
  | tail _ hs ih =>
    cases hs with
    | rewrite u0 v0 e p he hp =>
      intro u X rest hw hX t γ hT hg
      have hA : gr.IsTerminal e.1 = false :=
        (gr.isTerminal_eq_false_iff e.1).mpr (List.mem_map.mpr ⟨e, he, rfl⟩)
      rcases occurrence_cases hw with ⟨u2, h1, h2⟩ | ⟨m1, m2, h1, _, h3⟩ | ⟨v1, h1, h2⟩
      · subst h2
        refine ih u X (u2 ++ e.1 :: v0) (by rw [h1]; simp) hX t γ hT ?_
        exact Grammar.Gen.unstep gr he hp u2 v0 hg
      · obtain ⟨i, hi, hget, hdrop⟩ := gr.eraseEpsilon_position p m1 m2 X h1
        have hsite : (e.1, p, i) ∈ gr.sites :=
          (gr.mem_sites (e.1, p, i)).mpr ⟨(gr.mem_rules e.1 p).mpr ⟨e, he, rfl, hp⟩, hi⟩
        have hclosed := hGC (e.1, p, i) hsite X hget hX
        have hε : gr.st_.EPSILON_ ∉ gr.eraseEpsilon (p.drop (i + 1)) :=
          gr.not_mem_eraseEpsilon _
        have hno : gr.st_.EOL_ ∉ gr.eraseEpsilon (p.drop (i + 1)) :=
          fun hm => hR e he p hp (List.mem_of_mem_drop (gr.mem_eraseEpsilon hm))
        subst h3
        obtain ⟨w1, w2, hw12, g1, g2⟩ := Grammar.Gen.split gr m2 v0 hg
        rw [← hdrop] at g1
        obtain ⟨a1, a2, a3⟩ := gen_first gr F hFC hR g1 hε hno
        rw [firstOf_eraseEpsilon] at a2 a3
        apply hclosed
        unfold followAdd
        cases w1 with
        | nil =>
          simp only [List.nil_append] at hw12
          have hfollow : t ∈ G e.1 := ih u0 e.1 v0 rfl hA t γ hT (hw12 ▸ g2)
          apply Finset.mem_union_right
          simp only [a2 rfl, if_true]
          exact hfollow
        | cons c w1 =>
          simp only [List.cons_append, List.cons.injEq] at hw12
          obtain ⟨hc, _⟩ := hw12
          subst hc
          apply Finset.mem_union_left
          refine Finset.mem_filter.mpr ⟨a3 t w1 rfl hT, ?_⟩
          intro e'
          exact a1 (e' ▸ List.mem_cons_self _ _)
      · exact ih (u0 ++ e.1 :: v1) X rest (by rw [h1]; simp) hX t γ hT hg

/-! ## Both computations in sequence -/

theorem Grammar.firstBound_le (gr : Grammar) : gr.firstBound ≤ gr.passBound := by
  unfold Grammar.firstBound Grammar.passBound
  apply Nat.succ_le_succ
  exact Nat.mul_le_mul_left _ (Finset.card_insert_le _ _)

theorem Grammar.followBound_le (gr : Grammar) (F : String → Finset String)
    (hF : gr.FirstBounded F) : gr.followBound F ≤ gr.passBound := by
  unfold Grammar.followBound Grammar.passBound
  apply Nat.succ_le_succ
  apply Nat.mul_le_mul_left
  refine le_trans (Finset.card_le_card ?_) (Finset.card_insert_le gr.st_.EOL_ gr.terminals)
  unfold Grammar.followUniverse
  apply Finset.insert_subset_insert
  intro x hx
  obtain ⟨h1, h2⟩ := Finset.mem_filter.mp hx
  rcases Finset.mem_union.mp h1 with h | h
  · exact h
  · obtain ⟨k, hk, hxk⟩ := Finset.mem_biUnion.mp h
    have := hF k ((gr.isTerminal_eq_false_iff k).mpr (List.mem_toFinset.mp hk)) hxk
    rcases Finset.mem_insert.mp this with h' | h'
    · exact absurd h' h2
    · exact h'

theorem ComputeFirstSets_bounded (gr : Grammar) (fs r : SetMap) (fuel : Nat)
    (h : ComputeFirstSets fuel gr fs = some r) : gr.FirstBounded r.get :=
  (ComputeFirstSets_invariant gr (FirstInv gr (initSets gr fs))
    (fun m hm => ComputeFirstSets.pass_inv gr _ m hm) fs r fuel (initSets_firstInv gr fs)
    h).bounded

theorem ComputeFirstSets_hasKeys (gr : Grammar) (fs r : SetMap) (fuel : Nat)
    (h : ComputeFirstSets fuel gr fs = some r) : gr.HasKeys r :=
  (ComputeFirstSets_invariant gr (FirstInv gr (initSets gr fs))
    (fun m hm => ComputeFirstSets.pass_inv gr _ m hm) fs r fuel (initSets_firstInv gr fs)
    h).hasKeys

/-- With a budget of `passBound` passes both computations return. -/
theorem analysis_isSome (gr : Grammar) (fs0 fo0 : SetMap) (fuel : Nat)
    (h : gr.passBound ≤ fuel) :
    ∃ fs r, ComputeFirstSets fuel gr fs0 = some fs ∧ ComputeFollowSets fuel gr fs fo0 = some r := by
  obtain ⟨fs, hfs⟩ := ComputeFirstSets_isSome gr fs0 fuel (le_trans gr.firstBound_le h)
  obtain ⟨r, hr⟩ := ComputeFollowSets_isSome gr fs fo0 fuel
    (le_trans (gr.followBound_le fs.get (ComputeFirstSets_bounded gr fs0 fs fuel hfs)) h)
  exact ⟨fs, r, hfs, hr⟩

theorem ComputeFollowSets_sound (gr : Grammar) (hE : gr.IsTerminal gr.st_.EPSILON_ = true)
    (hR : gr.NoEOL) (hreach : ∀ X, gr.IsTerminal X = false → gr.Reachable X)
    (fs fo : SetMap) (hfs : gr.FirstSound fs.get) (r : SetMap × SetMap) (fuel : Nat)
    (h : ComputeFollowSets fuel gr fs fo = some r) : gr.FollowSound r.2.get :=
  (ComputeFollowSets_invariant gr (fun a b => gr.FirstSound a.get ∧ gr.FollowSound b.get)
    (fun _ hx st hst => ComputeFollowSets.position_sound gr hE hR hreach hx st hst)
    fs fo r fuel ⟨hfs, ComputeFollowSets.init_sound gr fo⟩ h).2

theorem ComputeFollowSets_mem_start (gr : Grammar) (fs fo : SetMap) (r : SetMap × SetMap)
    (fuel : Nat) (h : ComputeFollowSets fuel gr fs fo = some r) :
    gr.st_.EOL_ ∈ r.2.get gr.axiom_ :=
  ComputeFollowSets_le gr fs fo r fuel h _ (ComputeFollowSets.mem_init_start gr fo)

theorem ComputeFollowSets_complete (gr : Grammar) (hL : gr.IsTerminal gr.st_.EOL_ = true)
    (hR : gr.NoEOL) (fs0 fs fo : SetMap) (r : SetMap × SetMap) (fuel : Nat)
    (hfs : ComputeFirstSets fuel gr fs0 = some fs)
    (h : ComputeFollowSets fuel gr fs fo = some r) (X t : String)
    (hX : gr.IsTerminal X = false) (hT : gr.IsTerminal t = true) (hf : gr.FollowsIn X t) :
    t ∈ r.2.get X := by
  obtain ⟨u, v, hd⟩ := hf
  have hFC : gr.FirstClosed r.1.get := by
    rw [ComputeFollowSets_fst_get gr fs fo r fuel h]
    exact ComputeFirstSets_closed gr hR fs0 fs fuel hfs
  exact follow_complete gr hL hR r.1.get r.2.get hFC (ComputeFollowSets_closed gr fs fo r fuel h)
    (ComputeFollowSets_mem_start gr fs fo r fuel h) hd u X (t :: v) rfl hX t v hT
    (Grammar.Gen.same gr _)

/-! ## Prediction symbols and the table -/

theorem Follow_eq_get (fo : SetMap) (arg : String) : Follow fo arg = fo.get arg := by
  unfold Follow
  cases h : fo.contains arg with
  | true => simp
  | false => simp [SetMap.get_of_not_contains h]

theorem PredictionSymbols_snd (gr : Grammar) (fs fo : SetMap) (lhs : String) (p : production) :
    (PredictionSymbols gr fs fo lhs p).2 = predOf gr fs.get fo lhs p := by
  unfold PredictionSymbols predOf
  simp only [First_snd, Finset.empty_union, Follow_eq_get]
  split <;> rfl

theorem PredictionSymbols_fst (gr : Grammar) (fs fo : SetMap) (lhs : String) (p : production) :
    (PredictionSymbols gr fs fo lhs p).1 = (First gr p fs ∅).1 := by
  unfold PredictionSymbols
  dsimp only
  split <;> rfl

theorem PredictionSymbols_fst_get (gr : Grammar) (fs fo : SetMap) (lhs : String)
    (p : production) : (PredictionSymbols gr fs fo lhs p).1.get = fs.get := by
  rw [PredictionSymbols_fst, First_fst_get]

theorem cellOf_cons (gr : Grammar) (F : String → Finset String) (fo : SetMap) (lhs : String)
    (p : production) (ps : List production) (t : String) :
    cellOf gr F fo lhs (p :: ps) t =
      if t ∈ predOf gr F fo lhs p then p :: cellOf gr F fo lhs ps t
      else cellOf gr F fo lhs ps t := by
  unfold cellOf
  by_cases h : t ∈ predOf gr F fo lhs p <;> simp [List.filter_cons, h]

theorem CreateLL1Table.fold_step (gr : Grammar) (fo : SetMap) (lhs : String)
    (ps : List production) (st : SetMap × Column × Bool) :
    (ps.foldl (CreateLL1Table.step gr fo lhs) st).1.get = st.1.get ∧
    (∀ t, (ps.foldl (CreateLL1Table.step gr fo lhs) st).2.1 t =
      if cellOf gr st.1.get fo lhs ps t = [] then st.2.1 t
      else some ((st.2.1 t).getD [] ++ cellOf gr st.1.get fo lhs ps t)) ∧
    ((ps.foldl (CreateLL1Table.step gr fo lhs) st).2.2 = true ↔
      st.2.2 = true ∨ ∃ t, (cellOf gr st.1.get fo lhs ps t ≠ [] ∧ (st.2.1 t).getD [] ≠ []) ∨
        2 ≤ (cellOf gr st.1.get fo lhs ps t).length) := by
  induction ps generalizing st with
  | nil => simp [cellOf]
  | cons p ps ih =>
    rw [List.foldl_cons]
    obtain ⟨i1, i2, i3⟩ := ih (CreateLL1Table.step gr fo lhs st p)
    have e1 : (CreateLL1Table.step gr fo lhs st p).1.get = st.1.get := by
      unfold CreateLL1Table.step
      exact PredictionSymbols_fst_get gr _ _ _ _
    have e2 : ∀ t, (CreateLL1Table.step gr fo lhs st p).2.1 t =
        if t ∈ predOf gr st.1.get fo lhs p then some ((st.2.1 t).getD [] ++ [p])
        else st.2.1 t := by
      intro t
      unfold CreateLL1Table.step Column.add
      simp only [PredictionSymbols_snd]
    have e3 : (CreateLL1Table.step gr fo lhs st p).2.2 = true ↔
        st.2.2 = true ∨ ∃ t, t ∈ predOf gr st.1.get fo lhs p ∧ (st.2.1 t).getD [] ≠ [] := by
      unfold CreateLL1Table.step Column.conflict
      simp only [PredictionSymbols_snd, Bool.or_eq_true, decide_eq_true_eq]
    rw [e1] at i1 i2 i3
    refine ⟨i1, ?_, ?_⟩
    · intro t
      rw [i2 t, e2 t, cellOf_cons]
      by_cases hD : t ∈ predOf gr st.1.get fo lhs p
      · simp only [hD, if_true, Option.getD_some]
        by_cases hc : cellOf gr st.1.get fo lhs ps t = []
        · simp [hc]
        · simp [hc]
      · simp only [hD, if_false]
    · rw [i3, e3]
      constructor
      · rintro ((h | ⟨t, hD, hpre⟩) | ⟨t, h⟩)
        · exact Or.inl h
        · refine Or.inr ⟨t, Or.inl ⟨?_, hpre⟩⟩
          rw [cellOf_cons, if_pos hD]
          exact List.cons_ne_nil _ _
        · refine Or.inr ⟨t, ?_⟩
          rw [cellOf_cons]
          rw [e2 t] at h
          by_cases hD : t ∈ predOf gr st.1.get fo lhs p
          · simp only [hD, if_true, List.length_cons] at h ⊢
            right
            rcases h with ⟨h1, _⟩ | h2
            · have : 0 < (cellOf gr st.1.get fo lhs ps t).length := List.length_pos.mpr h1
              omega
            · omega
          · simp only [hD, if_false] at h ⊢
            exact h
      · rintro (h | ⟨t, h⟩)
        · exact Or.inl (Or.inl h)
        · rw [cellOf_cons] at h
          by_cases hD : t ∈ predOf gr st.1.get fo lhs p
          · simp only [hD, if_true, List.length_cons] at h
            rcases h with ⟨_, hpre⟩ | h2
            · exact Or.inl (Or.inr ⟨t, hD, hpre⟩)
            · refine Or.inr ⟨t, Or.inl ⟨?_, ?_⟩⟩
              · apply List.length_pos.mp
                omega
              · rw [e2 t, if_pos hD]
                simp
          · simp only [hD, if_false] at h
            refine Or.inr ⟨t, ?_⟩
            rw [e2 t, if_neg hD]
            exact h

theorem columnOf_congr (gr : Grammar) {F F' : String → Finset String} (h : F = F')
    (fo : SetMap) (lhs : String) (ps : List production) :
    columnOf gr F fo lhs ps = columnOf gr F' fo lhs ps := by
  rw [h]

theorem CreateLL1Table.row_spec (gr : Grammar) (fo : SetMap)
    (st : SetMap × List (String × Column) × Bool) (e : String × List production) :
    (CreateLL1Table.row gr fo st e).1.get = st.1.get ∧
    (CreateLL1Table.row gr fo st e).2.1
      = tryEmplace st.2.1 e.1 (columnOf gr st.1.get fo e.1 e.2) ∧
    ((CreateLL1Table.row gr fo st e).2.2 = true ↔
      st.2.2 = true ∨ ∃ t, 2 ≤ (cellOf gr st.1.get fo e.1 e.2 t).length) := by
  obtain ⟨h1, h2, h3⟩ := CreateLL1Table.fold_step gr fo e.1 e.2 (st.1, (fun _ => none), st.2.2)
  unfold CreateLL1Table.row
  refine ⟨h1, ?_, ?_⟩
  · dsimp only
    congr 1
    funext t
    rw [h2 t]
    unfold columnOf
    simp
  · dsimp only
    rw [h3]
    simp

theorem tryEmplace_of_fresh (t : List (String × Column)) (lhs : String) (column : Column)
    (h : ∀ x ∈ t, x.1 ≠ lhs) : tryEmplace t lhs column = t ++ [(lhs, column)] := by
  unfold tryEmplace
  rw [if_neg]
  simp only [List.any_eq_true, decide_eq_true_eq, not_exists, not_and]
  exact fun x hx => h x hx

theorem CreateLL1Table.fold_row (gr : Grammar) (fo : SetMap)
    (l : List (String × List production)) (st : SetMap × List (String × Column) × Bool)
    (hnd : (l.map Prod.fst).Nodup) (hdisj : ∀ e ∈ l, ∀ x ∈ st.2.1, x.1 ≠ e.1) :
    (l.foldl (CreateLL1Table.row gr fo) st).1.get = st.1.get ∧
    (l.foldl (CreateLL1Table.row gr fo) st).2.1
      = st.2.1 ++ l.map (fun e => (e.1, columnOf gr st.1.get fo e.1 e.2)) ∧
    ((l.foldl (CreateLL1Table.row gr fo) st).2.2 = true ↔
      st.2.2 = true ∨ ∃ e ∈ l, ∃ t, 2 ≤ (cellOf gr st.1.get fo e.1 e.2 t).length) := by
  induction l generalizing st with
  | nil => simp
  | cons a l ih =>
    rw [List.foldl_cons]
    obtain ⟨r1, r2, r3⟩ := CreateLL1Table.row_spec gr fo st a
    rw [tryEmplace_of_fresh _ _ _ (hdisj a (List.mem_cons_self _ _))] at r2
    have hnd' : (l.map Prod.fst).Nodup := (List.nodup_cons.mp (by simpa using hnd)).2
    have hnot : a.1 ∉ l.map Prod.fst := (List.nodup_cons.mp (by simpa using hnd)).1
    have hdisj' : ∀ e ∈ l, ∀ x ∈ (CreateLL1Table.row gr fo st a).2.1, x.1 ≠ e.1 := by
      intro e he x hx
      rw [r2] at hx
      rcases List.mem_append.mp hx with hx | hx
      · exact hdisj e (List.mem_cons_of_mem _ he) x hx
      · simp only [List.mem_singleton] at hx
        rw [hx]
        intro heq
        exact hnot (List.mem_map.mpr ⟨e, he, heq.symm⟩)
    obtain ⟨i1, i2, i3⟩ := ih _ hnd' hdisj'
    rw [r1] at i1 i2 i3
    refine ⟨i1, ?_, ?_⟩
    · rw [i2, r2]
      simp
    · rw [i3, r3]
      simp only [List.mem_cons, exists_eq_or_imp]
      tauto

theorem cell_map_columnOf (gr : Grammar) (F : String → Finset String) (fo : SetMap)
    (l : List (String × List production)) (hnd : (l.map Prod.fst).Nodup)
    (e : String × List production) (he : e ∈ l) (t : String) :
    cell (l.map (fun e => (e.1, columnOf gr F fo e.1 e.2))) e.1 t
      = columnOf gr F fo e.1 e.2 t := by
  induction l with
  | nil => simp at he
  | cons a l ih =>
    have hnd' : (l.map Prod.fst).Nodup := (List.nodup_cons.mp (by simpa using hnd)).2
    have hnot : a.1 ∉ l.map Prod.fst := (List.nodup_cons.mp (by simpa using hnd)).1
    rcases List.mem_cons.mp he with rfl | he'
    · simp [cell]
    · have hne : a.1 ≠ e.1 := fun heq => hnot (List.mem_map.mpr ⟨e, he', heq.symm⟩)
      have := ih hnd' he'
      unfold cell at this ⊢
      simp only [List.map_cons, List.find?_cons, hne, decide_False]
      exact this

theorem cell_map_columnOf_none (gr : Grammar) (F : String → Finset String) (fo : SetMap)
    (l : List (String × List production)) (A : String) (hA : A ∉ l.map Prod.fst) (t : String) :
    cell (l.map (fun e => (e.1, columnOf gr F fo e.1 e.2))) A t = none := by
  unfold cell
  rw [List.find?_eq_none.mpr]
  intro x hx
  obtain ⟨e, he, rfl⟩ := List.mem_map.mp hx
  simp only [decide_eq_true_eq]
  intro heq
  exact hA (List.mem_map.mpr ⟨e, he, heq⟩)

theorem CreateLL1Table.ensureSets_isSome (fuel : Nat) (p : LL1Parser)
    (h : p.gr_.passBound ≤ fuel) : ∃ s, CreateLL1Table.ensureSets fuel p = some s := by
  unfold CreateLL1Table.ensureSets
  split
  · obtain ⟨fs, r, h1, h2⟩ := analysis_isSome p.gr_ p.first_sets_ p.follow_sets_ fuel h
    exact ⟨r, by rw [h1]; exact h2⟩
  · exact ⟨_, rfl⟩

/-- `CreateLL1Table` on a parser whose table is empty: it returns, the row of every key is the
column of its productions, and the boolean tells whether some cell got two productions. -/
theorem CreateLL1Table_spec (fuel : Nat) (p : LL1Parser) (h : p.gr_.passBound ≤ fuel)
    (ht : p.ll1_t_ = []) (hnd : p.gr_.keys.Nodup) :
    ∃ b p', CreateLL1Table fuel p = some (b, p') ∧ p'.gr_ = p.gr_ ∧
      p'.ll1_t_ = p.gr_.g_.map
        (fun e => (e.1, columnOf p.gr_ p'.first_sets_.get p'.follow_sets_ e.1 e.2)) ∧
      (b = true ↔ ¬ ∃ e ∈ p.gr_.g_, ∃ t,
        2 ≤ (cellOf p.gr_ p'.first_sets_.get p'.follow_sets_ e.1 e.2 t).length) := by
  obtain ⟨s, hs⟩ := CreateLL1Table.ensureSets_isSome fuel p h
  obtain ⟨r1, r2, r3⟩ := CreateLL1Table.fold_row p.gr_ s.2 p.gr_.g_ (s.1, p.ll1_t_, false) hnd
    (by rw [ht]; intro e _ x hx; simp at hx)
  have hc : CreateLL1Table fuel p = some
      (!(p.gr_.g_.foldl (CreateLL1Table.row p.gr_ s.2) (s.1, p.ll1_t_, false)).2.2,
        ⟨p.gr_, (p.gr_.g_.foldl (CreateLL1Table.row p.gr_ s.2) (s.1, p.ll1_t_, false)).1, s.2,
          (p.gr_.g_.foldl (CreateLL1Table.row p.gr_ s.2) (s.1, p.ll1_t_, false)).2.1⟩) := by
    unfold CreateLL1Table
    rw [hs]
  refine ⟨_, _, hc, rfl, ?_, ?_⟩
  · dsimp only
    rw [r2, r1, ht]
    rfl
  · dsimp only
    rw [r1]
    rw [Bool.not_eq_true', ← Bool.not_eq_true, r3]
    simp

theorem LL1Parser.new_isSome (gr : Grammar) (fuel : Nat) (h : gr.passBound ≤ fuel) :
    ∃ fs r, ComputeFirstSets fuel gr [] = some fs ∧ ComputeFollowSets fuel gr fs [] = some r ∧
      LL1Parser.new fuel gr = some ⟨gr, r.1, r.2, []⟩ := by
  obtain ⟨fs, r, h1, h2⟩ := analysis_isSome gr [] [] fuel h
  refine ⟨fs, r, h1, h2, ?_⟩
  unfold LL1Parser.new
  rw [h1]
  dsimp only
  rw [h2]

/-! ## The computations only depend on what the maps hold -/

theorem SetMap.beq_congr {a a' b b' : SetMap} (h : SetMap.Equiv a a') (h' : SetMap.Equiv b b') :
    a.beq b = a'.beq b' := by
  cases hb : a'.beq b' with
  | true =>
    exact (SetMap.beq_iff a b).mpr ((h.trans ((SetMap.beq_iff _ _).mp hb)).trans h'.symm)
  | false =>
    cases hb2 : a.beq b with
    | false => rfl
    | true =>
      have := (SetMap.beq_iff a' b').mpr ((h.symm.trans ((SetMap.beq_iff _ _).mp hb2)).trans h')
      rw [this] at hb
      exact Bool.noConfusion hb

theorem ComputeFirstSets.loop_equiv (gr : Grammar) (n : Nat) {a a' : SetMap}
    (h : SetMap.Equiv a a') {r : SetMap} (hr : ComputeFirstSets.loop gr n a = some r) :
    ∃ r', ComputeFirstSets.loop gr n a' = some r' ∧ SetMap.Equiv r r' := by
  induction n generalizing a a' with
  | zero => simp [ComputeFirstSets.loop] at hr
  | succ n ih =>
    have hp := ComputeFirstSets.pass_equiv gr h
    simp only [ComputeFirstSets.loop] at hr ⊢
    rw [← SetMap.beq_congr h hp]
    split at hr
    · rename_i hb
      simp only [hb, if_true]
      have e : ComputeFirstSets.pass gr a = r := by simpa using hr
      exact ⟨_, rfl, e ▸ hp⟩
    · rename_i hb
      simp only [hb, if_false]
      exact ih hp hr

theorem initSets_equiv (gr : Grammar) {m m' : SetMap}
    (h : ∀ k, gr.IsTerminal k = true → m.find k = m'.find k) :
    SetMap.Equiv (initSets gr m) (initSets gr m') := by
  intro k
  rw [find_initSets, find_initSets]
  split
  · rfl
  · rename_i hk
    exact h k ((gr.isTerminal_eq_true_iff k).mpr hk)

theorem ComputeFirstSets.step_find_terminal (gr : Grammar) {r : String × production}
    (hr : r ∈ gr.rules) (fs : SetMap) (k : String) (hk : gr.IsTerminal k = true) :
    (ComputeFirstSets.step gr r.1 fs r.2).find k = fs.find k := by
  unfold ComputeFirstSets.step
  have hne : k ≠ r.1 := by
    intro e
    rw [e, gr.rules_key hr] at hk
    exact Bool.noConfusion hk
  simp only [SetMap.find_set, if_neg hne]
  exact First_fst_find gr r.2 fs ∅ k hk

theorem ComputeFirstSets.pass_find_terminal (gr : Grammar) (fs : SetMap) (k : String)
    (hk : gr.IsTerminal k = true) : (ComputeFirstSets.pass gr fs).find k = fs.find k := by
  rw [ComputeFirstSets.pass_eq]
  exact foldl_invariant (fun acc (r : String × production) => ComputeFirstSets.step gr r.1 acc r.2)
    gr.rules (fun m => m.find k = fs.find k)
    (fun r hr m hm => (ComputeFirstSets.step_find_terminal gr hr m k hk).trans hm) fs rfl

theorem ComputeFirstSets_find_terminal (gr : Grammar) (fs r : SetMap) (fuel : Nat)
    (h : ComputeFirstSets fuel gr fs = some r) (k : String) (hk : gr.IsTerminal k = true) :
    r.find k = fs.find k := by
  have := ComputeFirstSets_invariant gr (fun m => m.find k = fs.find k)
    (fun m hm => (ComputeFirstSets.pass_find_terminal gr m k hk).trans hm) fs r fuel
    (by
      show (initSets gr fs).find k = fs.find k
      rw [find_initSets, if_neg ((gr.isTerminal_eq_true_iff k).mp hk)]) h
  exact this

theorem UpdateFollow_equiv (gr : Grammar) {fs fs' fo fo' : SetMap} (h1 : SetMap.Equiv fs fs')
    (h2 : SetMap.Equiv fo fo') (sym lhs : String) (rhs : production) (i : Nat) :
    SetMap.Equiv (UpdateFollow gr fs fo sym lhs rhs i).1 (UpdateFollow gr fs' fo' sym lhs rhs i).1 ∧
    SetMap.Equiv (UpdateFollow gr fs fo sym lhs rhs i).2.1
      (UpdateFollow gr fs' fo' sym lhs rhs i).2.1 ∧
    (UpdateFollow gr fs fo sym lhs rhs i).2.2 = (UpdateFollow gr fs' fo' sym lhs rhs i).2.2 := by
  have hget : fs.get = fs'.get := funext h1.get
  refine ⟨?_, ?_, ?_⟩
  · rw [UpdateFollow_fst, UpdateFollow_fst]
    split
    · exact First_fst_equiv gr _ ∅ ∅ h1
    · exact h1
  · unfold UpdateFollow
    simp only [UpdateFollow_first_remaining, hget]
    have ha := insertAll_equiv h2 sym
      ((firstOf gr fs'.get (rhs.drop (i + 1))).filter (fun x => x ≠ gr.st_.EPSILON_))
    split
    · have ht := ha.1.touch lhs
      rw [ht.get lhs]
      exact (insertAll_equiv ht sym _).1
    · exact ha.1
  · unfold UpdateFollow
    simp only [UpdateFollow_first_remaining, hget]
    have ha := insertAll_equiv h2 sym
      ((firstOf gr fs'.get (rhs.drop (i + 1))).filter (fun x => x ≠ gr.st_.EPSILON_))
    split
    · have ht := ha.1.touch lhs
      rw [ht.get lhs, ha.2, (insertAll_equiv ht sym _).2]
    · exact ha.2

theorem ComputeFollowSets.position_of_nonterminal (gr : Grammar) (lhs : String)
    (rhs : production) (st : SetMap × SetMap × Bool) (i : Nat) (sym : String)
    (hs : rhs.get? i = some sym) (hT : gr.IsTerminal sym = false) :
    ComputeFollowSets.position gr lhs rhs st i =
      ((UpdateFollow gr st.1 st.2.1 sym lhs rhs i).1,
       (UpdateFollow gr st.1 st.2.1 sym lhs rhs i).2.1,
       st.2.2 || (UpdateFollow gr st.1 st.2.1 sym lhs rhs i).2.2) := by
  unfold ComputeFollowSets.position
  rw [hs]
  simp [hT]

theorem ComputeFollowSets.position_of_terminal (gr : Grammar) (lhs : String)
    (rhs : production) (st : SetMap × SetMap × Bool) (i : Nat)
    (h : ∀ sym, rhs.get? i = some sym → gr.IsTerminal sym = true) :
    ComputeFollowSets.position gr lhs rhs st i = st := by
  unfold ComputeFollowSets.position
  cases hs : rhs.get? i with
  | none => rfl
  | some sym => simp [h sym hs]

theorem ComputeFollowSets.position_equiv (gr : Grammar) (lhs : String) (rhs : production)
    {st st' : SetMap × SetMap × Bool} (h : StateEquiv st st') (i : Nat) :
    StateEquiv (ComputeFollowSets.position gr lhs rhs st i)
      (ComputeFollowSets.position gr lhs rhs st' i) := by
  by_cases hc : ∃ sym, rhs.get? i = some sym ∧ gr.IsTerminal sym = false
  · obtain ⟨sym, hs, hT⟩ := hc
    rw [ComputeFollowSets.position_of_nonterminal gr lhs rhs st i sym hs hT,
      ComputeFollowSets.position_of_nonterminal gr lhs rhs st' i sym hs hT]
    obtain ⟨u1, u2, u3⟩ := UpdateFollow_equiv gr h.1 h.2.1 sym lhs rhs i
    exact ⟨u1, u2, by rw [h.2.2, u3]⟩
  · have hc' : ∀ sym, rhs.get? i = some sym → gr.IsTerminal sym = true := by
      intro sym hs
      by_contra hT
      exact hc ⟨sym, hs, by simpa using hT⟩
    rw [ComputeFollowSets.position_of_terminal gr lhs rhs st i hc',
      ComputeFollowSets.position_of_terminal gr lhs rhs st' i hc']
    exact h

theorem ComputeFollowSets.follow_pass_equiv (gr : Grammar) {st st' : SetMap × SetMap × Bool}
    (h : StateEquiv st st') :
    StateEquiv (ComputeFollowSets.pass gr st) (ComputeFollowSets.pass gr st') := by
  rw [ComputeFollowSets.follow_pass_eq, ComputeFollowSets.follow_pass_eq]
  generalize gr.sites = l
  induction l generalizing st st' with
  | nil => exact h
  | cons x l ih => exact ih (ComputeFollowSets.position_equiv gr x.1 x.2.1 h x.2.2)

theorem ComputeFollowSets.follow_loop_equiv (gr : Grammar) (n : Nat) {fs fs' fo fo' : SetMap}
    (h1 : SetMap.Equiv fs fs') (h2 : SetMap.Equiv fo fo') {r : SetMap × SetMap}
    (hr : ComputeFollowSets.loop gr n fs fo = some r) :
    ∃ r', ComputeFollowSets.loop gr n fs' fo' = some r' ∧ SetMap.Equiv r.1 r'.1 ∧
      SetMap.Equiv r.2 r'.2 := by
  induction n generalizing fs fs' fo fo' with
  | zero => simp [ComputeFollowSets.loop] at hr
  | succ n ih =>
    have hp : StateEquiv (ComputeFollowSets.pass gr (fs, fo, false))
        (ComputeFollowSets.pass gr (fs', fo', false)) :=
      ComputeFollowSets.follow_pass_equiv gr ⟨h1, h2, rfl⟩
    simp only [ComputeFollowSets.loop] at hr ⊢
    rw [← hp.2.2]
    split at hr
    · rename_i hb
      simp only [hb, if_true]
      exact ih hp.1 hp.2.1 hr
    · rename_i hb
      simp only [hb, if_false]
      have e : ((ComputeFollowSets.pass gr (fs, fo, false)).1,
          (ComputeFollowSets.pass gr (fs, fo, false)).2.1) = r := by simpa using hr
      exact ⟨_, rfl, e ▸ hp.1, e ▸ hp.2.1⟩

theorem insertAll_find_ne (fo : SetMap) (sym : String) (T : Finset String) (k : String)
    (h : k ≠ sym) : (insertAll fo sym T).1.find k = fo.find k := by
  unfold insertAll
  split
  · rfl
  · simp only [SetMap.find_set, if_neg h]

theorem UpdateFollow_find_terminal (gr : Grammar) (fs fo : SetMap) (sym lhs : String)
    (rhs : production) (i : Nat) (hs : gr.IsTerminal sym = false)
    (hl : gr.IsTerminal lhs = false) (k : String) (hk : gr.IsTerminal k = true) :
    (UpdateFollow gr fs fo sym lhs rhs i).1.find k = fs.find k ∧
      (UpdateFollow gr fs fo sym lhs rhs i).2.1.find k = fo.find k := by
  have h1 : k ≠ sym := by
    intro e
    rw [e, hs] at hk
    exact Bool.noConfusion hk
  have h2 : k ≠ lhs := by
    intro e
    rw [e, hl] at hk
    exact Bool.noConfusion hk
  constructor
  · rw [UpdateFollow_fst]
    split
    · exact First_fst_find gr _ fs ∅ k hk
    · rfl
  · unfold UpdateFollow
    simp only [UpdateFollow_first_remaining]
    split
    · rw [insertAll_find_ne _ _ _ _ h1, SetMap.find_touch, if_neg h2,
        insertAll_find_ne _ _ _ _ h1]
    · rw [insertAll_find_ne _ _ _ _ h1]

theorem ComputeFollowSets.position_find_terminal (gr : Grammar)
    {x : String × production × Nat} (hx : x ∈ gr.sites) (st : SetMap × SetMap × Bool)
    (k : String) (hk : gr.IsTerminal k = true) :
    (ComputeFollowSets.position gr x.1 x.2.1 st x.2.2).1.find k = st.1.find k ∧
      (ComputeFollowSets.position gr x.1 x.2.1 st x.2.2).2.1.find k = st.2.1.find k := by
  rcases ComputeFollowSets.position_cases gr x.1 x.2.1 st x.2.2 with h | ⟨sym, _, hT, h⟩
  · rw [h]
    exact ⟨rfl, rfl⟩
  · rw [h]
    exact UpdateFollow_find_terminal gr _ _ sym x.1 x.2.1 x.2.2 hT
      (gr.rules_key ((gr.mem_sites x).mp hx).1) k hk

theorem ComputeFollowSets_find_terminal (gr : Grammar) (fs fo : SetMap) (r : SetMap × SetMap)
    (fuel : Nat) (h : ComputeFollowSets fuel gr fs fo = some r) (k : String)
    (hk : gr.IsTerminal k = true) :
    r.1.find k = fs.find k ∧ r.2.find k = (ComputeFollowSets.init gr fo).find k :=
  ComputeFollowSets_invariant gr
    (fun a b => a.find k = fs.find k ∧ b.find k = (ComputeFollowSets.init gr fo).find k)
    (fun _ hx st hst =>
      ⟨(ComputeFollowSets.position_find_terminal gr hx st k hk).1.trans hst.1,
        (ComputeFollowSets.position_find_terminal gr hx st k hk).2.trans hst.2⟩)
    fs fo r fuel ⟨rfl, rfl⟩ h

theorem ComputeFollowSets.position_fst_of_hasKeys (gr : Grammar) (lhs : String)
    (rhs : production) (st : SetMap × SetMap × Bool) (i : Nat) (hk : gr.HasKeys st.1) :
    (ComputeFollowSets.position gr lhs rhs st i).1 = st.1 := by
  rcases ComputeFollowSets.position_cases gr lhs rhs st i with h | ⟨sym, _, _, h⟩
  · rw [h]
  · rw [h]
    exact UpdateFollow_fst_of_hasKeys gr _ _ _ _ _ _ hk

theorem ComputeFollowSets_fst_eq (gr : Grammar) (fs fo : SetMap) (r : SetMap × SetMap)
    (fuel : Nat) (hk : gr.HasKeys fs) (h : ComputeFollowSets fuel gr fs fo = some r) :
    r.1 = fs :=
  ComputeFollowSets_invariant gr (fun a _ => a = fs)
    (fun x _ st hst => by
      show (ComputeFollowSets.position gr x.1 x.2.1 st x.2.2).1 = fs
      have hst' : st.1 = fs := hst
      rw [ComputeFollowSets.position_fst_of_hasKeys gr x.1 x.2.1 st x.2.2 (hst' ▸ hk)]
      exact hst')
    fs fo r fuel rfl h

theorem ComputeFollowSets.init_equiv (gr : Grammar) (fo : SetMap) (r : SetMap)
    (h : ∀ k, gr.IsTerminal k = true → r.find k = (ComputeFollowSets.init gr fo).find k) :
    SetMap.Equiv (ComputeFollowSets.init gr fo) (ComputeFollowSets.init gr r) := by
  intro k
  rw [ComputeFollowSets.find_init, ComputeFollowSets.find_init]
  by_cases hk : k = gr.axiom_
  · simp only [hk, if_true, Option.some.injEq]
    by_cases hax : gr.axiom_ ∈ gr.keys
    · have hT := (gr.isTerminal_eq_false_iff _).mpr hax
      rw [get_initSets_key gr fo hT, get_initSets_key gr r hT]
    · have hT := (gr.isTerminal_eq_true_iff _).mpr hax
      have e1 : (initSets gr fo).get gr.axiom_ = fo.get gr.axiom_ := by
        unfold SetMap.get
        rw [find_initSets, if_neg hax]
      have e2 : (initSets gr r).get gr.axiom_ = r.get gr.axiom_ := by
        unfold SetMap.get
        rw [find_initSets, if_neg hax]
      have e3 : r.get gr.axiom_ = insert gr.st_.EOL_ (fo.get gr.axiom_) := by
        have := h gr.axiom_ hT
        rw [ComputeFollowSets.find_init, if_pos rfl, e1] at this
        unfold SetMap.get at this ⊢
        rw [this]
        rfl
      rw [e1, e2, e3, Finset.insert_idem]
  · simp only [hk, if_false]
    rw [find_initSets, find_initSets]
    by_cases hkey : k ∈ gr.keys
    · simp only [hkey, if_true]
    · simp only [hkey, if_false]
      have := h k ((gr.isTerminal_eq_true_iff k).mpr hkey)
      rw [ComputeFollowSets.find_init, if_neg hk, find_initSets, if_neg hkey] at this
      exact this.symm

/-! ## Further facts used by the claims -/

theorem foldl_le_of_mem {α : Type} (f : SetMap → α → SetMap) (hf : ∀ a m, SetMap.le m (f m a))
    (l : List α) (m : SetMap) : ∀ a ∈ l, ∃ m', SetMap.le (f m' a) (l.foldl f m) := by
  induction l generalizing m with
  | nil => intro a ha; simp at ha
  | cons b l ih =>
    intro a ha
    rcases List.mem_cons.mp ha with rfl | ha'
    · exact ⟨m, foldl_le f hf l _⟩
    · exact ih (f m b) a ha'

theorem mem_replaceEOL_epsilon (gr : Grammar) (T : Finset String) (h : gr.st_.EPSILON_ ∈ T) :
    gr.st_.EPSILON_ ∈ replaceEOL gr T := by
  unfold replaceEOL
  split
  · exact Finset.mem_insert_self _ _
  · exact h

theorem ComputeFirstSets.pass_mem_epsilon (gr : Grammar) (fs : SetMap) (X : String)
    (p : production) (hr : (X, p) ∈ gr.rules) (hp : p = [gr.st_.EPSILON_] ∨ p = []) :
    gr.st_.EPSILON_ ∈ (ComputeFirstSets.pass gr fs).get X := by
  rw [ComputeFirstSets.pass_eq]
  obtain ⟨m', hm'⟩ := foldl_le_of_mem
    (fun acc (r : String × production) => ComputeFirstSets.step gr r.1 acc r.2)
    (fun r m => ComputeFirstSets.step_le gr r.1 m r.2) gr.rules fs (X, p) hr
  apply hm' X
  rw [ComputeFirstSets.step_get, if_pos rfl]
  apply Finset.mem_union_right
  apply mem_replaceEOL_epsilon
  rcases hp with h | h
  · rw [h]
    simp [firstOf]
  · rw [h]
    simp [firstOf]

theorem ComputeFollowSets.follow_pass_le (gr : Grammar) (st : SetMap × SetMap × Bool) :
    SetMap.le st.2.1 (ComputeFollowSets.pass gr st).2.1 :=
  ComputeFollowSets.pass_invariant gr (fun _ b => SetMap.le st.2.1 b)
    (fun x _ m hm => SetMap.le_trans hm (ComputeFollowSets.position_le gr x.1 x.2.1 m x.2.2))
    st (SetMap.le_refl _)

/-! ## Example grammars -/

theorem exampleUnreachable_forms {w : List String}
    (h : exampleUnreachable.Derives ["S", "$"] w) : ∀ s ∈ w, s = "S" ∨ s = "a" ∨ s = "$" := by
  induction h with
  | refl =>
    intro s hs
    simp only [List.mem_cons, List.mem_singleton, List.not_mem_nil, or_false] at hs
    rcases hs with h | h
    · exact Or.inl h
    · exact Or.inr (Or.inr h)
  | tail _ hs ih =>
    cases hs with
    | rewrite u v e p he hp =>
      have hkey := ih e.1 (by simp)
      have he' : e = ("S", [["a"]]) ∨ e = ("U", [["B", "c"]]) ∨ e = ("B", [["d"]]) := by
        simpa [exampleUnreachable] using he
      have heS : e = ("S", [["a"]]) := by
        rcases he' with h | h | h
        · exact h
        · rw [h] at hkey
          simp at hkey
        · rw [h] at hkey
          simp at hkey
      rw [heS] at hp
      have hp' : p = ["a"] := by simpa using hp
      intro s hs
      rw [hp'] at hs
      have herase : exampleUnreachable.eraseEpsilon ["a"] = ["a"] := by decide
      rw [herase] at hs
      rcases List.mem_append.mp hs with h1 | h1
      · rcases List.mem_append.mp h1 with h2 | h2
        · exact ih s (List.mem_append_left _ h2)
        · simp only [List.mem_singleton] at h2
          exact Or.inr (Or.inl h2)
      · exact ih s (List.mem_append_right _ (List.mem_cons_of_mem _ h1))

theorem exampleClassic_reachable (Y : String) (h : exampleClassic.IsTerminal Y = false) :
    exampleClassic.Reachable Y := by
  have hY : Y = "E" ∨ Y = "E'" ∨ Y = "T" := by
    have := (exampleClassic.isTerminal_eq_false_iff Y).mp h
    simpa [Grammar.keys, exampleClassic] using this
  have hstep : exampleClassic.Derives ["E"] ["T", "E'"] := by
    have := Grammar.Derives.step exampleClassic [] []
      (e := ("E", [["T", "E'"]])) (p := ["T", "E'"]) (by decide) (by decide)
    have herase : exampleClassic.eraseEpsilon ["T", "E'"] = ["T", "E'"] := by decide
    rw [herase] at this
    simpa using this
  rcases hY with h | h | h
  · exact ⟨[], [], by rw [h]; exact Grammar.Derives.zero _ _⟩
  · exact ⟨["T"], [], by rw [h]; exact hstep⟩
  · exact ⟨[], ["E'"], by rw [h]; exact hstep⟩

/-! ## The number of passes -/

theorem ComputeFirstSets.passes_of_loop (gr : Grammar) (n : Nat) (fs r : SetMap)
    (h : ComputeFirstSets.loop gr n fs = some r) :
    ∃ k, k ≤ n ∧ ComputeFirstSets.passes gr n fs = some k := by
  induction n generalizing fs with
  | zero => simp [ComputeFirstSets.loop] at h
  | succ n ih =>
    unfold ComputeFirstSets.loop at h
    unfold ComputeFirstSets.passes
    dsimp only at h ⊢
    split_ifs at h ⊢ with hb
    · exact ⟨1, by omega, rfl⟩
    · obtain ⟨k, hk, hp⟩ := ih _ h
      exact ⟨k + 1, by omega, by simp [hp]⟩

theorem ComputeFirstSets.passes_mono (gr : Grammar) (n : Nat) (fs : SetMap) (k : Nat)
    (h : ComputeFirstSets.passes gr n fs = some k) (m : Nat) (hm : n ≤ m) :
    ComputeFirstSets.passes gr m fs = some k := by
  induction n generalizing fs m k with
  | zero => simp [ComputeFirstSets.passes] at h
  | succ n ih =>
    obtain ⟨m, rfl⟩ : ∃ m', m = m' + 1 := ⟨m - 1, by omega⟩
    unfold ComputeFirstSets.passes at h ⊢
    dsimp only at h ⊢
    split_ifs at h ⊢ with hb
    · exact h
    · obtain ⟨j, hj, rfl⟩ := Option.map_eq_some'.mp h
      rw [ih _ j hj m (by omega)]
      rfl

theorem ComputeFollowSets.follow_passes_of_loop (gr : Grammar) (n : Nat) (fs fo : SetMap)
    (r : SetMap × SetMap) (h : ComputeFollowSets.loop gr n fs fo = some r) :
    ∃ k, k ≤ n ∧ ComputeFollowSets.passes gr n fs fo = some k := by
  induction n generalizing fs fo with
  | zero => simp [ComputeFollowSets.loop] at h
  | succ n ih =>
    unfold ComputeFollowSets.loop at h
    unfold ComputeFollowSets.passes
    dsimp only at h ⊢
    split_ifs at h ⊢ with hb
    · obtain ⟨k, hk, hp⟩ := ih _ _ h
      exact ⟨k + 1, by omega, by simp [hp]⟩
    · exact ⟨1, by omega, rfl⟩

theorem ComputeFollowSets.follow_passes_mono (gr : Grammar) (n : Nat) (fs fo : SetMap) (k : Nat)
    (h : ComputeFollowSets.passes gr n fs fo = some k) (m : Nat) (hm : n ≤ m) :
    ComputeFollowSets.passes gr m fs fo = some k := by
  induction n generalizing fs fo m k with
  | zero => simp [ComputeFollowSets.passes] at h
  | succ n ih =>
    obtain ⟨m, rfl⟩ : ∃ m', m = m' + 1 := ⟨m - 1, by omega⟩
    unfold ComputeFollowSets.passes at h ⊢
    dsimp only at h ⊢
    split_ifs at h ⊢ with hb
    · obtain ⟨j, hj, rfl⟩ := Option.map_eq_some'.mp h
      rw [ih _ _ j hj m (by omega)]
      rfl
    · exact h

theorem Grammar.firstBound_eq (gr : Grammar) : gr.firstBound = gr.pairCount + 1 := by
  unfold Grammar.firstBound Grammar.pairCount
  congr 2
  by_cases h : gr.st_.EPSILON_ ∈ gr.terminals
  · rw [Finset.insert_eq_of_mem h, Finset.card_erase_add_one h]
  · rw [Finset.card_insert_of_not_mem h, Finset.erase_eq_of_not_mem h]

theorem Grammar.followBound_le_pairCount (gr : Grammar) (F : String → Finset String)
    (hF : gr.FirstBounded F) : gr.followBound F ≤ gr.pairCount + 1 := by
  unfold Grammar.followBound Grammar.pairCount
  apply Nat.succ_le_succ
  apply Nat.mul_le_mul_left
  refine le_trans (Finset.card_le_card ?_)
    (Finset.card_insert_le gr.st_.EOL_ (gr.terminals.erase gr.st_.EPSILON_))
  unfold Grammar.followUniverse
  apply Finset.insert_subset_insert
  intro x hx
  obtain ⟨h1, h2⟩ := Finset.mem_filter.mp hx
  refine Finset.mem_erase.mpr ⟨h2, ?_⟩
  rcases Finset.mem_union.mp h1 with h | h
  · exact h
  · obtain ⟨k, hk, hxk⟩ := Finset.mem_biUnion.mp h
    have hm := hF k ((gr.isTerminal_eq_false_iff k).mpr (List.mem_toFinset.mp hk)) hxk
    rcases Finset.mem_insert.mp hm with h3 | h3
    · exact absurd h3 h2
    · exact h3

/-! ## Text written to a stream -/

theorem foldl_append_init (l : List String) (init : String) :
    l.foldl (fun r s => r ++ s) init = init ++ String.join l := by
  unfold String.join
  induction l generalizing init with
  | nil => simp
  | cons a l ih =>
    rw [List.foldl_cons, List.foldl_cons, ih, ih ("" ++ a), String.empty_append,
      String.append_assoc]

theorem foldl_append_join {α : Type} (f : α → String) (l : List α) (init : String) :
    l.foldl (fun oss x => oss ++ f x) init = init ++ String.join (l.map f) := by
  rw [← foldl_append_init, List.foldl_map]

theorem PrintTable.prods_eq (oss : String) (prods : List production) :
    PrintTable.prods oss prods = oss ++ String.join
      (prods.map (fun prod => "[" ++ String.join (prod.map (fun smb => smb ++ " ")) ++ "]")) := by
  unfold PrintTable.prods
  rw [← foldl_append_join]
  congr 1
  funext oss1 prod
  have h : (fun (oss2 : String) (smb : String) => oss2 ++ smb ++ " ")
      = fun oss2 smb => oss2 ++ (fun s => s ++ " ") smb := by
    funext oss2 smb
    exact String.append_assoc _ _ _
  rw [h, foldl_append_join, String.append_assoc, String.append_assoc, String.append_assoc]

/-! ## `EOL` stays out of the FIRST sets -/

theorem firstOf_clean (gr : Grammar) (F : String → Finset String)
    (hne : gr.st_.EPSILON_ ≠ gr.st_.EOL_)
    (hF : gr.FirstClean F) (rule : List String) : gr.st_.EOL_ ∉ firstOf gr F rule := by
  induction rule with
  | nil => simpa [firstOf] using hne.symm
  | cons s rest ih =>
    unfold firstOf
    split_ifs with h1 h2 h3 h4
    · exact ih
    · simpa using hne.symm
    · simpa using fun h => h3 h.symm
    · simp only [Finset.mem_union, Finset.mem_filter, not_or, not_and]
      exact ⟨fun h => absurd h (hF s (by simpa using h2)), ih⟩
    · simp only [Finset.mem_filter, not_and]
      exact fun h => absurd h (hF s (by simpa using h2))

theorem ComputeFirstSets.step_clean (gr : Grammar)
    (hne : gr.st_.EPSILON_ ≠ gr.st_.EOL_) (X : String) (fs : SetMap) (p : production)
    (hF : gr.FirstClean fs.get) : gr.FirstClean (ComputeFirstSets.step gr X fs p).get := by
  intro k hk
  have hc := firstOf_clean gr fs.get hne hF p
  rw [ComputeFirstSets.step_get, replaceEOL_eq gr _ (fun h => absurd h hc)]
  split_ifs with h
  · simp only [Finset.mem_union, not_or]
    exact ⟨hF X (h ▸ hk), hc⟩
  · exact hF k hk

theorem ComputeFirstSets.step_eq_plain (gr : Grammar)
    (hne : gr.st_.EPSILON_ ≠ gr.st_.EOL_) (X : String) (fs : SetMap) (p : production)
    (hF : gr.FirstClean fs.get) :
    ComputeFirstSets.step gr X fs p = ComputeFirstSets.stepPlain gr X fs p := by
  have hc := firstOf_clean gr fs.get hne hF p
  unfold ComputeFirstSets.step ComputeFirstSets.stepPlain
  dsimp only
  rw [replaceEOL_eq]
  intro h
  rw [First_snd, Finset.empty_union] at h
  exact absurd h hc

theorem foldl_eq_of_invariant {α σ : Type} (f g : σ → α → σ) (l : List α) (P : σ → Prop)
    (hf : ∀ a ∈ l, ∀ m, P m → P (f m a)) (hfg : ∀ a ∈ l, ∀ m, P m → f m a = g m a) (m : σ)
    (h : P m) : l.foldl f m = l.foldl g m := by
  induction l generalizing m with
  | nil => rfl
  | cons a l ih =>
    rw [List.foldl_cons, List.foldl_cons, ← hfg a (List.mem_cons_self _ _) m h]
    exact ih (fun b hb => hf b (List.mem_cons_of_mem _ hb))
      (fun b hb => hfg b (List.mem_cons_of_mem _ hb)) _ (hf a (List.mem_cons_self _ _) m h)

theorem ComputeFirstSets.pass_clean (gr : Grammar)
    (hne : gr.st_.EPSILON_ ≠ gr.st_.EOL_) (fs : SetMap) (hF : gr.FirstClean fs.get) :
    gr.FirstClean (ComputeFirstSets.pass gr fs).get := by
  rw [ComputeFirstSets.pass_eq]
  exact foldl_invariant _ _ (fun m : SetMap => gr.FirstClean m.get)
    (fun r _ m hm => ComputeFirstSets.step_clean gr hne r.1 m r.2 hm) fs hF

theorem ComputeFirstSets.pass_eq_plain (gr : Grammar)
    (hne : gr.st_.EPSILON_ ≠ gr.st_.EOL_) (fs : SetMap) (hF : gr.FirstClean fs.get) :
    ComputeFirstSets.pass gr fs = ComputeFirstSets.passPlain gr fs := by
  unfold ComputeFirstSets.pass ComputeFirstSets.passPlain
  refine foldl_eq_of_invariant _ _ _ (fun m : SetMap => gr.FirstClean m.get) ?_ ?_ fs hF
  · intro e _ m hm
    exact foldl_invariant _ _ (fun m : SetMap => gr.FirstClean m.get)
      (fun p _ m hm => ComputeFirstSets.step_clean gr hne e.1 m p hm) m hm
  · intro e _ m hm
    exact foldl_eq_of_invariant _ _ _ (fun m : SetMap => gr.FirstClean m.get)
      (fun p _ m hm => ComputeFirstSets.step_clean gr hne e.1 m p hm)
      (fun p _ m hm => ComputeFirstSets.step_eq_plain gr hne e.1 m p hm) m hm

theorem ComputeFirstSets.loop_eq_plain (gr : Grammar)
    (hne : gr.st_.EPSILON_ ≠ gr.st_.EOL_) (n : Nat) (fs : SetMap) (hF : gr.FirstClean fs.get) :
    ComputeFirstSets.loopPlain gr n fs = ComputeFirstSets.loop gr n fs := by
  induction n generalizing fs with
  | zero => rfl
  | succ n ih =>
    unfold ComputeFirstSets.loopPlain ComputeFirstSets.loop
    dsimp only
    rw [← ComputeFirstSets.pass_eq_plain gr hne fs hF,
      ih _ (ComputeFirstSets.pass_clean gr hne fs hF)]

theorem initSets_clean (gr : Grammar) (fs : SetMap) :
    gr.FirstClean (initSets gr fs).get := by
  intro k hk
  rw [get_initSets_key gr fs hk]
  exact Finset.not_mem_empty _

theorem ComputeFirstSets.point_clean (gr : Grammar) (hne : gr.st_.EPSILON_ ≠ gr.st_.EOL_)
    (fs0 fs : SetMap) (h0 : gr.FirstClean fs0.get) (h : ComputeFirstSets.Point gr fs0 fs) :
    gr.FirstClean fs.get := by
  induction h with
  | start => exact h0
  | init fs e _ _ ih =>
    intro k hk
    rw [SetMap.get_set]
    split_ifs
    · exact Finset.not_mem_empty _
    · exact ih k hk
  | step fs r _ _ ih => exact ComputeFirstSets.step_clean gr hne r.1 fs r.2 ih

theorem ComputeFirstSets.point_initSets (gr : Grammar) (fs0 : SetMap) :
    ComputeFirstSets.Point gr fs0 (initSets gr fs0) :=
  foldl_invariant _ _ (ComputeFirstSets.Point gr fs0)
    (fun e he m hm => ComputeFirstSets.Point.init m e hm he) fs0 ComputeFirstSets.Point.start

theorem ComputeFirstSets.point_pass (gr : Grammar) (fs0 fs : SetMap)
    (h : ComputeFirstSets.Point gr fs0 fs) :
    ComputeFirstSets.Point gr fs0 (ComputeFirstSets.pass gr fs) := by
  rw [ComputeFirstSets.pass_eq]
  exact foldl_invariant _ _ (ComputeFirstSets.Point gr fs0)
    (fun r hr m hm => ComputeFirstSets.Point.step m r hm hr) fs h

theorem ComputeFirstSets_point (gr : Grammar) (fs0 r : SetMap) (fuel : Nat)
    (h : ComputeFirstSets fuel gr fs0 = some r) : ComputeFirstSets.Point gr fs0 r := by
  obtain ⟨fs, hfs, rfl, _⟩ := ComputeFirstSets.loop_spec gr (ComputeFirstSets.Point gr fs0)
    (fun m hm => ComputeFirstSets.point_pass gr fs0 m hm) fuel _ r
    (ComputeFirstSets.point_initSets gr fs0) h
  exact ComputeFirstSets.point_pass gr fs0 fs hfs

/-! ## `EPSILON` stays out of the FOLLOW sets -/

theorem followAdd_clean (gr : Grammar) (F G : String → Finset String) (hG : gr.FollowClean G)
    (lhs : String) (rhs : production) (i : Nat) :
    gr.st_.EPSILON_ ∉ followAdd gr F G lhs rhs i := by
  unfold followAdd
  simp only [Finset.mem_union, Finset.mem_filter, not_or, not_and, not_not]
  refine ⟨fun _ => trivial, ?_⟩
  split_ifs
  · exact hG lhs
  · exact Finset.not_mem_empty _

theorem ComputeFollowSets.position_clean (gr : Grammar) (lhs : String) (rhs : production)
    (st : SetMap × SetMap × Bool) (i : Nat) (h : gr.FollowClean st.2.1.get) :
    gr.FollowClean (ComputeFollowSets.position gr lhs rhs st i).2.1.get := by
  rcases ComputeFollowSets.position_cases gr lhs rhs st i with h1 | ⟨sym, _, _, h1⟩
  · rw [h1]
    exact h
  · rw [h1]
    intro k
    rw [UpdateFollow_get]
    split_ifs
    · simp only [Finset.mem_union, not_or]
      exact ⟨h sym, followAdd_clean gr _ _ h lhs rhs i⟩
    · exact h k

theorem ComputeFollowSets.follow_point_clean (gr : Grammar) (hne : gr.st_.EPSILON_ ≠ gr.st_.EOL_)
    (fo0 fo : SetMap) (h0 : gr.FollowClean fo0.get)
    (h : ComputeFollowSets.Point gr fo0 fo) : gr.FollowClean fo.get := by
  induction h with
  | first => exact h0
  | clear fo e _ _ ih =>
    intro k
    rw [SetMap.get_set]
    split_ifs
    · exact Finset.not_mem_empty _
    · exact ih k
  | eol fo _ ih =>
    intro k
    rw [SetMap.get_set]
    split_ifs
    · simp only [Finset.mem_insert, not_or]
      exact ⟨hne, ih _⟩
    · rw [SetMap.get_touch]
      exact ih k
  | update fs fo changed x _ _ ih =>
    exact ComputeFollowSets.position_clean gr x.1 x.2.1 (fs, fo, changed) x.2.2 ih

theorem ComputeFollowSets.point_init (gr : Grammar) (fo0 : SetMap) :
    ComputeFollowSets.Point gr fo0 (ComputeFollowSets.init gr fo0) :=
  ComputeFollowSets.Point.eol _ (foldl_invariant _ _ (ComputeFollowSets.Point gr fo0)
    (fun e he m hm => ComputeFollowSets.Point.clear m e hm he) fo0
    ComputeFollowSets.Point.first)

theorem ComputeFollowSets.follow_point_pass (gr : Grammar) (fo0 : SetMap)
    (st : SetMap × SetMap × Bool) (h : ComputeFollowSets.Point gr fo0 st.2.1) :
    ComputeFollowSets.Point gr fo0 (ComputeFollowSets.pass gr st).2.1 := by
  rw [ComputeFollowSets.follow_pass_eq]
  exact foldl_invariant _ _
    (fun m : SetMap × SetMap × Bool => ComputeFollowSets.Point gr fo0 m.2.1)
    (fun x hx m hm => ComputeFollowSets.Point.update m.1 m.2.1 m.2.2 x hm hx) st h

theorem ComputeFollowSets_point (gr : Grammar) (fs fo0 : SetMap) (r : SetMap × SetMap)
    (fuel : Nat) (h : ComputeFollowSets fuel gr fs fo0 = some r) :
    ComputeFollowSets.Point gr fo0 r.2 := by
  obtain ⟨fs1, fo1, h1, h2⟩ := ComputeFollowSets.follow_loop_spec gr
    (fun _ fo => ComputeFollowSets.Point gr fo0 fo)
    (fun fs fo hp => ComputeFollowSets.follow_point_pass gr fo0 (fs, fo, false) hp) fuel _ _ r
    (ComputeFollowSets.point_init gr fo0) h
  have h3 := ComputeFollowSets.follow_point_pass gr fo0 (fs1, fo1, false) h1
  rw [h2] at h3
  exact h3

theorem predOf_clean (gr : Grammar) (F : String → Finset String) (fo : SetMap)
    (h : gr.FollowClean fo.get) (lhs : String) (p : production) :
    gr.st_.EPSILON_ ∉ predOf gr F fo lhs p := by
  unfold predOf
  split_ifs with h1
  · simp only [Finset.mem_union, Finset.mem_erase, not_or]
    exact ⟨fun hc => hc.1 rfl, h lhs⟩
  · exact h1

theorem columnOf_clean (gr : Grammar) (F : String → Finset String) (fo : SetMap)
    (h : gr.FollowClean fo.get) (lhs : String) (ps : List production) :
    columnOf gr F fo lhs ps gr.st_.EPSILON_ = none := by
  unfold columnOf
  rw [if_pos]
  unfold cellOf
  rw [List.filter_eq_nil_iff]
  intro p _
  simpa using predOf_clean gr F fo h lhs p

theorem CreateLL1Table.row_clean (gr : Grammar) (fo : SetMap) (h : gr.FollowClean fo.get)
    (st : SetMap × List (String × Column) × Bool) (e : String × List production)
    (ht : gr.TableClean st.2.1) : gr.TableClean (CreateLL1Table.row gr fo st e).2.1 := by
  rw [(CreateLL1Table.row_spec gr fo st e).2.1]
  unfold tryEmplace
  split_ifs
  · exact ht
  · intro x hx
    rcases List.mem_append.mp hx with hx | hx
    · exact ht x hx
    · rw [List.mem_singleton.mp hx]
      exact columnOf_clean gr _ fo h e.1 e.2

theorem cell_of_tableClean (gr : Grammar) (t : List (String × Column)) (h : gr.TableClean t)
    (lhs : String) : cell t lhs gr.st_.EPSILON_ = none := by
  unfold cell
  cases hf : t.find? (fun e => decide (e.1 = lhs)) with
  | none => rfl
  | some e => exact h e (List.mem_of_find?_eq_some hf)

theorem CreateLL1Table.ensureSets_clean (hfuel : Nat) (p : LL1Parser)
    (hne : p.gr_.st_.EPSILON_ ≠ p.gr_.st_.EOL_) (hF : p.gr_.FollowClean p.follow_sets_.get)
    (s : SetMap × SetMap) (h : CreateLL1Table.ensureSets hfuel p = some s) :
    p.gr_.FollowClean s.2.get := by
  unfold CreateLL1Table.ensureSets at h
  split_ifs at h
  · cases hfs : ComputeFirstSets hfuel p.gr_ p.first_sets_ with
    | none => simp [hfs] at h
    | some fs =>
      simp only [hfs] at h
      exact ComputeFollowSets.follow_point_clean p.gr_ hne _ _ hF
        (ComputeFollowSets_point p.gr_ fs p.follow_sets_ s hfuel h)
  · cases h
    exact hF

theorem CreateLL1Table_clean (fuel : Nat) (p : LL1Parser)
    (hne : p.gr_.st_.EPSILON_ ≠ p.gr_.st_.EOL_) (hF : p.gr_.FollowClean p.follow_sets_.get)
    (ht : p.gr_.TableClean p.ll1_t_) (b : Bool) (q : LL1Parser)
    (h : CreateLL1Table fuel p = some (b, q)) :
    q.gr_ = p.gr_ ∧ p.gr_.FollowClean q.follow_sets_.get ∧ p.gr_.TableClean q.ll1_t_ := by
  unfold CreateLL1Table at h
  cases hs : CreateLL1Table.ensureSets fuel p with
  | none => simp [hs] at h
  | some s =>
    simp only [hs, Option.some.injEq, Prod.mk.injEq] at h
    obtain ⟨_, rfl⟩ := h
    have hc := CreateLL1Table.ensureSets_clean fuel p hne hF s hs
    refine ⟨rfl, hc, ?_⟩
    exact foldl_invariant _ _
      (fun st : SetMap × List (String × Column) × Bool => p.gr_.TableClean st.2.1)
      (fun e _ st hst => CreateLL1Table.row_clean p.gr_ s.2 hc st e hst) _ ht

theorem CreateLL1Table_isSome (fuel : Nat) (p : LL1Parser) (h : p.gr_.passBound ≤ fuel) :
    ∃ b q, CreateLL1Table fuel p = some (b, q) := by
  obtain ⟨s, hs⟩ := CreateLL1Table.ensureSets_isSome fuel p h
  unfold CreateLL1Table
  rw [hs]
  exact ⟨_, _, rfl⟩

/-! ## A second call of `CreateLL1Table` -/

theorem CreateLL1Table.fold_step_fst (gr : Grammar) (fo : SetMap) (lhs : String)
    (ps : List production) (st : SetMap × Column × Bool) (hk : gr.HasKeys st.1) :
    (ps.foldl (CreateLL1Table.step gr fo lhs) st).1 = st.1 := by
  induction ps generalizing st with
  | nil => rfl
  | cons p ps ih =>
    have h1 : (CreateLL1Table.step gr fo lhs st p).1 = st.1 := by
      unfold CreateLL1Table.step
      dsimp only
      rw [PredictionSymbols_fst, First_fst_of_hasKeys gr p st.1 ∅ hk]
    rw [List.foldl_cons, ih _ (h1 ▸ hk), h1]

theorem CreateLL1Table.row_fst (gr : Grammar) (fo : SetMap)
    (st : SetMap × List (String × Column) × Bool) (e : String × List production)
    (hk : gr.HasKeys st.1) : (CreateLL1Table.row gr fo st e).1 = st.1 := by
  unfold CreateLL1Table.row
  exact CreateLL1Table.fold_step_fst gr fo e.1 e.2 _ hk

theorem CreateLL1Table.fold_row_fst (gr : Grammar) (fo : SetMap)
    (l : List (String × List production)) (st : SetMap × List (String × Column) × Bool)
    (hk : gr.HasKeys st.1) : (l.foldl (CreateLL1Table.row gr fo) st).1 = st.1 := by
  induction l generalizing st with
  | nil => rfl
  | cons e l ih =>
    have h1 := CreateLL1Table.row_fst gr fo st e hk
    rw [List.foldl_cons, ih _ (h1 ▸ hk), h1]

theorem CreateLL1Table.fold_row_indep (gr : Grammar) (fo : SetMap)
    (l : List (String × List production)) (fs : SetMap) (t t' : List (String × Column))
    (b : Bool) :
    (l.foldl (CreateLL1Table.row gr fo) (fs, t, b)).1 =
      (l.foldl (CreateLL1Table.row gr fo) (fs, t', b)).1 ∧
    (l.foldl (CreateLL1Table.row gr fo) (fs, t, b)).2.2 =
      (l.foldl (CreateLL1Table.row gr fo) (fs, t', b)).2.2 := by
  induction l generalizing fs t t' b with
  | nil => exact ⟨rfl, rfl⟩
  | cons e l ih =>
    rw [List.foldl_cons, List.foldl_cons]
    exact ih _ _ _ _

theorem tryEmplace_of_present (t : List (String × Column)) (lhs : String) (column : Column)
    (h : t.any (fun e => decide (e.1 = lhs)) = true) : tryEmplace t lhs column = t := by
  unfold tryEmplace
  rw [if_pos h]

theorem tryEmplace_any (t : List (String × Column)) (lhs : String) (column : Column)
    (k : String) :
    (tryEmplace t lhs column).any (fun e => decide (e.1 = k)) =
      (t.any (fun e => decide (e.1 = k)) || decide (lhs = k)) := by
  unfold tryEmplace
  split_ifs with h
  · by_cases hk : lhs = k
    · subst hk
      simp [h]
    · simp [hk]
  · simp

theorem CreateLL1Table.fold_row_present (gr : Grammar) (fo : SetMap)
    (l : List (String × List production)) (st : SetMap × List (String × Column) × Bool)
    (k : String)
    (h : st.2.1.any (fun e => decide (e.1 = k)) = true ∨ ∃ e ∈ l, e.1 = k) :
    (l.foldl (CreateLL1Table.row gr fo) st).2.1.any (fun e => decide (e.1 = k)) = true := by
  induction l generalizing st with
  | nil =>
    rcases h with h | ⟨e, he, _⟩
    · exact h
    · simp at he
  | cons a l ih =>
    rw [List.foldl_cons]
    apply ih
    rw [(CreateLL1Table.row_spec gr fo st a).2.1, tryEmplace_any]
    rcases h with h | ⟨e, he, hek⟩
    · left
      simp [h]
    · rcases List.mem_cons.mp he with rfl | he
      · left
        simp [hek]
      · exact Or.inr ⟨e, he, hek⟩

theorem CreateLL1Table.fold_row_fixed (gr : Grammar) (fo : SetMap)
    (l : List (String × List production)) (st : SetMap × List (String × Column) × Bool)
    (h : ∀ e ∈ l, st.2.1.any (fun x => decide (x.1 = e.1)) = true) :
    (l.foldl (CreateLL1Table.row gr fo) st).2.1 = st.2.1 := by
  induction l generalizing st with
  | nil => rfl
  | cons a l ih =>
    have h1 : (CreateLL1Table.row gr fo st a).2.1 = st.2.1 := by
      rw [(CreateLL1Table.row_spec gr fo st a).2.1]
      exact tryEmplace_of_present _ _ _ (h a (List.mem_cons_self _ _))
    rw [List.foldl_cons, ih, h1]
    intro e he
    rw [h1]
    exact h e (List.mem_cons_of_mem _ he)

theorem CreateLL1Table.ensureSets_of_nonempty (fuel : Nat) (p : LL1Parser)
    (h1 : p.first_sets_ ≠ []) (h2 : p.follow_sets_ ≠ []) :
    CreateLL1Table.ensureSets fuel p = some (p.first_sets_, p.follow_sets_) := by
  unfold CreateLL1Table.ensureSets
  rw [if_neg]
  simp [List.isEmpty_iff, h1, h2]

theorem CreateLL1Table_again (n : Nat) (p : LL1Parser) (hk : p.gr_.HasKeys p.first_sets_)
    (h1 : p.first_sets_ ≠ []) (h2 : p.follow_sets_ ≠ []) (b : Bool) (q : LL1Parser)
    (h : CreateLL1Table n p = some (b, q)) :
    q.first_sets_ = p.first_sets_ ∧ q.follow_sets_ = p.follow_sets_ ∧
    ∀ m, CreateLL1Table m q = some (b, q) := by
  unfold CreateLL1Table at h
  rw [CreateLL1Table.ensureSets_of_nonempty n p h1 h2] at h
  simp only [Option.some.injEq, Prod.mk.injEq] at h
  obtain ⟨hb, hq⟩ := h
  have e1 := CreateLL1Table.fold_row_fst p.gr_ p.follow_sets_ p.gr_.g_
    (p.first_sets_, p.ll1_t_, false) hk
  dsimp only at e1
  rw [e1] at hq
  subst hq
  refine ⟨rfl, rfl, fun m => ?_⟩
  unfold CreateLL1Table
  have hens : ∀ t, CreateLL1Table.ensureSets m ⟨p.gr_, p.first_sets_, p.follow_sets_, t⟩ =
      some (p.first_sets_, p.follow_sets_) :=
    fun t => CreateLL1Table.ensureSets_of_nonempty m ⟨p.gr_, p.first_sets_, p.follow_sets_, t⟩
      h1 h2
  rw [hens]
  dsimp only
  have e2 := CreateLL1Table.fold_row_fst p.gr_ p.follow_sets_ p.gr_.g_
    (p.first_sets_, (p.gr_.g_.foldl (CreateLL1Table.row p.gr_ p.follow_sets_)
      (p.first_sets_, p.ll1_t_, false)).2.1, false) hk
  have e3 := CreateLL1Table.fold_row_fixed p.gr_ p.follow_sets_ p.gr_.g_
    (p.first_sets_, (p.gr_.g_.foldl (CreateLL1Table.row p.gr_ p.follow_sets_)
      (p.first_sets_, p.ll1_t_, false)).2.1, false)
    (fun e he => CreateLL1Table.fold_row_present p.gr_ p.follow_sets_ p.gr_.g_ _ e.1
      (Or.inr ⟨e, he, rfl⟩))
  have e4 := (CreateLL1Table.fold_row_indep p.gr_ p.follow_sets_ p.gr_.g_ p.first_sets_
    ((p.gr_.g_.foldl (CreateLL1Table.row p.gr_ p.follow_sets_)
      (p.first_sets_, p.ll1_t_, false)).2.1) p.ll1_t_ false).2
  dsimp only at e2 e3
  rw [e2, e3, e4, hb]

theorem SetMap.ne_nil_of_contains {m : SetMap} {k : String} (h : m.contains k = true) :
    m ≠ [] := by
  rintro rfl
  simp [SetMap.contains, SetMap.find] at h

theorem LL1Parser.new_empty (gr : Grammar) (hg : gr.g_ = []) (n : Nat) :
    LL1Parser.new (n + 1) gr = some ⟨gr, [], [(gr.axiom_, {gr.st_.EOL_})], []⟩ ∧
    CreateLL1Table (n + 1) ⟨gr, [], [(gr.axiom_, {gr.st_.EOL_})], []⟩ =
      some (true, ⟨gr, [], [(gr.axiom_, {gr.st_.EOL_})], []⟩) := by
  have hF : ComputeFirstSets (n + 1) gr [] = some [] := by
    simp [ComputeFirstSets, ComputeFirstSets.loop, ComputeFirstSets.pass, initSets, hg,
      SetMap.beq]
  have hG : ∀ fo, ComputeFollowSets.init gr fo = [(gr.axiom_, {gr.st_.EOL_})] →
      ComputeFollowSets (n + 1) gr [] fo = some ([], [(gr.axiom_, {gr.st_.EOL_})]) := by
    intro fo hfo
    unfold ComputeFollowSets ComputeFollowSets.loop
    rw [hfo]
    simp [ComputeFollowSets.pass, hg]
  have i1 : ComputeFollowSets.init gr [] = [(gr.axiom_, {gr.st_.EOL_})] := by
    simp [ComputeFollowSets.init, initSets, hg, SetMap.touch, SetMap.contains, SetMap.find,
      SetMap.set, SetMap.get]
  have i2 : ComputeFollowSets.init gr [(gr.axiom_, {gr.st_.EOL_})] =
      [(gr.axiom_, {gr.st_.EOL_})] := by
    simp [ComputeFollowSets.init, initSets, hg, SetMap.touch, SetMap.contains, SetMap.find,
      SetMap.set, SetMap.get]
  constructor
  · unfold LL1Parser.new
    rw [hF]
    dsimp only
    rw [hG [] i1]
  · unfold CreateLL1Table CreateLL1Table.ensureSets
    simp only [List.isEmpty_nil, Bool.true_or, if_true, hF, hG _ i2, hg, List.foldl_nil,
      Bool.not_false]

/-! ## The order of enumeration of the non-terminals -/

theorem Grammar.Reordered.entry_iff {gr1 gr2 : Grammar} (h : gr1.Reordered gr2)
    (e : String × List production) : e ∈ gr1.g_ ↔ e ∈ gr2.g_ :=
  h.1.mem_iff

theorem Grammar.Reordered.flip {gr1 gr2 : Grammar} (h : gr1.Reordered gr2) :
    gr2.Reordered gr1 :=
  ⟨h.1.symm, h.2.1.symm, h.2.2.symm⟩

theorem Grammar.Reordered.keys_iff {gr1 gr2 : Grammar} (h : gr1.Reordered gr2) (k : String) :
    k ∈ gr1.keys ↔ k ∈ gr2.keys :=
  (h.1.map Prod.fst).mem_iff

theorem Grammar.Reordered.terminal_eq {gr1 gr2 : Grammar} (h : gr1.Reordered gr2) (s : String) :
    gr1.IsTerminal s = gr2.IsTerminal s := by
  cases h2 : gr2.IsTerminal s with
  | false =>
    rw [Grammar.isTerminal_eq_false_iff] at h2 ⊢
    exact (h.keys_iff s).mpr h2
  | true =>
    rw [Grammar.isTerminal_eq_true_iff] at h2 ⊢
    exact fun hc => h2 ((h.keys_iff s).mp hc)

theorem Grammar.Reordered.rules_iff {gr1 gr2 : Grammar} (h : gr1.Reordered gr2)
    (r : String × production) : r ∈ gr1.rules ↔ r ∈ gr2.rules := by
  obtain ⟨X, p⟩ := r
  rw [Grammar.mem_rules, Grammar.mem_rules]
  constructor
  · rintro ⟨e, he, h1, h2⟩
    exact ⟨e, (h.entry_iff e).mp he, h1, h2⟩
  · rintro ⟨e, he, h1, h2⟩
    exact ⟨e, (h.entry_iff e).mpr he, h1, h2⟩

theorem Grammar.Reordered.sites_iff {gr1 gr2 : Grammar} (h : gr1.Reordered gr2)
    (x : String × production × Nat) : x ∈ gr1.sites ↔ x ∈ gr2.sites := by
  rw [Grammar.mem_sites, Grammar.mem_sites, h.rules_iff]

theorem Grammar.Reordered.firstOf_same {gr1 gr2 : Grammar} (h : gr1.Reordered gr2)
    (F : String → Finset String) (rule : List String) :
    firstOf gr1 F rule = firstOf gr2 F rule := by
  induction rule with
  | nil =>
    unfold LL1.firstOf
    rw [h.2.2]
  | cons s rest ih =>
    unfold LL1.firstOf
    rw [ih, h.terminal_eq s, h.2.2]

theorem Grammar.Reordered.replaceEOL_same {gr1 gr2 : Grammar} (h : gr1.Reordered gr2)
    (T : Finset String) : replaceEOL gr1 T = replaceEOL gr2 T := by
  unfold LL1.replaceEOL
  rw [h.2.2]

theorem firstOf_keyLe (gr : Grammar) {F G : String → Finset String} (h : gr.KeyLe F G)
    (rule : List String) : firstOf gr F rule ⊆ firstOf gr G rule := by
  induction rule with
  | nil => exact Finset.Subset.refl _
  | cons s rest ih =>
    unfold firstOf
    by_cases h1 : s = gr.st_.EPSILON_
    · rw [if_pos h1, if_pos h1]
      exact ih
    · rw [if_neg h1, if_neg h1]
      cases h2 : gr.IsTerminal s with
      | true => exact Finset.Subset.refl _
      | false =>
        simp only [Bool.false_eq_true, if_false]
        have hs := h s h2
        have hf : (F s).filter (fun x => x ≠ gr.st_.EPSILON_) ⊆
            (G s).filter (fun x => x ≠ gr.st_.EPSILON_) := Finset.filter_subset_filter _ hs
        by_cases h3 : gr.st_.EPSILON_ ∈ F s
        · rw [if_pos h3, if_pos (hs h3)]
          exact Finset.union_subset_union hf ih
        · rw [if_neg h3]
          split_ifs
          · exact hf.trans Finset.subset_union_left
          · exact hf

theorem replaceEOL_mono (gr : Grammar) {S T : Finset String} (h : S ⊆ T) :
    replaceEOL gr S ⊆ replaceEOL gr T := by
  unfold replaceEOL
  intro x hx
  by_cases h1 : gr.st_.EOL_ ∈ S
  · rw [if_pos h1] at hx
    rw [if_pos (h h1)]
    simp only [Finset.mem_insert, Finset.mem_erase] at hx ⊢
    rcases hx with hx | ⟨hx1, hx2⟩
    · exact Or.inl hx
    · exact Or.inr ⟨hx1, h hx2⟩
  · rw [if_neg h1] at hx
    split_ifs
    · simp only [Finset.mem_insert, Finset.mem_erase]
      exact Or.inr ⟨fun hc => h1 (hc ▸ hx), h hx⟩
    · exact h hx

theorem ComputeFirstSets.step_least (gr : Grammar) (G : String → Finset String)
    (hG : ∀ r ∈ gr.rules, replaceEOL gr (firstOf gr G r.2) ⊆ G r.1) (r : String × production)
    (hr : r ∈ gr.rules) (fs : SetMap) (h : gr.KeyLe fs.get G) :
    gr.KeyLe (ComputeFirstSets.step gr r.1 fs r.2).get G := by
  intro k hk
  rw [ComputeFirstSets.step_get]
  split_ifs with h1
  · subst h1
    exact Finset.union_subset (h _ hk)
      ((replaceEOL_mono gr (firstOf_keyLe gr h r.2)).trans (hG r hr))
  · exact h k hk

theorem ComputeFirstSets_least (gr : Grammar) (G : String → Finset String)
    (hG : ∀ r ∈ gr.rules, replaceEOL gr (firstOf gr G r.2) ⊆ G r.1) (fs r : SetMap)
    (fuel : Nat) (h : ComputeFirstSets fuel gr fs = some r) : gr.KeyLe r.get G := by
  refine ComputeFirstSets_invariant gr (fun m => gr.KeyLe m.get G) ?_ fs r fuel ?_ h
  · intro m hm
    rw [ComputeFirstSets.pass_eq]
    exact foldl_invariant _ _ (fun m : SetMap => gr.KeyLe m.get G)
      (fun x hx m hm => ComputeFirstSets.step_least gr G hG x hx m hm) m hm
  · intro k hk
    rw [get_initSets_key gr fs hk]
    exact Finset.empty_subset _

theorem ComputeFirstSets_reordered_le {gr1 gr2 : Grammar} (h : gr1.Reordered gr2)
    (fs r1 r2 : SetMap) (n1 n2 : Nat) (h1 : ComputeFirstSets n1 gr1 fs = some r1)
    (h2 : ComputeFirstSets n2 gr2 fs = some r2) : gr2.KeyLe r2.get r1.get := by
  refine ComputeFirstSets_least gr2 r1.get ?_ fs r2 n2 h2
  intro r hr
  rw [← h.firstOf_same, ← h.replaceEOL_same]
  exact ComputeFirstSets.closed_of_stable gr1 r1 (ComputeFirstSets_stable gr1 fs r1 n1 h1) r
    ((h.rules_iff r).mpr hr)

theorem ComputeFirstSets_reordered {gr1 gr2 : Grammar} (h : gr1.Reordered gr2)
    (fs r1 r2 : SetMap) (n1 n2 : Nat) (h1 : ComputeFirstSets n1 gr1 fs = some r1)
    (h2 : ComputeFirstSets n2 gr2 fs = some r2) : SetMap.Equiv r1 r2 := by
  intro k
  cases hk : gr1.IsTerminal k with
  | true =>
    rw [ComputeFirstSets_find_terminal gr1 fs r1 n1 h1 k hk,
      ComputeFirstSets_find_terminal gr2 fs r2 n2 h2 k (h.terminal_eq k ▸ hk)]
  | false =>
    have hk2 : gr2.IsTerminal k = false := h.terminal_eq k ▸ hk
    rw [SetMap.find_eq_some_get (ComputeFirstSets_hasKeys gr1 fs r1 n1 h1 k hk),
      SetMap.find_eq_some_get (ComputeFirstSets_hasKeys gr2 fs r2 n2 h2 k hk2)]
    exact congrArg some (Finset.Subset.antisymm
      (ComputeFirstSets_reordered_le h.flip fs r2 r1 n2 n1 h2 h1 k hk)
      (ComputeFirstSets_reordered_le h fs r1 r2 n1 n2 h1 h2 k hk2))

theorem followAdd_keyLe (gr : Grammar) (F : String → Finset String)
    {G G' : String → Finset String} (lhs : String) (h : G lhs ⊆ G' lhs) (rhs : production)
    (i : Nat) : followAdd gr F G lhs rhs i ⊆ followAdd gr F G' lhs rhs i := by
  unfold followAdd
  apply Finset.union_subset_union (Finset.Subset.refl _)
  split_ifs
  · exact h
  · exact Finset.Subset.refl _

theorem Grammar.Reordered.followAdd_same {gr1 gr2 : Grammar} (h : gr1.Reordered gr2)
    (F G : String → Finset String) (lhs : String) (rhs : production) (i : Nat) :
    followAdd gr1 F G lhs rhs i = followAdd gr2 F G lhs rhs i := by
  unfold followAdd
  rw [h.firstOf_same, h.2.2]

theorem ComputeFollowSets.position_least (gr : Grammar) (F G : String → Finset String)
    (hG : gr.FollowClosed F G) (x : String × production × Nat) (hx : x ∈ gr.sites)
    (st : SetMap × SetMap × Bool) (h : st.1.get = F ∧ gr.KeyLe st.2.1.get G) :
    (ComputeFollowSets.position gr x.1 x.2.1 st x.2.2).1.get = F ∧
      gr.KeyLe (ComputeFollowSets.position gr x.1 x.2.1 st x.2.2).2.1.get G := by
  refine ⟨(ComputeFollowSets.position_fst_get gr x.1 x.2.1 st x.2.2).trans h.1, ?_⟩
  rcases ComputeFollowSets.position_cases gr x.1 x.2.1 st x.2.2 with h1 | ⟨sym, hs, hT, h1⟩
  · rw [h1]
    exact h.2
  · rw [h1]
    intro k hk
    rw [UpdateFollow_get]
    split_ifs with hks
    · have hlhs : gr.IsTerminal x.1 = false :=
        gr.rules_key (r := (x.1, x.2.1)) ((gr.mem_sites x).mp hx).1
      rw [h.1]
      exact Finset.union_subset (hks ▸ h.2 k hk)
        (hks ▸ (followAdd_keyLe gr F x.1 (h.2 x.1 hlhs) x.2.1 x.2.2).trans (hG x hx sym hs hT))
    · exact h.2 k hk

theorem ComputeFollowSets_least (gr : Grammar) (G : String → Finset String) (fs fo : SetMap)
    (hG : gr.FollowClosed fs.get G) (h0 : gr.KeyLe (ComputeFollowSets.init gr fo).get G)
    (r : SetMap × SetMap) (fuel : Nat) (h : ComputeFollowSets fuel gr fs fo = some r) :
    gr.KeyLe r.2.get G :=
  (ComputeFollowSets_invariant gr (fun fs' fo' => fs'.get = fs.get ∧ gr.KeyLe fo'.get G)
    (fun x hx st hst => ComputeFollowSets.position_least gr fs.get G hG x hx st hst)
    fs fo r fuel ⟨rfl, h0⟩ h).2

theorem UpdateFollow_contains (gr : Grammar) (fs fo : SetMap) (sym lhs : String)
    (rhs : production) (i : Nat) (k : String) (h : fo.contains k = true) :
    (UpdateFollow gr fs fo sym lhs rhs i).2.1.contains k = true := by
  unfold UpdateFollow
  simp only [UpdateFollow_first_remaining]
  split
  · apply insertAll_contains
    rw [SetMap.contains_touch, insertAll_contains _ _ _ _ h, Bool.or_true]
  · exact insertAll_contains _ _ _ _ h

theorem ComputeFollowSets.init_hasKeys (gr : Grammar) (fo : SetMap) :
    gr.HasKeys (ComputeFollowSets.init gr fo) := by
  intro k hk
  unfold SetMap.contains
  rw [ComputeFollowSets.find_init]
  split_ifs
  · rfl
  · exact initSets_hasKeys gr fo k hk

theorem ComputeFollowSets_follow_hasKeys (gr : Grammar) (fs fo : SetMap) (r : SetMap × SetMap)
    (fuel : Nat) (h : ComputeFollowSets fuel gr fs fo = some r) : gr.HasKeys r.2 := by
  refine ComputeFollowSets_invariant gr (fun _ fo' => gr.HasKeys fo') ?_ fs fo r fuel
    (ComputeFollowSets.init_hasKeys gr fo) h
  intro x _ st hst k hk
  rcases ComputeFollowSets.position_cases gr x.1 x.2.1 st x.2.2 with h1 | ⟨sym, _, _, h1⟩
  · rw [h1]
    exact hst k hk
  · rw [h1]
    exact UpdateFollow_contains gr _ _ _ _ _ _ k (hst k hk)

theorem Grammar.Reordered.init_same {gr1 gr2 : Grammar} (h : gr1.Reordered gr2) (fo : SetMap)
    (k : String) :
    (ComputeFollowSets.init gr1 fo).find k = (ComputeFollowSets.init gr2 fo).find k := by
  have hi : ∀ k, (initSets gr1 fo).find k = (initSets gr2 fo).find k := by
    intro k
    rw [find_initSets, find_initSets]
    by_cases hk : k ∈ gr1.keys
    · rw [if_pos hk, if_pos ((h.keys_iff k).mp hk)]
    · rw [if_neg hk, if_neg (fun hc => hk ((h.keys_iff k).mpr hc))]
  rw [ComputeFollowSets.find_init, ComputeFollowSets.find_init, ← h.2.1, ← h.2.2, hi]
  unfold SetMap.get
  rw [hi]

theorem ComputeFollowSets_reordered_le {gr1 gr2 : Grammar} (h : gr1.Reordered gr2)
    (fs1 fs2 fo : SetMap) (hF : fs1.get = fs2.get) (r1 r2 : SetMap × SetMap) (n1 n2 : Nat)
    (h1 : ComputeFollowSets n1 gr1 fs1 fo = some r1)
    (h2 : ComputeFollowSets n2 gr2 fs2 fo = some r2) : gr2.KeyLe r2.2.get r1.2.get := by
  refine ComputeFollowSets_least gr2 r1.2.get fs2 fo ?_ ?_ r2 n2 h2
  · intro x hx sym hs hT
    rw [← h.followAdd_same, ← hF, ← ComputeFollowSets_fst_get gr1 fs1 fo r1 n1 h1]
    exact ComputeFollowSets_closed gr1 fs1 fo r1 n1 h1 x ((h.sites_iff x).mpr hx) sym hs
      ((h.terminal_eq sym).trans hT)
  · intro k hk
    rw [ComputeFollowSets.get_init_key gr2 fo hk]
    split_ifs with hax
    · rw [Finset.singleton_subset_iff, hax, ← h.2.1, ← h.2.2]
      exact ComputeFollowSets_mem_start gr1 fs1 fo r1 n1 h1
    · exact Finset.empty_subset _

theorem ComputeFollowSets_reordered {gr1 gr2 : Grammar} (h : gr1.Reordered gr2)
    (fs1 fs2 fo : SetMap) (hF : fs1.get = fs2.get) (r1 r2 : SetMap × SetMap) (n1 n2 : Nat)
    (h1 : ComputeFollowSets n1 gr1 fs1 fo = some r1)
    (h2 : ComputeFollowSets n2 gr2 fs2 fo = some r2) : SetMap.Equiv r1.2 r2.2 := by
  intro k
  cases hk : gr1.IsTerminal k with
  | true =>
    rw [(ComputeFollowSets_find_terminal gr1 fs1 fo r1 n1 h1 k hk).2,
      (ComputeFollowSets_find_terminal gr2 fs2 fo r2 n2 h2 k (h.terminal_eq k ▸ hk)).2]
    exact h.init_same fo k
  | false =>
    have hk2 : gr2.IsTerminal k = false := h.terminal_eq k ▸ hk
    rw [SetMap.find_eq_some_get (ComputeFollowSets_follow_hasKeys gr1 fs1 fo r1 n1 h1 k hk),
      SetMap.find_eq_some_get (ComputeFollowSets_follow_hasKeys gr2 fs2 fo r2 n2 h2 k hk2)]
    exact congrArg some (Finset.Subset.antisymm
      (ComputeFollowSets_reordered_le h.flip fs2 fs1 fo hF.symm r2 r1 n2 n1 h2 h1 k hk)
      (ComputeFollowSets_reordered_le h fs1 fs2 fo hF r1 r2 n1 n2 h1 h2 k hk2))

theorem Grammar.Reordered.predOf_same {gr1 gr2 : Grammar} (h : gr1.Reordered gr2)
    (F : String → Finset String) (fo1 fo2 : SetMap) (hfo : fo1.get = fo2.get) (lhs : String)
    (p : production) : predOf gr1 F fo1 lhs p = predOf gr2 F fo2 lhs p := by
  unfold predOf
  rw [h.firstOf_same, h.2.2, hfo]

theorem Grammar.Reordered.cellOf_same {gr1 gr2 : Grammar} (h : gr1.Reordered gr2)
    (F : String → Finset String) (fo1 fo2 : SetMap) (hfo : fo1.get = fo2.get) (lhs : String)
    (ps : List production) (t : String) :
    cellOf gr1 F fo1 lhs ps t = cellOf gr2 F fo2 lhs ps t := by
  unfold cellOf
  congr 1
  funext p
  rw [h.predOf_same F fo1 fo2 hfo]

theorem Grammar.Reordered.passBound_same {gr1 gr2 : Grammar} (h : gr1.Reordered gr2) :
    gr1.passBound = gr2.passBound := by
  have hk : gr1.keys.toFinset = gr2.keys.toFinset := by
    ext k
    rw [List.mem_toFinset, List.mem_toFinset, h.keys_iff]
  have hs : ∀ s, s ∈ gr1.symbols ↔ s ∈ gr2.symbols := by
    intro s
    unfold Grammar.symbols
    simp only [List.mem_flatMap]
    constructor
    · rintro ⟨e, he, hp⟩
      exact ⟨e, (h.entry_iff e).mp he, hp⟩
    · rintro ⟨e, he, hp⟩
      exact ⟨e, (h.entry_iff e).mpr he, hp⟩
  have ht : gr1.terminals = gr2.terminals := by
    ext s
    unfold Grammar.terminals
    simp only [List.mem_toFinset, List.mem_filter, hs s, h.terminal_eq s]
  unfold Grammar.passBound
  rw [hk, ht]

theorem CreateLL1Table_after_new (gr : Grammar) (fuel : Nat) (hfuel : gr.passBound ≤ fuel)
    (fs : SetMap) (r : SetMap × SetMap) (hfs : ComputeFirstSets fuel gr [] = some fs)
    (hr : ComputeFollowSets fuel gr fs [] = some r) (b : Bool) (q : LL1Parser)
    (hq : CreateLL1Table fuel ⟨gr, r.1, r.2, []⟩ = some (b, q)) :
    q.first_sets_ = r.1 ∧ q.follow_sets_ = r.2 := by
  by_cases hg : gr.g_ = []
  · obtain ⟨n, rfl⟩ : ∃ n, fuel = n + 1 :=
      ⟨fuel - 1, by have : 1 ≤ gr.passBound := Nat.le_add_left _ _; omega⟩
    obtain ⟨h1, h2⟩ := LL1Parser.new_empty gr hg n
    have h3 : LL1Parser.new (n + 1) gr = some ⟨gr, r.1, r.2, []⟩ := by
      unfold LL1Parser.new
      rw [hfs]
      dsimp only
      rw [hr]
    rw [h1] at h3
    simp only [Option.some.injEq, LL1Parser.mk.injEq, true_and, and_true] at h3
    obtain ⟨e1, e2⟩ := h3
    rw [← e1, ← e2, h2] at hq
    simp only [Option.some.injEq, Prod.mk.injEq] at hq
    rw [← hq.2, ← e1, ← e2]
    exact ⟨rfl, rfl⟩
  · have hk0 := ComputeFirstSets_hasKeys gr [] fs fuel hfs
    have e1 : r.1 = fs := ComputeFollowSets_fst_eq gr fs [] r fuel hk0 hr
    have hk : gr.HasKeys r.1 := e1 ▸ hk0
    have n1 : r.1 ≠ [] := by
      obtain ⟨e, he⟩ := List.exists_mem_of_ne_nil _ hg
      exact SetMap.ne_nil_of_contains
        (hk e.1 ((gr.isTerminal_eq_false_iff e.1).mpr (List.mem_map_of_mem _ he)))
    have n2 : r.2 ≠ [] := by
      intro h
      have hm := ComputeFollowSets_mem_start gr fs [] r fuel hr
      rw [h] at hm
      simp [SetMap.get, SetMap.find] at hm
    obtain ⟨h1, h2, _⟩ := CreateLL1Table_again fuel ⟨gr, r.1, r.2, []⟩ hk n1 n2 b q hq
    exact ⟨h1, h2⟩

theorem CreateLL1Table_reordered {gr1 gr2 : Grammar} (h : gr1.Reordered gr2)
    (hnd : gr1.keys.Nodup) (fuel : Nat) (hfuel : gr1.passBound ≤ fuel) :
    ∃ p1 p2 b q1 q2, LL1Parser.new fuel gr1 = some p1 ∧ LL1Parser.new fuel gr2 = some p2 ∧
      CreateLL1Table fuel p1 = some (b, q1) ∧ CreateLL1Table fuel p2 = some (b, q2) ∧
      SetMap.Equiv p1.first_sets_ p2.first_sets_ ∧ SetMap.Equiv p1.follow_sets_ p2.follow_sets_ ∧
      SetMap.Equiv q1.first_sets_ q2.first_sets_ ∧ SetMap.Equiv q1.follow_sets_ q2.follow_sets_ ∧
      ∀ A t, cell q1.ll1_t_ A t = cell q2.ll1_t_ A t := by
  have hfuel2 : gr2.passBound ≤ fuel := h.passBound_same ▸ hfuel
  have hnd2 : gr2.keys.Nodup := (h.1.map Prod.fst).nodup_iff.mp hnd
  obtain ⟨fs1, r1, hfs1, hr1, hnew1⟩ := LL1Parser.new_isSome gr1 fuel hfuel
  obtain ⟨fs2, r2, hfs2, hr2, hnew2⟩ := LL1Parser.new_isSome gr2 fuel hfuel2
  obtain ⟨b1, q1, hq1, _, ht1, hb1⟩ :=
    CreateLL1Table_spec fuel ⟨gr1, r1.1, r1.2, []⟩ hfuel rfl hnd
  obtain ⟨b2, q2, hq2, _, ht2, hb2⟩ :=
    CreateLL1Table_spec fuel ⟨gr2, r2.1, r2.2, []⟩ hfuel2 rfl hnd2
  obtain ⟨a1, a2⟩ := CreateLL1Table_after_new gr1 fuel hfuel fs1 r1 hfs1 hr1 b1 q1 hq1
  obtain ⟨c1, c2⟩ := CreateLL1Table_after_new gr2 fuel hfuel2 fs2 r2 hfs2 hr2 b2 q2 hq2
  have e1 : r1.1 = fs1 := ComputeFollowSets_fst_eq gr1 fs1 [] r1 fuel
    (ComputeFirstSets_hasKeys gr1 [] fs1 fuel hfs1) hr1
  have e2 : r2.1 = fs2 := ComputeFollowSets_fst_eq gr2 fs2 [] r2 fuel
    (ComputeFirstSets_hasKeys gr2 [] fs2 fuel hfs2) hr2
  have hE : SetMap.Equiv fs1 fs2 := ComputeFirstSets_reordered h [] fs1 fs2 fuel fuel hfs1 hfs2
  have hF : fs1.get = fs2.get := funext hE.get
  have hG : SetMap.Equiv r1.2 r2.2 :=
    ComputeFollowSets_reordered h fs1 fs2 [] hF r1 r2 fuel fuel hr1 hr2
  have hGg : r1.2.get = r2.2.get := funext hG.get
  have hcell : ∀ lhs ps t, cellOf gr1 q1.first_sets_.get q1.follow_sets_ lhs ps t =
      cellOf gr2 q2.first_sets_.get q2.follow_sets_ lhs ps t := by
    intro lhs ps t
    rw [a1, a2, c1, c2, e1, e2, hF]
    exact h.cellOf_same fs2.get r1.2 r2.2 hGg lhs ps t
  have hb : b1 = b2 := by
    rw [Bool.eq_iff_iff, hb1, hb2]
    apply not_congr
    constructor
    · rintro ⟨e, he, t, hlen⟩
      exact ⟨e, (h.entry_iff e).mp he, t, hcell e.1 e.2 t ▸ hlen⟩
    · rintro ⟨e, he, t, hlen⟩
      exact ⟨e, (h.entry_iff e).mpr he, t, (hcell e.1 e.2 t).symm ▸ hlen⟩
  subst hb
  refine ⟨_, _, b1, q1, q2, hnew1, hnew2, hq1, hq2, ?_, hG, ?_, ?_, ?_⟩
  · show SetMap.Equiv r1.1 r2.1
    rw [e1, e2]
    exact hE
  · rw [a1, c1, e1, e2]
    exact hE
  · rw [a2, c2]
    exact hG
  · intro A t
    rw [ht1, ht2]
    dsimp only
    by_cases hA : A ∈ gr1.keys
    · obtain ⟨e, he, rfl⟩ := List.mem_map.mp hA
      rw [cell_map_columnOf gr1 _ _ gr1.g_ hnd e he t,
        cell_map_columnOf gr2 _ _ gr2.g_ hnd2 e ((h.entry_iff e).mp he) t]
      unfold columnOf
      rw [hcell]
    · rw [cell_map_columnOf_none gr1 _ _ gr1.g_ A hA t,
        cell_map_columnOf_none gr2 _ _ gr2.g_ A (fun hc => hA ((h.keys_iff A).mpr hc)) t]

/-! ## The claims -/

/-- C1: for a grammar in which `EPSILON` and `EOL` are not non-terminals and `EOL` occurs in no
right-hand side, `ComputeFirstSets` returns (with a budget of `firstBound` passes or more, from
any `first_sets_`), and in the returned map, for every non-terminal `X`: a terminal `t` other
than `EPSILON` is in FIRST(`X`) iff `X` derives a sentential form that starts with `t`, and
`EPSILON` is in FIRST(`X`) iff `X` derives the empty string. -/
theorem C1_first_sets_canonical (gr : Grammar) (first_sets : SetMap)
    (hE : gr.IsTerminal gr.st_.EPSILON_ = true) (hL : gr.IsTerminal gr.st_.EOL_ = true)
    (hR : ∀ e ∈ gr.g_, ∀ p ∈ e.2, gr.st_.EOL_ ∉ p) (fuel : Nat) (hfuel : gr.firstBound ≤ fuel) :
    ∃ r, ComputeFirstSets fuel gr first_sets = some r ∧
      ∀ X, gr.IsTerminal X = false →
        (∀ t, gr.IsTerminal t = true → t ≠ gr.st_.EPSILON_ →
          (t ∈ r.get X ↔ ∃ γ, gr.Derives [X] (t :: γ))) ∧
        (gr.st_.EPSILON_ ∈ r.get X ↔ gr.Derives [X] []) := by
  obtain ⟨r, hr⟩ := ComputeFirstSets_isSome gr first_sets fuel hfuel
  exact ⟨r, hr, fun X hX => ComputeFirstSets_canonical gr hE hL hR first_sets r fuel hr X hX⟩

/-- C1 at the grammar `E -> T E' ; E' -> + T E' | EPSILON ; T -> id`. -/
theorem C1_first_sets_canonical_witness :
    exampleClassic.IsTerminal exampleClassic.st_.EPSILON_ = true ∧
    exampleClassic.IsTerminal exampleClassic.st_.EOL_ = true ∧
    (∀ e ∈ exampleClassic.g_, ∀ p ∈ e.2, exampleClassic.st_.EOL_ ∉ p) ∧
    exampleClassic.firstBound ≤ 13 ∧
    ∃ r, ComputeFirstSets 13 exampleClassic [] = some r ∧
      ∀ X, exampleClassic.IsTerminal X = false →
        (∀ t, exampleClassic.IsTerminal t = true → t ≠ exampleClassic.st_.EPSILON_ →
          (t ∈ r.get X ↔ ∃ γ, exampleClassic.Derives [X] (t :: γ))) ∧
        (exampleClassic.st_.EPSILON_ ∈ r.get X ↔ exampleClassic.Derives [X] []) :=
  ⟨by decide, by decide, by decide, by decide,
    C1_first_sets_canonical exampleClassic [] (by decide) (by decide) (by decide) 13
      (by decide)⟩

/-- C2, refuted as stated: in the grammar `S -> a ; U -> B c ; B -> d` with axiom `S` (the axiom
is a non-terminal, `EOL` occurs in no right-hand side) the computed FOLLOW(`B`) contains the
terminal `c`, but no sentential form derivable from (`S`, `EOL`) contains `B` followed by
`c`. -/
theorem C2_follow_sets_counterexample :
    exampleUnreachable.IsTerminal exampleUnreachable.axiom_ = false ∧
    (∀ e ∈ exampleUnreachable.g_, ∀ p ∈ e.2, exampleUnreachable.st_.EOL_ ∉ p) ∧
    ∃ fs r, ComputeFirstSets 13 exampleUnreachable [] = some fs ∧
      ComputeFollowSets 13 exampleUnreachable fs [] = some r ∧
      exampleUnreachable.IsTerminal "B" = false ∧ exampleUnreachable.IsTerminal "c" = true ∧
      "c" ∈ r.2.get "B" ∧ ¬ exampleUnreachable.FollowsIn "B" "c" := by
  refine ⟨by decide, by decide, [("S", {"a"}), ("U", {"d"}), ("B", {"d"})],
    ([("S", {"a"}), ("U", {"d"}), ("B", {"d"})], [("S", {"$"}), ("U", ∅), ("B", {"c"})]),
    by decide, by decide, by decide, by decide, by decide, ?_⟩
  rintro ⟨u, v, hd⟩
  have := exampleUnreachable_forms hd "B" (by simp)
  simp at this

/-- C2, amended: for a grammar in which `EPSILON` and `EOL` are not non-terminals, `EOL` occurs
in no right-hand side and every non-terminal occurs in a sentential form derivable from the
axiom, `ComputeFirstSets` followed by `ComputeFollowSets` returns (with a budget of `passBound`
passes or more), and for every non-terminal `X` a terminal `t` is in FOLLOW(`X`) iff some
sentential form derivable from (axiom, `EOL`) contains `X` immediately followed by `t`. -/
theorem C2_follow_sets_canonical (gr : Grammar) (first_sets follow_sets : SetMap)
    (hE : gr.IsTerminal gr.st_.EPSILON_ = true) (hL : gr.IsTerminal gr.st_.EOL_ = true)
    (hR : ∀ e ∈ gr.g_, ∀ p ∈ e.2, gr.st_.EOL_ ∉ p)
    (hreach : ∀ Y, gr.IsTerminal Y = false → ∃ u v, gr.Derives [gr.axiom_] (u ++ Y :: v))
    (fuel : Nat) (hfuel : gr.passBound ≤ fuel) :
    ∃ fs r, ComputeFirstSets fuel gr first_sets = some fs ∧
      ComputeFollowSets fuel gr fs follow_sets = some r ∧
      ∀ X t, gr.IsTerminal X = false → gr.IsTerminal t = true →
        (t ∈ r.2.get X ↔
          ∃ u v, gr.Derives [gr.axiom_, gr.st_.EOL_] (u ++ X :: t :: v)) := by
  obtain ⟨fs, r, h1, h2⟩ := analysis_isSome gr first_sets follow_sets fuel hfuel
  refine ⟨fs, r, h1, h2, fun X t hX hT => ⟨fun ht => ?_, fun hf => ?_⟩⟩
  · exact ComputeFollowSets_sound gr hE hR hreach fs follow_sets
      (ComputeFirstSets_sound gr hR first_sets fs fuel h1) r fuel h2 X hX t ht
  · exact ComputeFollowSets_complete gr hL hR first_sets fs follow_sets r fuel h1 h2 X t hX hT hf

/-- C2 (amended) at the grammar `E -> T E' ; E' -> + T E' | EPSILON ; T -> id`. -/
theorem C2_follow_sets_canonical_witness :
    exampleClassic.IsTerminal exampleClassic.st_.EPSILON_ = true ∧
    exampleClassic.IsTerminal exampleClassic.st_.EOL_ = true ∧
    (∀ e ∈ exampleClassic.g_, ∀ p ∈ e.2, exampleClassic.st_.EOL_ ∉ p) ∧
    (∀ Y, exampleClassic.IsTerminal Y = false →
      ∃ u v, exampleClassic.Derives [exampleClassic.axiom_] (u ++ Y :: v)) ∧
    exampleClassic.passBound ≤ 13 ∧
    ∃ fs r, ComputeFirstSets 13 exampleClassic [] = some fs ∧
      ComputeFollowSets 13 exampleClassic fs [] = some r ∧
      ∀ X t, exampleClassic.IsTerminal X = false → exampleClassic.IsTerminal t = true →
        (t ∈ r.2.get X ↔
          ∃ u v, exampleClassic.Derives [exampleClassic.axiom_, exampleClassic.st_.EOL_]
            (u ++ X :: t :: v)) :=
  ⟨by decide, by decide, by decide, exampleClassic_reachable, by decide,
    C2_follow_sets_canonical exampleClassic [] [] (by decide) (by decide) (by decide)
      exampleClassic_reachable 13 (by decide)⟩

/-- C3: for a grammar whose keys are distinct, `CreateLL1Table` on a freshly constructed parser
returns (with a budget of `passBound` passes or more) and the boolean is `true` iff no cell of
the resulting table holds more than one production; equivalently it is `false` iff some cell
holds at least two. -/
theorem C3_table_conflict (gr : Grammar) (hnd : (gr.g_.map Prod.fst).Nodup) (fuel : Nat)
    (hfuel : gr.passBound ≤ fuel) :
    ∃ p b p', LL1Parser.new fuel gr = some p ∧ CreateLL1Table fuel p = some (b, p') ∧
      (b = true ↔ ∀ A t l, cell p'.ll1_t_ A t = some l → l.length ≤ 1) ∧
      (b = false ↔ ∃ A t l, cell p'.ll1_t_ A t = some l ∧ 2 ≤ l.length) := by
  obtain ⟨fs, r, _, _, hnew⟩ := LL1Parser.new_isSome gr fuel hfuel
  obtain ⟨b, p', hc, _, htab, hb⟩ :=
    CreateLL1Table_spec fuel ⟨gr, r.1, r.2, []⟩ hfuel rfl hnd
  have hcell : ∀ e ∈ gr.g_, ∀ t, cell p'.ll1_t_ e.1 t =
      columnOf gr p'.first_sets_.get p'.follow_sets_ e.1 e.2 t := by
    intro e he t
    rw [htab]
    exact cell_map_columnOf gr _ _ gr.g_ hnd e he t
  have hnone : ∀ A, A ∉ gr.g_.map Prod.fst → ∀ t, cell p'.ll1_t_ A t = none := by
    intro A hA t
    rw [htab]
    exact cell_map_columnOf_none gr _ _ gr.g_ A hA t
  have key : (∃ e ∈ gr.g_, ∃ t,
      2 ≤ (cellOf gr p'.first_sets_.get p'.follow_sets_ e.1 e.2 t).length) ↔
      ∃ A t l, cell p'.ll1_t_ A t = some l ∧ 2 ≤ l.length := by
    constructor
    · rintro ⟨e, he, t, h2⟩
      refine ⟨e.1, t, _, ?_, h2⟩
      rw [hcell e he t]
      unfold columnOf
      rw [if_neg]
      intro hnil
      rw [hnil] at h2
      simp at h2
    · rintro ⟨A, t, l, hl, h2⟩
      by_cases hA : A ∈ gr.g_.map Prod.fst
      · obtain ⟨e, he, rfl⟩ := List.mem_map.mp hA
        rw [hcell e he t] at hl
        unfold columnOf at hl
        split at hl
        · exact absurd hl (by simp)
        · simp only [Option.some.injEq] at hl
          exact ⟨e, he, t, hl ▸ h2⟩
      · rw [hnone A hA t] at hl
        exact absurd hl (by simp)
  refine ⟨_, b, p', hnew, hc, ?_, ?_⟩
  · rw [hb, key]
    constructor
    · intro h A t l hl
      by_contra hlen
      exact h ⟨A, t, l, hl, by omega⟩
    · rintro h ⟨A, t, l, hl, h2⟩
      have := h A t l hl
      omega
  · rw [← key, ← Bool.not_eq_true, hb, not_not]

/-- C3 at the grammar `S -> a | a b`: `CreateLL1Table` returns `false` and the cell (`S`, `a`)
is the list `[a]`, `[a b]` in declaration order. -/
theorem C3_table_conflict_witness :
    (exampleConflict.g_.map Prod.fst).Nodup ∧ exampleConflict.passBound ≤ 10 ∧
    (∃ p b p', LL1Parser.new 10 exampleConflict = some p ∧
      CreateLL1Table 10 p = some (b, p') ∧
      (b = true ↔ ∀ A t l, cell p'.ll1_t_ A t = some l → l.length ≤ 1) ∧
      (b = false ↔ ∃ A t l, cell p'.ll1_t_ A t = some l ∧ 2 ≤ l.length)) ∧
    ((LL1Parser.new 10 exampleConflict).bind (CreateLL1Table 10)).map
      (fun r => (r.1, cell r.2.ll1_t_ "S" "a")) = some (false, some [["a"], ["a", "b"]]) :=
  ⟨by decide, by decide, C3_table_conflict exampleConflict (by decide) 10 (by decide),
    by decide⟩

/-- C4: for a grammar whose keys are distinct, after `CreateLL1Table` on a freshly constructed
parser, for every entry (`A`, productions) of the grammar and every symbol `t` the cell
(`A`, `t`) is the sub-list, in declaration order, of the productions `q` of `A` with `t` in
`PredictionSymbols(A, q)`, and it is absent iff that sub-list is empty; a symbol that is not a
key has no row. -/
theorem C4_table_cells (gr : Grammar) (hnd : (gr.g_.map Prod.fst).Nodup) (fuel : Nat)
    (hfuel : gr.passBound ≤ fuel) :
    ∃ p b p', LL1Parser.new fuel gr = some p ∧ CreateLL1Table fuel p = some (b, p') ∧
      (∀ e ∈ gr.g_, ∀ t, cell p'.ll1_t_ e.1 t =
        if e.2.filter (fun q => decide
            (t ∈ (PredictionSymbols gr p'.first_sets_ p'.follow_sets_ e.1 q).2)) = []
        then none
        else some (e.2.filter (fun q => decide
            (t ∈ (PredictionSymbols gr p'.first_sets_ p'.follow_sets_ e.1 q).2)))) ∧
      (∀ A, gr.IsTerminal A = true → ∀ t, cell p'.ll1_t_ A t = none) := by
  obtain ⟨fs, r, _, _, hnew⟩ := LL1Parser.new_isSome gr fuel hfuel
  obtain ⟨b, p', hc, _, htab, _⟩ :=
    CreateLL1Table_spec fuel ⟨gr, r.1, r.2, []⟩ hfuel rfl hnd
  refine ⟨_, b, p', hnew, hc, ?_, ?_⟩
  · intro e he t
    simp only [PredictionSymbols_snd]
    rw [htab]
    exact cell_map_columnOf gr _ _ gr.g_ hnd e he t
  · intro A hA t
    rw [htab]
    exact cell_map_columnOf_none gr _ _ gr.g_ A ((gr.isTerminal_eq_true_iff A).mp hA) t

/-- C4 at the grammar `S -> a S | EPSILON` with axiom `S`: the row of `S` maps `a` to `[a S]`
and `EOL` to `[EPSILON]` and has no other cell. -/
theorem C4_table_cells_witness :
    (exampleNullable.g_.map Prod.fst).Nodup ∧ exampleNullable.passBound ≤ 10 ∧
    ∃ p b p', LL1Parser.new 10 exampleNullable = some p ∧
      CreateLL1Table 10 p = some (b, p') ∧
      cell p'.ll1_t_ "S" "a" = some [["a", "S"]] ∧
      cell p'.ll1_t_ "S" "$" = some [["EPSILON"]] ∧
      ∀ t, t ≠ "a" → t ≠ "$" → cell p'.ll1_t_ "S" t = none := by
  refine ⟨by decide, by decide, ?_⟩
  obtain ⟨p, b, p', hnew, hc, hcell, _⟩ :=
    C4_table_cells exampleNullable (by decide) 10 (by decide)
  have hsets : ((LL1Parser.new 10 exampleNullable).bind (CreateLL1Table 10)).map
      (fun r => (r.2.first_sets_, r.2.follow_sets_))
      = some ([("S", {"a", "EPSILON"})], [("S", {"$"})]) := by decide
  rw [hnew] at hsets
  simp only [Option.some_bind, hc, Option.map_some', Option.some.injEq, Prod.mk.injEq] at hsets
  obtain ⟨h1, h2⟩ := hsets
  have hS : (("S", [["a", "S"], ["EPSILON"]]) : String × List production) ∈ exampleNullable.g_ :=
    by decide
  have hrow := hcell _ hS
  rw [h1, h2] at hrow
  have e1 : (PredictionSymbols exampleNullable [("S", {"a", "EPSILON"})] [("S", {"$"})] "S"
      ["a", "S"]).2 = {"a"} := by decide
  have e2 : (PredictionSymbols exampleNullable [("S", {"a", "EPSILON"})] [("S", {"$"})] "S"
      ["EPSILON"]).2 = {"$"} := by decide
  simp only [List.filter_cons, List.filter_nil, e1, e2, Finset.mem_singleton] at hrow
  refine ⟨p, b, p', hnew, hc, ?_, ?_, ?_⟩
  · rw [hrow "a"]
    decide
  · rw [hrow "$"]
    decide
  · intro t ha hd
    rw [hrow t]
    simp [ha, hd]

/-- C5: `PredictionSymbols(lhs, rhs)` is `F` when `EPSILON` is not in `F`, and `F` without
`EPSILON` united with the stored FOLLOW set of `lhs` (empty when `lhs` has none) otherwise, where
`F` is what `First` puts into an empty accumulator for `rhs`. -/
theorem C5_prediction_symbols (gr : Grammar) (first_sets follow_sets : SetMap) (lhs : String)
    (rhs : production) :
    (PredictionSymbols gr first_sets follow_sets lhs rhs).2 =
      if gr.st_.EPSILON_ ∉ (First gr rhs first_sets ∅).2 then (First gr rhs first_sets ∅).2
      else (First gr rhs first_sets ∅).2.erase gr.st_.EPSILON_ ∪
        (follow_sets.find lhs).getD ∅ := by
  rw [PredictionSymbols_snd]
  unfold predOf
  rw [First_snd, Finset.empty_union]
  rfl

/-- C6: for every grammar and every state of the maps, the loop of `ComputeFirstSets` and the
loop of `ComputeFollowSets` stop: with enough passes allowed each returns, and what it returns
is the outcome of a pass that changed no set. `First` is total, and a call on a non-empty
sequence either answers at once or continues on the tail of the sequence, which is shorter. -/
theorem C6_termination (gr : Grammar) (first_sets follow_sets : SetMap) :
    (∃ N, ∀ fuel, N ≤ fuel → ∃ r, ComputeFirstSets fuel gr first_sets = some r ∧
      ∃ fs', r = ComputeFirstSets.pass gr fs' ∧ fs'.beq r = true) ∧
    (∃ N, ∀ fuel, N ≤ fuel → ∃ r, ComputeFollowSets fuel gr first_sets follow_sets = some r ∧
      ∃ fs' fo', ComputeFollowSets.pass gr (fs', fo', false) = (r.1, r.2, false) ∧
        ∀ k, r.2.get k = fo'.get k) ∧
    (∀ s rest fs res, rest.length < (s :: rest).length ∧
      First gr (s :: rest) fs res =
        if s = gr.st_.EPSILON_ then
          (if rest = [] then (fs, insert gr.st_.EPSILON_ res) else First gr rest fs res)
        else if gr.IsTerminal s = true then
          (if s = gr.st_.EOL_ then (fs, insert gr.st_.EPSILON_ res) else (fs, insert s res))
        else if gr.st_.EPSILON_ ∈ fs.get s then
          First gr rest (fs.touch s) (res ∪ (fs.get s).filter (fun x => x ≠ gr.st_.EPSILON_))
        else (fs.touch s, res ∪ (fs.get s).filter (fun x => x ≠ gr.st_.EPSILON_))) := by
  refine ⟨⟨gr.firstBound, fun fuel hfuel => ?_⟩,
    ⟨gr.followBound first_sets.get, fun fuel hfuel => ?_⟩,
    fun s rest fs res => ⟨by simp, First_cons gr s rest fs res⟩⟩
  · obtain ⟨r, hr⟩ := ComputeFirstSets_isSome gr first_sets fuel hfuel
    obtain ⟨fs', _, e1, e2⟩ :=
      ComputeFirstSets.loop_spec gr (fun _ => True) (fun _ _ => trivial) fuel _ r trivial hr
    exact ⟨r, hr, fs', e1, (SetMap.beq_iff _ _).mpr e2⟩
  · obtain ⟨r, hr⟩ := ComputeFollowSets_isSome gr first_sets follow_sets fuel hfuel
    obtain ⟨fs', fo', _, e⟩ := ComputeFollowSets.follow_loop_spec gr (fun _ _ => True)
      (fun _ _ _ => trivial) fuel first_sets _ r trivial hr
    refine ⟨r, hr, fs', fo', e, ?_⟩
    have e' := e
    rw [ComputeFollowSets.follow_pass_eq] at e'
    have hflag := congrArg (fun x => x.2.2) e'
    obtain ⟨_, k2, _, _⟩ :=
      ComputeFollowSets.foldl_flag_false gr gr.sites (fs', fo', false) hflag
    rw [e'] at k2
    intro k
    exact congrFun k2 k

/-- C7: for every grammar and every state of the maps `ComputeFollowSets` returns (with enough
passes allowed) and the FOLLOW set of the axiom then contains `EOL`; for the one-rule grammar
`S -> a` with axiom `S`, FOLLOW(`S`) contains `EOL`. -/
theorem C7_follow_axiom_eol :
    (∀ (gr : Grammar) (first_sets follow_sets : SetMap), ∃ N, ∀ fuel, N ≤ fuel →
      ∃ r, ComputeFollowSets fuel gr first_sets follow_sets = some r ∧
        gr.st_.EOL_ ∈ r.2.get gr.axiom_) ∧
    ((ComputeFirstSets 10 exampleSingle []).bind
        (fun fs => ComputeFollowSets 10 exampleSingle fs [])).map
      (fun r => decide (exampleSingle.st_.EOL_ ∈ r.2.get "S")) = some true := by
  refine ⟨fun gr first_sets follow_sets => ⟨gr.followBound first_sets.get, fun fuel hfuel => ?_⟩,
    by decide⟩
  obtain ⟨r, hr⟩ := ComputeFollowSets_isSome gr first_sets follow_sets fuel hfuel
  exact ⟨r, hr, ComputeFollowSets_mem_start gr first_sets follow_sets r fuel hr⟩

/-- C8: when a non-terminal `X` of the grammar has the production `[EPSILON]` or the empty
production, `ComputeFirstSets` returns (with a budget of `firstBound` passes or more) and
FIRST(`X`) contains `EPSILON`. -/
theorem C8_epsilon_production (gr : Grammar) (first_sets : SetMap)
    (e : String × List production) (he : e ∈ gr.g_)
    (hp : [gr.st_.EPSILON_] ∈ e.2 ∨ [] ∈ e.2) (fuel : Nat) (hfuel : gr.firstBound ≤ fuel) :
    ∃ r, ComputeFirstSets fuel gr first_sets = some r ∧ gr.st_.EPSILON_ ∈ r.get e.1 := by
  obtain ⟨r, hr⟩ := ComputeFirstSets_isSome gr first_sets fuel hfuel
  obtain ⟨fs', _, e1, _⟩ :=
    ComputeFirstSets.loop_spec gr (fun _ => True) (fun _ _ => trivial) fuel _ r trivial hr
  refine ⟨r, hr, ?_⟩
  rw [e1]
  rcases hp with h | h
  · exact ComputeFirstSets.pass_mem_epsilon gr fs' e.1 _
      ((gr.mem_rules e.1 _).mpr ⟨e, he, rfl, h⟩) (Or.inl rfl)
  · exact ComputeFirstSets.pass_mem_epsilon gr fs' e.1 _
      ((gr.mem_rules e.1 _).mpr ⟨e, he, rfl, h⟩) (Or.inr rfl)

/-- C8 at the grammar `X -> a X | EPSILON`: FIRST(`X`) is exactly `{a, EPSILON}`. -/
theorem C8_epsilon_production_witness :
    (("X", [["a", "X"], ["EPSILON"]]) : String × List production) ∈ exampleRecursive.g_ ∧
    ([exampleRecursive.st_.EPSILON_] ∈ [["a", "X"], ["EPSILON"]] ∨
      ([] : production) ∈ [["a", "X"], ["EPSILON"]]) ∧
    exampleRecursive.firstBound ≤ 10 ∧
    (∃ r, ComputeFirstSets 10 exampleRecursive [] = some r ∧
      exampleRecursive.st_.EPSILON_ ∈ r.get "X") ∧
    (ComputeFirstSets 10 exampleRecursive []).map (fun r => r.get "X")
      = some {"a", "EPSILON"} :=
  ⟨by decide, by decide, by decide,
    C8_epsilon_production exampleRecursive [] ("X", [["a", "X"], ["EPSILON"]]) (by decide)
      (by decide) 10 (by decide),
    by decide⟩

/-- C9: running `ComputeFirstSets` then `ComputeFollowSets` a second time, on the maps that a
first run of the two left, returns maps identical to those of the first run: every key is mapped
alike, for `first_sets_` and for `follow_sets_` (with a budget of `passBound` passes or more,
whatever the maps were before the first run). -/
theorem C9_idempotent (gr : Grammar) (first_sets follow_sets : SetMap) (fuel : Nat)
    (hfuel : gr.passBound ≤ fuel) :
    ∃ fs1 r1, ComputeFirstSets fuel gr first_sets = some fs1 ∧
      ComputeFollowSets fuel gr fs1 follow_sets = some r1 ∧
      ∃ fs2 r2, ComputeFirstSets fuel gr r1.1 = some fs2 ∧
        ComputeFollowSets fuel gr fs2 r1.2 = some r2 ∧
        (∀ k, r2.1.find k = r1.1.find k) ∧ (∀ k, r2.2.find k = r1.2.find k) := by
  obtain ⟨fs1, r1, h1, h2⟩ := analysis_isSome gr first_sets follow_sets fuel hfuel
  have hk1 := ComputeFirstSets_hasKeys gr first_sets fs1 fuel h1
  have e1 : r1.1 = fs1 := ComputeFollowSets_fst_eq gr fs1 follow_sets r1 fuel hk1 h2
  have hA : SetMap.Equiv (initSets gr first_sets) (initSets gr r1.1) := by
    apply initSets_equiv
    intro k hk
    rw [e1]
    exact (ComputeFirstSets_find_terminal gr first_sets fs1 fuel h1 k hk).symm
  obtain ⟨fs2, h3, hfs⟩ := ComputeFirstSets.loop_equiv gr fuel hA h1
  have hB : SetMap.Equiv (ComputeFollowSets.init gr follow_sets)
      (ComputeFollowSets.init gr r1.2) :=
    ComputeFollowSets.init_equiv gr follow_sets r1.2
      (fun k hk => (ComputeFollowSets_find_terminal gr fs1 follow_sets r1 fuel h2 k hk).2)
  obtain ⟨r2, h4, q1, q2⟩ := ComputeFollowSets.follow_loop_equiv gr fuel hfs hB h2
  exact ⟨fs1, r1, h1, h2, fs2, r2, h3, h4, fun k => (q1 k).symm, fun k => (q2 k).symm⟩

/-- C9 at the grammar `E -> T E' ; E' -> + T E' | EPSILON ; T -> id`, from empty maps. -/
theorem C9_idempotent_witness :
    exampleClassic.passBound ≤ 13 ∧
    ∃ fs1 r1, ComputeFirstSets 13 exampleClassic [] = some fs1 ∧
      ComputeFollowSets 13 exampleClassic fs1 [] = some r1 ∧
      ∃ fs2 r2, ComputeFirstSets 13 exampleClassic r1.1 = some fs2 ∧
        ComputeFollowSets 13 exampleClassic fs2 r1.2 = some r2 ∧
        (∀ k, r2.1.find k = r1.1.find k) ∧ (∀ k, r2.2.find k = r1.2.find k) :=
  ⟨by decide, C9_idempotent exampleClassic [] [] 13 (by decide)⟩

/-- C10: for every grammar and every state of the maps, after one full pass of the loop body of
`ComputeFirstSets` the FIRST set of every symbol is a superset of what it was before the pass,
and after one full pass of the loop body of `ComputeFollowSets` so is every FOLLOW set. -/
theorem C10_passes_monotone (gr : Grammar) (first_sets follow_sets : SetMap) (changed : Bool)
    (X : String) :
    first_sets.get X ⊆ (ComputeFirstSets.pass gr first_sets).get X ∧
    follow_sets.get X ⊆
      (ComputeFollowSets.pass gr (first_sets, follow_sets, changed)).2.1.get X :=
  ⟨ComputeFirstSets.pass_le gr first_sets X,
    ComputeFollowSets.follow_pass_le gr (first_sets, follow_sets, changed) X⟩

/-- C12: for the grammar `E -> T E' ; E' -> + T E' | EPSILON ; T -> id` with axiom `E` the
analysis gives FIRST(`T`) = {`id`}, FIRST(`E`) = {`id`}, FIRST(`E'`) = {`+`, `EPSILON`},
FOLLOW(`E`) = FOLLOW(`E'`) = {`EOL`}, and `CreateLL1Table` returns `true`. -/
theorem C12_classic_example :
    ((LL1Parser.new 13 exampleClassic).bind (CreateLL1Table 13)).map
      (fun r => (r.1, [r.2.first_sets_.get "T", r.2.first_sets_.get "E",
        r.2.first_sets_.get "E'"], [r.2.follow_sets_.get "E", r.2.follow_sets_.get "E'"]))
      = some (true, [{"id"}, {"id"}, {"+", "EPSILON"}], [{"$"}, {"$"}]) := by
  decide

/-- C15: when the first symbol `s` of a sequence is a terminal other than `EPSILON`, `First`
adds exactly one symbol to the accumulator, `EPSILON` when `s` is `EOL` and `s` itself
otherwise, and leaves the FIRST-set map as it is; the outcome depends neither on the rest of
the sequence nor on the map. -/
theorem C15_first_of_terminal (gr : Grammar) (s : String) (rest : List String)
    (first_sets : SetMap) (result : Finset String) (hT : gr.IsTerminal s = true)
    (hne : s ≠ gr.st_.EPSILON_) :
    First gr (s :: rest) first_sets result =
      (first_sets, insert (if s = gr.st_.EOL_ then gr.st_.EPSILON_ else s) result) ∧
    ∀ rest' first_sets', (First gr (s :: rest') first_sets' result).2 =
      (First gr (s :: rest) first_sets result).2 := by
  have h : ∀ r fs, First gr (s :: r) fs result =
      (fs, insert (if s = gr.st_.EOL_ then gr.st_.EPSILON_ else s) result) := by
    intro r fs
    rw [First_cons, if_neg hne, if_pos hT]
    split <;> rfl
  exact ⟨h rest first_sets, fun r fs => by rw [h r fs, h rest first_sets]⟩

/-- C15 at the terminal `id` of the grammar `E -> T E' ; E' -> + T E' | EPSILON ; T -> id`. -/
theorem C15_first_of_terminal_witness :
    exampleClassic.IsTerminal "id" = true ∧ "id" ≠ exampleClassic.st_.EPSILON_ ∧
    First exampleClassic ["id", "E'"] [] ∅ =
      ([], insert (if "id" = exampleClassic.st_.EOL_ then exampleClassic.st_.EPSILON_ else "id")
        ∅) ∧
    ∀ rest' first_sets', (First exampleClassic ("id" :: rest') first_sets' ∅).2 =
      (First exampleClassic ["id", "E'"] [] ∅).2 :=
  ⟨by decide, by decide,
    C15_first_of_terminal exampleClassic "id" ["E'"] [] ∅ (by decide) (by decide)⟩

/-- C16, refuted as stated: in the grammar `EPSILON -> x` the symbol `EPSILON` is a non-terminal
and its FIRST set, as `ComputeFirstSets` computes it, holds `x`; yet for the sequence
`EPSILON b` the call of `First` skips the leading `EPSILON` and adds `b` only. -/
theorem C16_first_of_nonterminal_counterexample :
    exampleEpsilonKey.IsTerminal "EPSILON" = false ∧
    ComputeFirstSets 5 exampleEpsilonKey [] = some [("EPSILON", {"x"})] ∧
    "x" ∈ SetMap.get [("EPSILON", {"x"})] "EPSILON" ∧ "x" ≠ exampleEpsilonKey.st_.EPSILON_ ∧
    (First exampleEpsilonKey ["EPSILON", "b"] [("EPSILON", {"x"})] ∅).2 = {"b"} ∧
    "x" ∉ (First exampleEpsilonKey ["EPSILON", "b"] [("EPSILON", {"x"})] ∅).2 := by
  decide

/-- C16, amended: when the first symbol `A` of a sequence `A :: rest` is a non-terminal other
than `EPSILON`, `First` adds to the accumulator every member of the current FIRST(`A`) other
than `EPSILON`; when `EPSILON` is not in FIRST(`A`) it adds nothing more, and when it is, it adds
exactly what `First` adds for `rest`, which is `EPSILON` when `rest` is empty. -/
theorem C16_first_of_nonterminal (gr : Grammar) (A : String) (rest : List String)
    (first_sets : SetMap) (result : Finset String) (hA : gr.IsTerminal A = false)
    (hne : A ≠ gr.st_.EPSILON_) :
    (First gr (A :: rest) first_sets result).2 =
      (result ∪ (first_sets.get A).filter (fun x => x ≠ gr.st_.EPSILON_)) ∪
        (if gr.st_.EPSILON_ ∈ first_sets.get A then (First gr rest first_sets ∅).2 else ∅) ∧
    (First gr [] first_sets ∅).2 = {gr.st_.EPSILON_} := by
  constructor
  · rw [First_cons, if_neg hne, if_neg (by simp [hA])]
    split
    · rw [First_snd, First_snd, SetMap.get_touch_fun, Finset.empty_union]
    · rw [Finset.union_empty]
  · simp [First]

/-- C16 (amended) at the non-terminal `E'` of the grammar
`E -> T E' ; E' -> + T E' | EPSILON ; T -> id`, with the FIRST sets of the grammar. -/
theorem C16_first_of_nonterminal_witness :
    exampleClassic.IsTerminal "E'" = false ∧ "E'" ≠ exampleClassic.st_.EPSILON_ ∧
    (First exampleClassic ["E'", "$"]
        [("E", {"id"}), ("E'", {"+", "EPSILON"}), ("T", {"id"})] ∅).2 =
      (∅ ∪ (SetMap.get [("E", {"id"}), ("E'", {"+", "EPSILON"}), ("T", {"id"})] "E'").filter
          (fun x => x ≠ exampleClassic.st_.EPSILON_)) ∪
        (if exampleClassic.st_.EPSILON_ ∈
            SetMap.get [("E", {"id"}), ("E'", {"+", "EPSILON"}), ("T", {"id"})] "E'"
          then (First exampleClassic ["$"]
            [("E", {"id"}), ("E'", {"+", "EPSILON"}), ("T", {"id"})] ∅).2
          else ∅) ∧
    (First exampleClassic [] [("E", {"id"}), ("E'", {"+", "EPSILON"}), ("T", {"id"})] ∅).2 =
      {exampleClassic.st_.EPSILON_} :=
  ⟨by decide, by decide,
    C16_first_of_nonterminal exampleClassic "E'" ["$"]
      [("E", {"id"}), ("E'", {"+", "EPSILON"}), ("T", {"id"})] ∅ (by decide) (by decide)⟩

/-- C17: for every grammar and every state of the maps `ComputeFollowSets` returns (with enough
passes allowed) FOLLOW sets closed under the update rule: for every production `lhs -> rhs` and
every position `i` whose symbol `sym` is a non-terminal, with `F` the result of `First` on the
suffix after position `i` (or `{EPSILON}` when that suffix is empty), every member of `F`
other than `EPSILON` is in FOLLOW(`sym`), and if `EPSILON` is in `F` then FOLLOW(`lhs`) is a
subset of FOLLOW(`sym`). -/
theorem C17_follow_closed (gr : Grammar) (first_sets follow_sets : SetMap) :
    ∃ N, ∀ fuel, N ≤ fuel →
      ∃ r, ComputeFollowSets fuel gr first_sets follow_sets = some r ∧
        ∀ e ∈ gr.g_, ∀ rhs ∈ e.2, ∀ i sym, rhs.get? i = some sym →
          gr.IsTerminal sym = false →
          (∀ t ∈ (if i + 1 < rhs.length then (First gr (rhs.drop (i + 1)) r.1 ∅).2
              else {gr.st_.EPSILON_}),
            t ≠ gr.st_.EPSILON_ → t ∈ r.2.get sym) ∧
          (gr.st_.EPSILON_ ∈ (if i + 1 < rhs.length then (First gr (rhs.drop (i + 1)) r.1 ∅).2
              else {gr.st_.EPSILON_}) →
            r.2.get e.1 ⊆ r.2.get sym) := by
  refine ⟨gr.followBound first_sets.get, fun fuel hfuel => ?_⟩
  obtain ⟨r, hr⟩ := ComputeFollowSets_isSome gr first_sets follow_sets fuel hfuel
  refine ⟨r, hr, ?_⟩
  intro e he rhs hrhs i sym hs hT
  have hi : i < rhs.length := (List.get?_eq_some.mp hs).1
  have hsite : (e.1, rhs, i) ∈ gr.sites :=
    (gr.mem_sites (e.1, rhs, i)).mpr ⟨(gr.mem_rules e.1 rhs).mpr ⟨e, he, rfl, hrhs⟩, hi⟩
  have hclosed := ComputeFollowSets_closed gr first_sets follow_sets r fuel hr
    (e.1, rhs, i) hsite sym hs hT
  have hF : (if i + 1 < rhs.length then (First gr (rhs.drop (i + 1)) r.1 ∅).2
      else {gr.st_.EPSILON_}) = firstOf gr r.1.get (rhs.drop (i + 1)) := by
    split
    · rw [First_snd, Finset.empty_union]
    · rw [List.drop_eq_nil_of_le (by omega)]
      rfl
  rw [hF]
  unfold followAdd at hclosed
  constructor
  · intro t ht hne
    exact hclosed (Finset.mem_union_left _ (Finset.mem_filter.mpr ⟨ht, hne⟩))
  · intro hε t ht
    apply hclosed
    apply Finset.mem_union_right
    simp only [hε, if_true]
    exact ht

/-- C11, refuted as stated: the grammar `S -> ` (one non-terminal, no terminal) has one pair of
a non-terminal and a terminal or `EPSILON`, yet the loop of `ComputeFirstSets` executes two
passes, the second of which finds nothing to add; and for the grammar without non-terminals the
number of pairs is zero while each of the two loops executes one pass. -/
theorem C11_pass_count_counterexample :
    exampleEmptyProduction.keys.toFinset.card = 1 ∧ exampleEmptyProduction.terminals.card = 0 ∧
    exampleEmptyProduction.pairCount = 1 ∧
    ComputeFirstSets.passes exampleEmptyProduction 5 (initSets exampleEmptyProduction []) =
      some 2 ∧
    exampleEmpty.pairCount = 0 ∧
    ComputeFirstSets.passes exampleEmpty 5 (initSets exampleEmpty []) = some 1 ∧
    ComputeFollowSets.passes exampleEmpty 5 [] (ComputeFollowSets.init exampleEmpty []) =
      some 1 := by
  decide

/-- C11, amended: for every grammar, the number of full passes the do-while loop of
`ComputeFirstSets` executes, and likewise the number the do-while loop of `ComputeFollowSets`
executes on the FIRST sets that `ComputeFirstSets` left, is at most the number of pairs of a
non-terminal and a terminal or `EPSILON` plus one, that is
(number of non-terminals) × (number of terminals + 1) + 1, where the terminals are the
terminal symbols other than `EPSILON` that occur in the productions; a budget of that many
passes suffices for both loops to return. -/
theorem C11_pass_count (gr : Grammar) (first_sets follow_sets : SetMap) (fuel : Nat)
    (h : gr.pairCount + 1 ≤ fuel) :
    ∃ fs r n m, ComputeFirstSets fuel gr first_sets = some fs ∧
      ComputeFirstSets.passes gr fuel (initSets gr first_sets) = some n ∧
      n ≤ gr.keys.toFinset.card * ((gr.terminals.erase gr.st_.EPSILON_).card + 1) + 1 ∧
      ComputeFollowSets fuel gr fs follow_sets = some r ∧
      ComputeFollowSets.passes gr fuel fs (ComputeFollowSets.init gr follow_sets) = some m ∧
      m ≤ gr.keys.toFinset.card * ((gr.terminals.erase gr.st_.EPSILON_).card + 1) + 1 := by
  have hb1 : gr.firstBound ≤ gr.pairCount + 1 := le_of_eq gr.firstBound_eq
  obtain ⟨fs, hfs⟩ := ComputeFirstSets_isSome gr first_sets fuel (hb1.trans h)
  have hb2 : gr.followBound fs.get ≤ gr.pairCount + 1 :=
    gr.followBound_le_pairCount _ (ComputeFirstSets_bounded gr first_sets fs fuel hfs)
  obtain ⟨r, hr⟩ := ComputeFollowSets_isSome gr fs follow_sets fuel (hb2.trans h)
  obtain ⟨fs1, h1⟩ := ComputeFirstSets_isSome gr first_sets (gr.pairCount + 1) hb1
  obtain ⟨n, hn, hpn⟩ := ComputeFirstSets.passes_of_loop gr _ _ _ h1
  obtain ⟨r1, h2⟩ := ComputeFollowSets_isSome gr fs follow_sets (gr.pairCount + 1) hb2
  obtain ⟨m, hm, hpm⟩ := ComputeFollowSets.follow_passes_of_loop gr _ _ _ _ h2
  exact ⟨fs, r, n, m, hfs, ComputeFirstSets.passes_mono gr _ _ n hpn fuel h, hn, hr,
    ComputeFollowSets.follow_passes_mono gr _ _ _ m hpm fuel h, hm⟩

/-- C11 (amended) at the grammar `E -> T E' ; E' -> + T E' | EPSILON ; T -> id`, which has
three non-terminals and the two terminals `+` and `id`, hence nine pairs. -/
theorem C11_pass_count_witness :
    exampleClassic.pairCount = 9 ∧ exampleClassic.pairCount + 1 ≤ 10 ∧
    ∃ fs r n m, ComputeFirstSets 10 exampleClassic [] = some fs ∧
      ComputeFirstSets.passes exampleClassic 10 (initSets exampleClassic []) = some n ∧
      n ≤ exampleClassic.keys.toFinset.card *
        ((exampleClassic.terminals.erase exampleClassic.st_.EPSILON_).card + 1) + 1 ∧
      ComputeFollowSets 10 exampleClassic fs [] = some r ∧
      ComputeFollowSets.passes exampleClassic 10 fs (ComputeFollowSets.init exampleClassic [])
        = some m ∧
      m ≤ exampleClassic.keys.toFinset.card *
        ((exampleClassic.terminals.erase exampleClassic.st_.EPSILON_).card + 1) + 1 :=
  ⟨by decide, by decide, C11_pass_count exampleClassic [] [] 10 (by decide)⟩

/-- C14, refuted as stated: for the grammar `S -> a S | b` the text of `PrintTable` renders the
production `a S` as `[a S ]`, with a space after the last symbol, not as the symbols joined by
single spaces between brackets, `[a S]`. -/
theorem C14_print_table_counterexample :
    ((LL1Parser.new 10 exampleList).bind (CreateLL1Table 10)).map
        (fun r => (cell r.2.ll1_t_ "S" "a", PrintTable r.2 ["a", "b", "c"]))
      = some (some [["a", "S"]], "\nLL(1) Table:\n\nS:\n  a -> [a S ]\n  b -> [b ]\n  c -> -\n") ∧
    PrintTable.prods "" [["a", "S"]] = "[a S ]" ∧
    PrintTable.prods "" [["a", "S"]] ≠ "[" ++ " ".intercalate ["a", "S"] ++ "]" := by
  decide

/-- C14, amended: in the text `PrintTable` returns, for every (non-terminal, terminal) line,
every production of a present cell is rendered as `[` followed by its symbols, each of them
followed by a single space, followed by `]` (for example `[a S ]`), the productions of one
cell are concatenated in cell order, and an absent cell is rendered as the placeholder `-`. -/
theorem C14_print_table (p : LL1Parser) (all_terminals : List String) :
    PrintTable p all_terminals = "\nLL(1) Table:\n" ++ String.join
      (((p.ll1_t_.map (fun e => e.1)).insertionSort
          (fun a b => PrintTable.order p.gr_.axiom_ a b = true)).map
        (fun lhs => "\n" ++ lhs ++ ":\n" ++ String.join (all_terminals.map
          (fun terminal => "  " ++ terminal ++ " -> " ++
            (match cell p.ll1_t_ lhs terminal with
              | some prods => String.join (prods.map
                  (fun prod => "[" ++ String.join (prod.map (fun smb => smb ++ " ")) ++ "]"))
              | none => "-") ++ "\n")))) := by
  unfold PrintTable
  dsimp only
  rw [← foldl_append_join]
  congr 1
  funext oss1 lhs
  have hline : PrintTable.line p.ll1_t_ lhs = fun oss terminal => oss ++
      (fun terminal => "  " ++ terminal ++ " -> " ++
        (match cell p.ll1_t_ lhs terminal with
          | some prods => String.join (prods.map
              (fun prod => "[" ++ String.join (prod.map (fun smb => smb ++ " ")) ++ "]"))
          | none => "-") ++ "\n") terminal := by
    funext oss terminal
    unfold PrintTable.line
    dsimp only
    cases cell p.ll1_t_ lhs terminal with
    | none => simp only [String.append_assoc]
    | some prods => simp only [PrintTable.prods_eq, String.append_assoc]
  rw [hline, foldl_append_join]
  simp only [String.append_assoc]

/-- C18: let `EPSILON` and `EOL` be distinct symbols and let no set of a non-terminal in the
map `ComputeFirstSets` starts from hold `EOL` (as in the empty map of a new parser). Then, for
every grammar in which `EOL` is classified as a terminal, at every point of `ComputeFirstSets`
no FIRST set of a non-terminal holds `EOL`, the set `First` produces for any sequence does not
hold `EOL`, and the replacement of `EOL` by `EPSILON` in the pass leaves `tempFirst` as it is;
the result of `ComputeFirstSets` is such a point, and with the replacement left out
`ComputeFirstSets` returns the same map. -/
theorem C18_eol_not_in_first (gr : Grammar) (first_sets : SetMap)
    (hL : gr.IsTerminal gr.st_.EOL_ = true) (hne : gr.st_.EPSILON_ ≠ gr.st_.EOL_)
    (h0 : ∀ k, gr.IsTerminal k = false → gr.st_.EOL_ ∉ first_sets.get k) :
    (∀ fs, ComputeFirstSets.Point gr first_sets fs →
      (∀ k, gr.IsTerminal k = false → gr.st_.EOL_ ∉ fs.get k) ∧
      (∀ rule result, gr.st_.EOL_ ∉ result → gr.st_.EOL_ ∉ (First gr rule fs result).2) ∧
      (∀ rule, replaceEOL gr (First gr rule fs ∅).2 = (First gr rule fs ∅).2)) ∧
    (∀ fuel r, ComputeFirstSets fuel gr first_sets = some r →
      ComputeFirstSets.Point gr first_sets r) ∧
    (∀ fuel, gr.firstBound ≤ fuel → ∃ r, ComputeFirstSets fuel gr first_sets = some r) ∧
    (∀ fuel, ComputeFirstSetsPlain fuel gr first_sets = ComputeFirstSets fuel gr first_sets) := by
  have _ := hL
  refine ⟨fun fs hfs => ?_, fun fuel r h => ComputeFirstSets_point gr first_sets r fuel h,
    fun fuel h => ComputeFirstSets_isSome gr first_sets fuel h,
    fun fuel => ComputeFirstSets.loop_eq_plain gr hne fuel _ (initSets_clean gr first_sets)⟩
  have hc := ComputeFirstSets.point_clean gr hne first_sets fs h0 hfs
  have hF : ∀ rule result, gr.st_.EOL_ ∉ result →
      gr.st_.EOL_ ∉ (First gr rule fs result).2 := by
    intro rule result hres
    rw [First_snd, Finset.mem_union, not_or]
    exact ⟨hres, firstOf_clean gr fs.get hne hc rule⟩
  exact ⟨hc, hF, fun rule =>
    replaceEOL_eq gr _ (fun h => absurd h (hF rule ∅ (Finset.not_mem_empty _)))⟩

/-- C18 at the grammar `E -> T E' ; E' -> + T E' | EPSILON ; T -> id` and the empty map. -/
theorem C18_eol_not_in_first_witness :
    exampleClassic.IsTerminal exampleClassic.st_.EOL_ = true ∧
    exampleClassic.st_.EPSILON_ ≠ exampleClassic.st_.EOL_ ∧
    (∀ fs, ComputeFirstSets.Point exampleClassic [] fs →
      (∀ k, exampleClassic.IsTerminal k = false → exampleClassic.st_.EOL_ ∉ fs.get k) ∧
      (∀ rule result, exampleClassic.st_.EOL_ ∉ result →
        exampleClassic.st_.EOL_ ∉ (First exampleClassic rule fs result).2) ∧
      (∀ rule, replaceEOL exampleClassic (First exampleClassic rule fs ∅).2 =
        (First exampleClassic rule fs ∅).2)) ∧
    (∀ fuel r, ComputeFirstSets fuel exampleClassic [] = some r →
      ComputeFirstSets.Point exampleClassic [] r) ∧
    (∀ fuel, exampleClassic.firstBound ≤ fuel →
      ∃ r, ComputeFirstSets fuel exampleClassic [] = some r) ∧
    (∀ fuel, ComputeFirstSetsPlain fuel exampleClassic [] = ComputeFirstSets fuel exampleClassic [])
    :=
  ⟨by decide, by decide,
    C18_eol_not_in_first exampleClassic [] (by decide) (by decide)
      (fun k _ => by simp [SetMap.get, SetMap.find])⟩

/-- C19: let `EPSILON` and `EOL` be distinct symbols and let no set of the map
`ComputeFollowSets` starts from hold `EPSILON` (as in the empty map of a new parser). Then, for
every grammar, at every point of `ComputeFollowSets` no FOLLOW set holds `EPSILON`, and the
result of `ComputeFollowSets` is such a point; `PredictionSymbols` on such FOLLOW sets never
returns a set that holds `EPSILON`; and `CreateLL1Table`, called on a table without a cell in
an `EPSILON` column (as the empty table of a new parser), leaves a table without a cell in an
`EPSILON` column, in particular when it is called on the parser the constructor built. -/
theorem C19_no_epsilon_in_follow (gr : Grammar) (first_sets follow_sets : SetMap)
    (hne : gr.st_.EPSILON_ ≠ gr.st_.EOL_) (h0 : ∀ k, gr.st_.EPSILON_ ∉ follow_sets.get k) :
    (∀ fo, ComputeFollowSets.Point gr follow_sets fo →
      (∀ k, gr.st_.EPSILON_ ∉ fo.get k) ∧
      ∀ fs antecedent consequent,
        gr.st_.EPSILON_ ∉ (PredictionSymbols gr fs fo antecedent consequent).2) ∧
    (∀ fuel r, ComputeFollowSets fuel gr first_sets follow_sets = some r →
      ComputeFollowSets.Point gr follow_sets r.2) ∧
    (∀ fuel, gr.followBound first_sets.get ≤ fuel →
      ∃ r, ComputeFollowSets fuel gr first_sets follow_sets = some r) ∧
    (∀ fuel t b q, (∀ e ∈ t, e.2 gr.st_.EPSILON_ = none) →
      CreateLL1Table fuel ⟨gr, first_sets, follow_sets, t⟩ = some (b, q) →
      (∀ k, gr.st_.EPSILON_ ∉ q.follow_sets_.get k) ∧
      ∀ lhs, cell q.ll1_t_ lhs gr.st_.EPSILON_ = none) ∧
    (∀ fuel, gr.passBound ≤ fuel →
      ∃ p b q, LL1Parser.new fuel gr = some p ∧ CreateLL1Table fuel p = some (b, q) ∧
        (∀ k, gr.st_.EPSILON_ ∉ q.follow_sets_.get k) ∧
        ∀ lhs, cell q.ll1_t_ lhs gr.st_.EPSILON_ = none) := by
  refine ⟨fun fo hfo => ?_, fun fuel r h => ComputeFollowSets_point gr first_sets follow_sets r fuel h,
    fun fuel h => ComputeFollowSets_isSome gr first_sets follow_sets fuel h,
    fun fuel t b q ht h => ?_, fun fuel hfuel => ?_⟩
  · have hc := ComputeFollowSets.follow_point_clean gr hne follow_sets fo h0 hfo
    refine ⟨hc, fun fs antecedent consequent => ?_⟩
    rw [PredictionSymbols_snd]
    exact predOf_clean gr fs.get fo hc antecedent consequent
  · obtain ⟨_, h1, h2⟩ := CreateLL1Table_clean fuel ⟨gr, first_sets, follow_sets, t⟩ hne h0 ht b q h
    exact ⟨h1, fun lhs => cell_of_tableClean gr q.ll1_t_ h2 lhs⟩
  · obtain ⟨fs, r, _, hr, hnew⟩ := LL1Parser.new_isSome gr fuel hfuel
    obtain ⟨b, q, hq⟩ := CreateLL1Table_isSome fuel ⟨gr, r.1, r.2, []⟩ hfuel
    have hr2 : gr.FollowClean r.2.get :=
      ComputeFollowSets.follow_point_clean gr hne [] r.2 (fun k => by simp [SetMap.get, SetMap.find])
        (ComputeFollowSets_point gr fs [] r fuel hr)
    obtain ⟨_, h1, h2⟩ := CreateLL1Table_clean fuel ⟨gr, r.1, r.2, []⟩ hne hr2
      (fun e he => by simp at he) b q hq
    exact ⟨_, b, q, hnew, hq, h1, fun lhs => cell_of_tableClean gr q.ll1_t_ h2 lhs⟩

/-- C19 at the grammar `E -> T E' ; E' -> + T E' | EPSILON ; T -> id` and the empty maps. -/
theorem C19_no_epsilon_in_follow_witness :
    exampleClassic.st_.EPSILON_ ≠ exampleClassic.st_.EOL_ ∧
    (∀ k, exampleClassic.st_.EPSILON_ ∉ SetMap.get [] k) ∧
    ((LL1Parser.new 13 exampleClassic).bind (CreateLL1Table 13)).map
      (fun r => (r.2.follow_sets_.get "E'", cell r.2.ll1_t_ "E'" "EPSILON",
        cell r.2.ll1_t_ "E'" "$")) = some ({"$"}, none, some [["EPSILON"]]) ∧
    ∀ fuel, exampleClassic.passBound ≤ fuel →
      ∃ p b q, LL1Parser.new fuel exampleClassic = some p ∧
        CreateLL1Table fuel p = some (b, q) ∧
        (∀ k, exampleClassic.st_.EPSILON_ ∉ q.follow_sets_.get k) ∧
        ∀ lhs, cell q.ll1_t_ lhs exampleClassic.st_.EPSILON_ = none :=
  ⟨by decide, fun k => by simp [SetMap.get, SetMap.find], by decide,
    (C19_no_epsilon_in_follow exampleClassic [] [] (by decide)
      (fun k => by simp [SetMap.get, SetMap.find])).2.2.2.2⟩

/-- C13: for every grammar, with `p` the parser the constructor builds, a first call of
`CreateLL1Table` returns a boolean `b` and leaves a parser `q`, and a second call, on `q`,
returns the same `b` and leaves the parser `q` as it is: the table, the FIRST sets and the
FOLLOW sets are those the first call left. When both maps of `q` are non-empty the second call
does not run a single pass of `ComputeFirstSets` or `ComputeFollowSets`: it gives the same
result with any budget of passes, a budget of zero included. -/
theorem C13_second_call (gr : Grammar) (fuel : Nat) (hfuel : gr.passBound ≤ fuel) :
    ∃ p b q, LL1Parser.new fuel gr = some p ∧ CreateLL1Table fuel p = some (b, q) ∧
      CreateLL1Table fuel q = some (b, q) ∧
      (q.first_sets_ ≠ [] → q.follow_sets_ ≠ [] → ∀ n, CreateLL1Table n q = some (b, q)) := by
  by_cases hg : gr.g_ = []
  · obtain ⟨n, rfl⟩ : ∃ n, fuel = n + 1 :=
      ⟨fuel - 1, by have : 1 ≤ gr.passBound := Nat.le_add_left _ _; omega⟩
    obtain ⟨h1, h2⟩ := LL1Parser.new_empty gr hg n
    exact ⟨_, _, _, h1, h2, h2, fun h => absurd rfl h⟩
  · obtain ⟨fs, r, hfs, hr, hnew⟩ := LL1Parser.new_isSome gr fuel hfuel
    obtain ⟨b, q, hq⟩ := CreateLL1Table_isSome fuel ⟨gr, r.1, r.2, []⟩ hfuel
    have hk0 := ComputeFirstSets_hasKeys gr [] fs fuel hfs
    have e1 : r.1 = fs := ComputeFollowSets_fst_eq gr fs [] r fuel hk0 hr
    have hk : gr.HasKeys r.1 := e1 ▸ hk0
    have n1 : r.1 ≠ [] := by
      obtain ⟨e, he⟩ := List.exists_mem_of_ne_nil _ hg
      exact SetMap.ne_nil_of_contains
        (hk e.1 ((gr.isTerminal_eq_false_iff e.1).mpr (List.mem_map_of_mem _ he)))
    have n2 : r.2 ≠ [] := by
      intro h
      have hm := ComputeFollowSets_mem_start gr fs [] r fuel hr
      rw [h] at hm
      simp [SetMap.get, SetMap.find] at hm
    obtain ⟨_, _, h3⟩ := CreateLL1Table_again fuel ⟨gr, r.1, r.2, []⟩ hk n1 n2 b q hq
    exact ⟨_, b, q, hnew, hq, h3 fuel, fun _ _ n => h3 n⟩

/-- C13 at the grammar `E -> T E' ; E' -> + T E' | EPSILON ; T -> id`. -/
theorem C13_second_call_witness :
    exampleClassic.passBound ≤ 13 ∧
    ∃ p b q, LL1Parser.new 13 exampleClassic = some p ∧ CreateLL1Table 13 p = some (b, q) ∧
      CreateLL1Table 13 q = some (b, q) ∧
      (q.first_sets_ ≠ [] → q.follow_sets_ ≠ [] → ∀ n, CreateLL1Table n q = some (b, q)) :=
  ⟨by decide, C13_second_call exampleClassic 13 (by decide)⟩

/-- C20: let two grammars hold the same non-terminals with the same productions, enumerated in
two different orders (no non-terminal twice), with the same axiom and reserved symbols. Then
`ComputeFirstSets` gives the same FIRST sets for both, from any start value of the map, and
`ComputeFollowSets` gives the same FOLLOW sets; and for the parsers the constructor builds,
`CreateLL1Table` returns the same boolean and leaves the same cells, FIRST sets and FOLLOW
sets. -/
theorem C20_order_independent (gr1 gr2 : Grammar) (hperm : gr1.g_.Perm gr2.g_)
    (hax : gr1.axiom_ = gr2.axiom_) (hst : gr1.st_ = gr2.st_) (hnd : gr1.keys.Nodup)
    (fuel : Nat) (hfuel : gr1.passBound ≤ fuel) :
    (∀ first_sets follow_sets, ∃ fs1 fs2 r1 r2,
      ComputeFirstSets fuel gr1 first_sets = some fs1 ∧
      ComputeFirstSets fuel gr2 first_sets = some fs2 ∧
      ComputeFollowSets fuel gr1 fs1 follow_sets = some r1 ∧
      ComputeFollowSets fuel gr2 fs2 follow_sets = some r2 ∧
      (∀ k, fs1.find k = fs2.find k) ∧ (∀ k, r1.2.find k = r2.2.find k)) ∧
    ∃ p1 p2 b q1 q2, LL1Parser.new fuel gr1 = some p1 ∧ LL1Parser.new fuel gr2 = some p2 ∧
      CreateLL1Table fuel p1 = some (b, q1) ∧ CreateLL1Table fuel p2 = some (b, q2) ∧
      (∀ k, p1.first_sets_.find k = p2.first_sets_.find k) ∧
      (∀ k, p1.follow_sets_.find k = p2.follow_sets_.find k) ∧
      (∀ k, q1.first_sets_.find k = q2.first_sets_.find k) ∧
      (∀ k, q1.follow_sets_.find k = q2.follow_sets_.find k) ∧
      ∀ A t, cell q1.ll1_t_ A t = cell q2.ll1_t_ A t := by
  have h : gr1.Reordered gr2 := ⟨hperm, hax, hst⟩
  refine ⟨fun first_sets follow_sets => ?_, CreateLL1Table_reordered h hnd fuel hfuel⟩
  obtain ⟨fs1, r1, hfs1, hr1⟩ := analysis_isSome gr1 first_sets follow_sets fuel hfuel
  obtain ⟨fs2, r2, hfs2, hr2⟩ := analysis_isSome gr2 first_sets follow_sets fuel
    (h.passBound_same ▸ hfuel)
  have hE := ComputeFirstSets_reordered h first_sets fs1 fs2 fuel fuel hfs1 hfs2
  exact ⟨fs1, fs2, r1, r2, hfs1, hfs2, hr1, hr2, hE,
    ComputeFollowSets_reordered h fs1 fs2 follow_sets (funext hE.get) r1 r2 fuel fuel hr1 hr2⟩

/-- C20 at the grammar `E -> T E' ; E' -> + T E' | EPSILON ; T -> id`, enumerated in the orders
`E`, `E'`, `T` and `T`, `E'`, `E`. -/
theorem C20_order_independent_witness :
    exampleClassic.g_.Perm exampleClassicReordered.g_ ∧
    exampleClassic.axiom_ = exampleClassicReordered.axiom_ ∧
    exampleClassic.st_ = exampleClassicReordered.st_ ∧ exampleClassic.keys.Nodup ∧
    exampleClassic.passBound ≤ 13 ∧
    ∃ p1 p2 b q1 q2, LL1Parser.new 13 exampleClassic = some p1 ∧
      LL1Parser.new 13 exampleClassicReordered = some p2 ∧
      CreateLL1Table 13 p1 = some (b, q1) ∧ CreateLL1Table 13 p2 = some (b, q2) ∧
      (∀ k, p1.first_sets_.find k = p2.first_sets_.find k) ∧
      (∀ k, p1.follow_sets_.find k = p2.follow_sets_.find k) ∧
      (∀ k, q1.first_sets_.find k = q2.first_sets_.find k) ∧
      (∀ k, q1.follow_sets_.find k = q2.follow_sets_.find k) ∧
      ∀ A t, cell q1.ll1_t_ A t = cell q2.ll1_t_ A t :=
  ⟨by decide, rfl, rfl, by decide, by decide,
    (C20_order_independent exampleClassic exampleClassicReordered (by decide) rfl rfl
      (by decide) 13 (by decide)).2⟩

end LL1
